import Mathlib

/-!
Job control of the shell (`jobs.c`, `shell.c`).

A shallow embedding of the job table, the `SIGCHLD` handler, the foreground
monitor, the background reporter and the pipeline orchestrator, followed by
theorems about them.

Conventions of the embedding.

* `int` and `pid_t` values are `Int`; array indices are `Nat`.
* A `proc_t *` array with its length `nproc` is a `List Proc`; the `NULL`
  array is `[]`.  A `char *` command is an `Option String` (`none` is `NULL`).
* Behaviour that C leaves undefined (reading `proc[-1]`, `proc[0]` of a `NULL`
  array, `strdup(NULL)`), a failed `assert` and `app_error` are all the
  result `none`.
* `Sigsuspend` returns after one run of `sigchld_handler`; the children's
  status reports that `waitpid` hands out are given as lists.
* What the sources take from `shell.h`, the system headers and the library
  (`Header`, `Lib`) is a parameter of the definitions.  Calls that act on the
  operating system alone (`Setpgid`, `Close`, `Sigprocmask`, `errno`) are left
  out; the terminal, the lines printed and the signals sent are kept in `St`.
-/

namespace Sh

/-! ## What `shell.h` and the system headers provide -/

/-- Enumerators and wait-status tests that the sources use but do not define
(`shell.h`, `<sys/wait.h>`); the embedding is parametric in them. -/
structure Header where
  ALL : Int
  FINISHED : Int
  RUNNING : Int
  STOPPED : Int
  WIFEXITED : Int → Bool
  WIFSIGNALED : Int → Bool
  WIFSTOPPED : Int → Bool
  WIFCONTINUED : Int → Bool
  WEXITSTATUS : Int → Int
  WTERMSIG : Int → Int

/-- The three job states are pairwise different enumerators. -/
def Header.Distinct (hd : Header) : Prop :=
  hd.FINISHED ≠ hd.RUNNING ∧ hd.FINISHED ≠ hd.STOPPED ∧ hd.RUNNING ≠ hd.STOPPED

/-- A status is never both a normal exit and a termination by a signal. -/
def Header.ExitOrSignal (hd : Header) : Prop :=
  ∀ status, hd.WIFSIGNALED status = true → hd.WIFEXITED status = false

/-- A concrete header on which the definitions can be evaluated: the job states
numbered from zero with `ALL = -1`, and the wait-status encoding of Linux. -/
def linux : Header where
  ALL := -1
  FINISHED := 0
  RUNNING := 1
  STOPPED := 2
  WIFEXITED := fun s => s % 128 == 0
  WIFSIGNALED := fun s => decide (1 ≤ s % 128) && decide (s % 128 ≤ 126)
  WIFSTOPPED := fun s => s % 256 == 127
  WIFCONTINUED := fun s => s == 65535
  WEXITSTATUS := fun s => (s / 256) % 256
  WTERMSIG := fun s => s % 128

/-- Modelled from the spec: the foreground slot `FG` of `shell.h` is index 0. -/
abbrev FG : Nat := 0

/-- Modelled from the spec: the background slots of `shell.h` start at `BG = 1`. -/
abbrev BG : Nat := 1

/-! ## Data model (`jobs.c`, lines 3-21) -/

/-- The record `proc_t`. -/
structure Proc where
  pid : Int
  state : Int
  exitcode : Int
deriving DecidableEq, Repr

/-- The record `job_t`; `nproc` is the length of `proc`. -/
structure Job where
  pgid : Int
  proc : List Proc
  tmodes : Nat
  state : Int
  command : Option String
deriving DecidableEq, Repr

/-- The field `nproc`. -/
def Job.nproc (job : Job) : Nat := job.proc.length

/-- A slot filled with zero bytes (`calloc`, `memset(.., 0, ..)`). -/
def Job.zero : Job := { pgid := 0, proc := [], tmodes := 0, state := 0, command := none }

/-- The signals the shell sends with `Kill`. -/
inductive Sig where
  | SIGCONT
  | SIGTERM
deriving DecidableEq, Repr

/-- One call of `msg`: the format string used and its arguments. -/
inductive Msg where
  | running (j : Nat) (cmd : Option String)
  | suspended (j : Nat) (cmd : Option String)
  | continued (j : Nat) (cmd : Option String)
  | exited (j : Nat) (cmd : Option String) (code : Int)
  | killed (j : Nat) (cmd : Option String) (sig : Int)
deriving DecidableEq, Repr

/-- The globals of `jobs.c` together with what the shell does to the outside:
the array `jobs` (slot 0 is `fg`, slots 1.. are `bg`, so `njobmax ≥ 1` as in
the program), the terminal's foreground group and modes, `shell_tmodes`, the
shell's own group, the lines printed and the signals sent. -/
structure St where
  fg : Job
  bg : List Job
  tty_pgrp : Int
  tty_modes : Nat
  shell_tmodes : Nat
  shell_pgrp : Int
  out : List Msg
  sent : List (Int × Sig)
deriving DecidableEq, Repr

/-- The array `jobs`. -/
def St.jobs (s : St) : List Job := s.fg :: s.bg

/-- The variable `njobmax`. -/
def St.njobmax (s : St) : Nat := s.bg.length + 1

/-- The read `jobs[j]`. -/
def St.getJob (s : St) (j : Nat) : Option Job := s.jobs[j]?

/-- The write `jobs[j] = job` (for `j < njobmax`). -/
def St.setJob (s : St) : Nat → Job → St
  | 0, job => { s with fg := job }
  | j + 1, job => { s with bg := s.bg.set j job }

/-- A child status report: the pid `waitpid` returns and the status it stores. -/
abbrev Notif := Int × Int

/-! ## `sigchld_handler` (`jobs.c`, lines 23-86) -/

/-- Body of the inner loops (lines 41-57) for one process record. -/
def updproc (hd : Header) (pid status : Int) (p : Proc) : Proc :=
  if p.pid = pid then
    if hd.WIFCONTINUED status then { p with state := hd.RUNNING }
    else if hd.WIFSTOPPED status then { p with state := hd.STOPPED }
    else if hd.WIFEXITED status || hd.WIFSIGNALED status then
      { p with state := hd.FINISHED, exitcode := status }
    else p
  else p

/-- The update of the records of one job by a function on records. -/
def withProc (g : Proc → Proc) (job : Job) : Job := { job with proc := job.proc.map g }

/-- Lines 37-59: every record of every job is visited. -/
def updjobs (hd : Header) (pid status : Int) (js : List Job) : List Job :=
  js.map fun job => { job with proc := job.proc.map (updproc hd pid status) }

/-- The flag `continue_update` after lines 37-59: some record has the pid. -/
def known (pid : Int) (js : List Job) : Bool :=
  js.any fun job => job.proc.any fun p => decide (p.pid = pid)

/-- The `do ... while (continue_update)` loop (lines 31-61).  The list holds
what successive calls of `waitpid` would report; when it is empty `waitpid`
reports no child.  Returns the table and the reports not yet fetched. -/
def reap (hd : Header) : List Job → List Notif → List Job × List Notif
  | js, [] => (js, [])
  | js, (pid, status) :: q =>
    if 0 < pid then
      if known pid js then reap hd (updjobs hd pid status js) q
      else (updjobs hd pid status js, q)
    else (js, q)

/-- The loop of lines 72-78: is every later state equal to `last_state`? -/
def allSame (last_state : Int) : List Proc → Bool
  | [] => true
  | p :: ps => if last_state ≠ p.state then false else allSame last_state ps

/-- Lines 68-83 for one slot; `proc[0]` of an empty array is undefined. -/
def rederive (job : Job) : Option Job :=
  if job.pgid ≠ 0 then
    match job.proc with
    | [] => none
    | p0 :: ps => if allSame p0.state ps then some { job with state := p0.state } else some job
  else some job

/-- The loop of lines 66-84. -/
def rederiveAll : List Job → Option (List Job)
  | [] => some []
  | job :: js =>
    match rederive job, rederiveAll js with
    | some job', some js' => some (job' :: js')
    | _, _ => none

/-- The handler: first the reaping loop, then the job states. -/
def sigchld_handler (hd : Header) (s : St) (q : List Notif) : Option (St × List Notif) :=
  match rederiveAll (reap hd s.jobs q).1 with
  | some (fg' :: bg') => some ({ s with fg := fg', bg := bg' }, (reap hd s.jobs q).2)
  | _ => none

/-! ## `exitcode`, `deljob`, `jobstate` (`jobs.c`, lines 88-177) -/

/-- The read `job->proc[job->nproc - 1].exitcode`; undefined without a record. -/
def exitcode (job : Job) : Option Int :=
  if job.nproc = 0 then none else (job.proc[job.nproc - 1]?).map Proc.exitcode

/-- Function `deljob`; the `assert` fails on a job that is not FINISHED. -/
def deljob (hd : Header) (job : Job) : Option Job :=
  if job.state = hd.FINISHED then some { job with pgid := 0, command := none, proc := [] }
  else none

/-- Function `jobstate`; `status` is the content of `*statusp`.  Returns the
state, the new content of `*statusp` and the new globals. -/
def jobstate (hd : Header) (s : St) (j : Nat) (status : Int) : Option (Int × Int × St) :=
  match s.getJob j with
  | none => none
  | some job =>
    if job.state = hd.FINISHED then
      match exitcode job, deljob hd job with
      | some e, some job' => some (job.state, e, s.setJob j job')
      | _, _ => none
    else some (job.state, status, s)

/-! ## Slot allocation and movement (`jobs.c`, lines 93-138) -/

/-- The scan of `allocjob` (lines 95-97) over the slots from index `j` on. -/
def findFree : List Job → Nat → Option Nat
  | [], _ => none
  | job :: js, j => if job.pgid = 0 then some j else findFree js (j + 1)

/-- Function `allocjob`: a free background slot, or a new zeroed one at the end. -/
def allocjob (s : St) : Nat × St :=
  match findFree s.bg BG with
  | some j => (j, s)
  | none => (s.njobmax, { s with bg := s.bg ++ [Job.zero] })

/-- Function `movejob`; the `assert` wants a free destination.  Both indices
must be slots, and `memcpy` of a slot onto itself is left undefined. -/
def movejob (s : St) (src dst : Nat) : Option St :=
  match s.getJob src, s.getJob dst with
  | some a, some b =>
    if b.pgid = 0 ∧ src ≠ dst then some ((s.setJob dst a).setJob src Job.zero) else none
  | _, _ => none

/-- Function `jobcmd`. -/
def jobcmd (s : St) (j : Nat) : Option (Option String) :=
  (s.getJob j).map Job.command

/-! ## `Sigsuspend` and `monitorjob` (`jobs.c`, lines 275-308) -/

/-- One `Sigsuspend(mask)` that returns: the shell sleeps until the handler
has run once.  `pend` are the reports left over by earlier runs, `b` the
reports that arrive meanwhile.  Where the loops below have no delivery left,
the call never returns. -/
def Sigsuspend (hd : Header) (s : St) (pend b : List Notif) : Option (St × List Notif) :=
  sigchld_handler hd s (pend ++ b)

/-- The loop `while ((state = jobstate(FG, &status)) == RUNNING) Sigsuspend(mask);`
(lines 287-288).  Returns `state`, `status`, the globals, the reports still
pending and the deliveries not yet used. -/
def monitorWait (hd : Header) (s : St) (status : Int) (pend : List Notif) :
    List (List Notif) → Option (Int × Int × St × List Notif × List (List Notif))
  | [] =>
    match jobstate hd s FG status with
    | some (state, status', s') =>
      if state = hd.RUNNING then none else some (state, status', s', pend, [])
    | none => none
  | b :: bs =>
    match jobstate hd s FG status with
    | some (state, status', s') =>
      if state = hd.RUNNING then
        match Sigsuspend hd s' pend b with
        | some (s'', pend') => monitorWait hd s'' status' pend' bs
        | none => none
      else some (state, status', s', pend, b :: bs)
    | none => none

/-- Lines 290-302 of `monitorjob`: what is done once the loop has ended with
`state` and `status`.  Returns `exitcode` and the globals. -/
def monitorEnd (hd : Header) (state status : Int) (s : St) : Option (Int × St) :=
  if state = hd.STOPPED then
    let s1 := { s with fg := { s.fg with tmodes := s.tty_modes } }
    let a := allocjob s1
    match movejob a.2 FG a.1 with
    | some s2 =>
      match jobcmd s2 a.1 with
      | some c => some (0, { s2 with out := s2.out ++ [Msg.suspended a.1 c] })
      | none => none
    | none => none
  else if state = hd.FINISHED then
    if hd.WIFEXITED status then some (hd.WEXITSTATUS status, s)
    else if hd.WIFSIGNALED status then some (hd.WTERMSIG status, s)
    else some (0, s)
  else some (0, s)

/-- Lines 281-284: the terminal is handed to the foreground job. -/
def giveTerminal (s : St) : St :=
  if s.tty_pgrp ≠ s.fg.pgid then { s with tty_pgrp := s.fg.pgid, tty_modes := s.fg.tmodes }
  else s

/-- Lines 304-305: the terminal goes back to the shell. -/
def takeTerminal (s : St) : St :=
  { s with tty_pgrp := s.shell_pgrp, tty_modes := s.shell_tmodes }

/-- Function `monitorjob`.  `status0` is the content of the uninitialised
local `status`.  Returns the exit code, the globals, the reports still
pending and the deliveries not yet used. -/
def monitorjob (hd : Header) (s : St) (status0 : Int) (pend : List Notif)
    (bs : List (List Notif)) : Option (Int × St × List Notif × List (List Notif)) :=
  match monitorWait hd (giveTerminal s) status0 pend bs with
  | some (state, status, s1, pend', bs') =>
    match monitorEnd hd state status s1 with
    | some (code, s2) => some (code, takeTerminal s2, pend', bs')
    | none => none
  | none => none

/-! ## `resumejob` (`jobs.c`, lines 187-223) -/

/-- The loop of line 189, started at `j`: go down while `j > 0` and slot `j`
is FINISHED. -/
def lastLive (hd : Header) (s : St) : Nat → Nat
  | 0 => 0
  | j + 1 =>
    match s.getJob (j + 1) with
    | some job => if job.state = hd.FINISHED then lastLive hd s j else j + 1
    | none => j + 1

/-- The index `j` after lines 188-191. -/
def resolve (hd : Header) (s : St) (j : Int) : Nat :=
  if j < 0 then lastLive hd s (s.njobmax - 1) else j.toNat

/-- The test of line 193. -/
def noTarget (hd : Header) (s : St) (j : Nat) : Bool :=
  decide (s.njobmax ≤ j) ||
    match s.getJob j with
    | some job => decide (job.state = hd.FINISHED)
    | none => true

/-- A loop `while (jobs[FG].state == st) Sigsuspend(mask);`.  Returns the
globals when the loop is left, the reports still pending and the deliveries
not yet used. -/
def waitWhile (hd : Header) (st : Int) (s : St) (pend : List Notif) :
    List (List Notif) → Option (St × List Notif × List (List Notif))
  | [] => if s.fg.state = st then none else some (s, pend, [])
  | b :: bs =>
    if s.fg.state = st then
      match Sigsuspend hd s pend b with
      | some (s', pend') => waitWhile hd st s' pend' bs
      | none => none
    else some (s, pend, b :: bs)

/-- The loop `while (jobs[FG].state == STOPPED) Sigsuspend(mask);` (lines 210-212). -/
def resumeWait (hd : Header) (s : St) (pend : List Notif) (bs : List (List Notif)) :
    Option (St × List Notif × List (List Notif)) :=
  waitWhile hd hd.STOPPED s pend bs

/-- Function `resumejob`.  Returns the result and the globals, the reports
still pending and the deliveries not yet used. -/
def resumejob (hd : Header) (s : St) (j : Int) (bg : Bool) (status0 : Int)
    (pend : List Notif) (bs : List (List Notif)) :
    Option (Bool × St × List Notif × List (List Notif)) :=
  let r := resolve hd s j
  if noTarget hd s r then some (false, s, pend, bs)
  else if !bg then
    match movejob s r FG with
    | some s1 =>
      let s2 := { s1 with tty_pgrp := s1.fg.pgid, tty_modes := s1.fg.tmodes }
      let s3 := if s2.fg.state = hd.STOPPED then
        { s2 with sent := s2.sent ++ [(-s2.fg.pgid, Sig.SIGCONT)] } else s2
      match resumeWait hd s3 pend bs with
      | some (s4, pend', bs') =>
        let s5 := { s4 with out := s4.out ++ [Msg.continued r s4.fg.command] }
        match monitorjob hd s5 status0 pend' bs' with
        | some (_, s6, pend'', bs'') => some (true, s6, pend'', bs'')
        | none => none
      | none => none
    | none => none
  else
    match s.getJob r with
    | some job =>
      let s1 := if job.state = hd.STOPPED then
        { s with sent := s.sent ++ [(-job.pgid, Sig.SIGCONT)] } else s
      some (true, { s1 with out := s1.out ++ [Msg.continued r job.command] }, pend, bs)
    | none => none

/-! ## `watchjobs` (`jobs.c`, lines 242-271) and the shell loop -/

/-- Lines 253-268: the lines printed for slot `j`. -/
def report (hd : Header) (which : Int) (j : Nat) (command : Option String)
    (state status : Int) : List Msg :=
  if state = which ∨ which = hd.ALL then
    if state = hd.RUNNING then [Msg.running j command]
    else if state = hd.STOPPED then [Msg.suspended j command]
    else if state = hd.FINISHED then
      if hd.WIFEXITED status then [Msg.exited j command (hd.WEXITSTATUS status)]
      else if hd.WIFSIGNALED status then [Msg.killed j command (hd.WTERMSIG status)]
      else []
    else []
  else []

/-- The loop of `watchjobs` from slot `j` on, for `n` more slots.  `status0`
is the content of the uninitialised local `status`; `strdup(NULL)` is
undefined. -/
def watchjobsFrom (hd : Header) (which status0 : Int) : Nat → Nat → St → Option St
  | 0, _, s => some s
  | n + 1, j, s =>
    match s.getJob j with
    | none => some s
    | some job =>
      if job.pgid = 0 then watchjobsFrom hd which status0 n (j + 1) s
      else
        match job.command with
        | none => none
        | some c =>
          match jobstate hd s j status0 with
          | some (state, status, s') =>
            watchjobsFrom hd which status0 n (j + 1)
              { s' with out := s'.out ++ report hd which j (some c) state status }
          | none => none

/-- Function `watchjobs`. -/
def watchjobs (hd : Header) (which status0 : Int) (s : St) : Option St :=
  watchjobsFrom hd which status0 (s.njobmax - BG) BG s

/-- One turn of the loop of `main` (`shell.c`, lines 299-304) for the line
read; `eval` stands for the function of that name. -/
def mainTurn (hd : Header) (eval : String → St → Option St) (status0 : Int)
    (line : String) (s : St) : Option St :=
  match (if line.length ≠ 0 then eval line s else some s) with
  | some s1 => watchjobs hd hd.FINISHED status0 s1
  | none => none

/-! ## Tables used as examples -/

/-- A foreground slot as `deljob` leaves it: free, FINISHED, no records. -/
def freedSlot : St :=
  { fg := { pgid := 0, proc := [], tmodes := 0, state := 0, command := none },
    bg := [], tty_pgrp := 100, tty_modes := 0, shell_tmodes := 0, shell_pgrp := 100,
    out := [], sent := [] }

/-- A table with a finished two-stage pipeline in background slot 1. -/
def finishedPipe : St :=
  { fg := Job.zero,
    bg := [{ pgid := 7, proc := [⟨7, 0, 256⟩, ⟨8, 0, 512⟩], tmodes := 3, state := 0,
             command := some "a | b" }],
    tty_pgrp := 100, tty_modes := 0, shell_tmodes := 0, shell_pgrp := 100,
    out := [], sent := [] }

/-- A table with a running two-stage pipeline in background slot 1. -/
def runningPipe : St :=
  { fg := Job.zero,
    bg := [{ pgid := 7, proc := [⟨7, 1, -1⟩, ⟨8, 1, -1⟩], tmodes := 3, state := 1,
             command := some "a | b" }],
    tty_pgrp := 100, tty_modes := 0, shell_tmodes := 0, shell_pgrp := 100,
    out := [], sent := [] }

/-- The table `runningPipe` after its first stage has stopped. -/
def halfStoppedPipe : St :=
  { runningPipe with
    bg := [{ pgid := 7, proc := [⟨7, 2, -1⟩, ⟨8, 1, -1⟩], tmodes := 3, state := 1,
             command := some "a | b" }] }

/-- A table with a finished one-process job in background slot 1. -/
def finishedOne : St :=
  { fg := Job.zero,
    bg := [{ pgid := 7, proc := [⟨7, 0, 0⟩], tmodes := 3, state := 0, command := some "a" }],
    tty_pgrp := 100, tty_modes := 0, shell_tmodes := 0, shell_pgrp := 100,
    out := [], sent := [] }

/-- The table `finishedOne` after pid 7 has been reported stopped. -/
def finishedOneStopped : St :=
  { finishedOne with
    bg := [{ pgid := 7, proc := [⟨7, 2, 0⟩], tmodes := 3, state := 2, command := some "a" }] }

/-- A table whose foreground job, a pipeline of pids 7 and 8, is running while
background slot 1 is occupied and slot 2 is free. -/
def fgPipe : St :=
  { fg := { pgid := 7, proc := [⟨7, 1, -1⟩, ⟨8, 1, -1⟩], tmodes := 3, state := 1,
            command := some "a | b" },
    bg := [{ pgid := 5, proc := [⟨5, 1, -1⟩], tmodes := 0, state := 1, command := some "c" },
           Job.zero],
    tty_pgrp := 100, tty_modes := 4, shell_tmodes := 9, shell_pgrp := 100,
    out := [], sent := [] }

/-- The table `fgPipe` after both stages have stopped and `monitorjob` has
returned: the pipeline sits in background slot 2. -/
def fgPipeSuspended : St :=
  { fg := Job.zero,
    bg := [{ pgid := 5, proc := [⟨5, 1, -1⟩], tmodes := 0, state := 1, command := some "c" },
           { pgid := 7, proc := [⟨7, 2, -1⟩, ⟨8, 2, -1⟩], tmodes := 3, state := 2,
             command := some "a | b" }],
    tty_pgrp := 100, tty_modes := 9, shell_tmodes := 9, shell_pgrp := 100,
    out := [Msg.suspended 2 (some "a | b")], sent := [] }

/-- A table with a stopped job in slot 1, a finished job in slot 2 and a slot
zeroed by `movejob` at the end. -/
def threeJobs : St :=
  { fg := Job.zero,
    bg := [{ pgid := 5, proc := [⟨5, 2, -1⟩], tmodes := 0, state := 2, command := some "c" },
           { pgid := 6, proc := [⟨6, 0, 0⟩], tmodes := 0, state := 0, command := some "d" },
           Job.zero],
    tty_pgrp := 100, tty_modes := 9, shell_tmodes := 9, shell_pgrp := 100,
    out := [], sent := [] }

/-! ## Auxiliary descriptions used in the statements about `watchjobs` -/

/-- A slot after `watchjobs` has passed it: a non-free FINISHED job is freed. -/
def afterWatch (hd : Header) (job : Job) : Job :=
  if job.pgid ≠ 0 ∧ job.state = hd.FINISHED then
    { job with pgid := 0, proc := [], command := none }
  else job

/-- The part of the globals that `watchjobs` never touches. -/
def sameRest (s s' : St) : Prop :=
  s'.fg = s.fg ∧ s'.njobmax = s.njobmax ∧ s'.sent = s.sent ∧ s'.tty_pgrp = s.tty_pgrp ∧
  s'.tty_modes = s.tty_modes ∧ s'.shell_tmodes = s.shell_tmodes ∧ s'.shell_pgrp = s.shell_pgrp

/-- The lines `watchjobs` prints when it passes slot `k` of the table `s`. -/
def linesOf (hd : Header) (which status0 : Int) (s : St) (k : Nat) : List Msg :=
  match s.getJob k with
  | some job =>
    if job.pgid = 0 then []
    else report hd which k job.command job.state
      (if job.state = hd.FINISHED then (exitcode job).getD status0 else status0)
  | none => []

/-- A background job that can be passed to `watchjobs`: if it is not free it
has a command, and a process record if it is FINISHED. -/
def Watchable (hd : Header) (job : Job) : Prop :=
  job.pgid ≠ 0 → job.command ≠ none ∧ (job.state = hd.FINISHED → job.proc ≠ [])

instance (hd : Header) (job : Job) : Decidable (Watchable hd job) := by
  unfold Watchable
  exact inferInstance

/-- The table `finishedOne` after `watchjobs` has reported and freed slot 1. -/
def finishedOneReaped : St :=
  { finishedOne with
    bg := [{ pgid := 0, proc := [], tmodes := 3, state := 0, command := none }],
    out := [Msg.exited 1 (some "a") 0] }

/-! ## Tokens and redirections (`shell.c`, lines 24-65) -/

/-- The type `token_t` of `shell.h`: a string, `NULL`, or one of the separator
constants the sources name. -/
inductive Token where
  | T_NULL
  | T_PIPE
  | T_BGJOB
  | T_INPUT
  | T_OUTPUT
  | word (w : String)
deriving DecidableEq, Repr

/-- The library functions the sources call but do not define.  `Open path out`
is the wrapper `Open` on a `path` token, for reading or (`out`) for writing:
the descriptor, or `none` if the wrapper ends the shell.  `strapp dst src`
gives the new `*dstp`, or `none` if the call does not return.  `Pipe k` are the
two ends made by the `k`-th call of `Pipe`. -/
structure Lib where
  Open : Token → Bool → Option Int
  strapp : Option String → Token → Option (Option String)
  Pipe : Nat → Int × Int

/-- Function `MaybeClose` on the variable holding `fd`: its new content. -/
def MaybeClose (fd : Int) : Int := if fd < 0 then fd else -1

/-- The locals of `do_redir` during its loop. -/
structure Redir where
  tok : List Token
  mode : Token
  n : Nat
  input : Int
  output : Int
deriving DecidableEq, Repr

/-- The loop of `do_redir` from index `i` on, for `cnt` more tokens.  The array
`token` of the function is `tok` from index `off` on; an access outside `tok`
is undefined.  `MaybeClose` only closes a descriptor that is overwritten next. -/
def redirLoop (lib : Lib) (off : Nat) : Nat → Nat → Redir → Option Redir
  | 0, _, r => some r
  | cnt + 1, i, r =>
    match r.tok[off + i]? with
    | none => none
    | some t =>
      if t = Token.T_INPUT then
        match r.tok[off + i + 1]? with
        | none => none
        | some path =>
          match lib.Open path false with
          | none => none
          | some fd =>
            redirLoop lib off cnt (i + 1)
              { tok := (r.tok.set (off + i) Token.T_NULL).set (off + i + 1) Token.T_NULL,
                mode := Token.T_INPUT,
                n := (if r.mode = Token.T_NULL then i else r.n) + 1,
                input := fd, output := r.output }
      else if t = Token.T_OUTPUT then
        match r.tok[off + i + 1]? with
        | none => none
        | some path =>
          match lib.Open path true with
          | none => none
          | some fd =>
            redirLoop lib off cnt (i + 1)
              { tok := (r.tok.set (off + i) Token.T_NULL).set (off + i + 1) Token.T_NULL,
                mode := Token.T_OUTPUT,
                n := (if r.mode = Token.T_NULL then i else r.n) + 1,
                input := r.input, output := fd }
      else redirLoop lib off cnt (i + 1) { r with n := r.n + 1 }

/-- Function `do_redir` on the array `tok + off`.  Returns `n`, the array and
the two descriptors. -/
def do_redir (lib : Lib) (tok : List Token) (off ntokens : Nat) (input output : Int) :
    Option (Nat × List Token × Int × Int) :=
  match redirLoop lib off ntokens 0
      { tok := tok, mode := Token.T_NULL, n := 0, input := input, output := output } with
  | some r =>
    if off + r.n < r.tok.length then
      some (r.n, r.tok.set (off + r.n) Token.T_NULL, r.input, r.output)
    else none
  | none => none

/-! ## Registering jobs and processes (`jobs.c`, lines 105-161) -/

/-- Function `addjob`. -/
def addjob (hd : Header) (s : St) (pgid : Int) (bg : Bool) : Nat × St :=
  let a := if bg then allocjob s else (FG, s)
  (a.1, a.2.setJob a.1
    { pgid := pgid, state := hd.RUNNING, command := none, proc := [],
      tmodes := s.shell_tmodes })

/-- The loop of `mkcommand` (lines 144-147) over `argv[1]`, `argv[1 + 1]`, ...
up to the first `NULL`; running off the array is undefined. -/
def mkcommandLoop (lib : Lib) : List Token → Option String → Option (Option String)
  | [], _ => none
  | Token.T_NULL :: _, cmd => some cmd
  | t :: ts, cmd =>
    match lib.strapp cmd (Token.word " ") with
    | some c1 =>
      match lib.strapp c1 t with
      | some c2 => mkcommandLoop lib ts c2
      | none => none
    | none => none

/-- Function `mkcommand`; `cmd` is `*cmdp`, the result the new `*cmdp`. -/
def mkcommand (lib : Lib) (cmd : Option String) (argv : List Token) : Option (Option String) :=
  match (if cmd.isSome then lib.strapp cmd (Token.word " | ") else some cmd) with
  | some c0 =>
    match argv with
    | [] => none
    | a :: rest =>
      match lib.strapp c0 a with
      | some c1 => mkcommandLoop lib rest c1
      | none => none
  | none => none

/-- The record `addproc` writes for a new process. -/
def mkproc (hd : Header) (pid : Int) : Proc := ⟨pid, hd.RUNNING, -1⟩

/-- Functions `allocproc` and `addproc`. -/
def addproc (hd : Header) (lib : Lib) (s : St) (j : Nat) (pid : Int) (argv : List Token) :
    Option St :=
  match s.getJob j with
  | some job =>
    match mkcommand lib job.command argv with
    | some c =>
      some (s.setJob j
        { job with proc := job.proc ++ [mkproc hd pid], command := c })
    | none => none
  | none => none

/-! ## Pipelines (`shell.c`, lines 127-241) -/

/-- Function `do_stage` as the shell (the parent of `Fork`) runs it.  `forks`
are the results of the calls of `Fork` to come; the result 0 means this is the
child, which never returns from `do_stage`.  The argument `pgid` is left out:
it is only passed to `Setpgid`, which acts on the system alone.  Returns the
pid, the token array and the remaining results of `Fork`. -/
def do_stage (lib : Lib) (input output : Int) (tok : List Token) (off ntokens : Nat)
    (forks : List Int) : Option (Int × List Token × List Int) :=
  match do_redir lib tok off ntokens input output with
  | some (n, tok', _, _) =>
    if n = 0 then none
    else
      match forks with
      | [] => none
      | pid :: rest => if pid = 0 then none else some (pid, tok', rest)
  | none => none

/-- The locals of `do_pipeline` with the globals; `job = none` is `job = -1`,
`npipe` counts the calls of `mkpipe`. -/
structure Pl where
  s : St
  tok : List Token
  forks : List Int
  pgid : Int
  job : Option Nat
  input : Int
  output : Int
  next_input : Int
  token_offset : Nat
  npipe : Nat

/-- Lines 209-216 and 229-231: run the stage of `len` tokens at `token_offset`,
create the job if `first` allows it and `pgid` is still 0, add the process. -/
def spawnStage (hd : Header) (lib : Lib) (bg first : Bool) (p : Pl) (len : Nat) : Option Pl :=
  match do_stage lib p.input p.output p.tok p.token_offset len p.forks with
  | some (pid, tok', forks') =>
    let q : Pl :=
      if first ∧ p.pgid = 0 then
        { p with pgid := pid, job := some (addjob hd p.s pid bg).1, s := (addjob hd p.s pid bg).2 }
      else p
    match q.job with
    | some j =>
      match addproc hd lib q.s j pid (tok'.drop p.token_offset) with
      | some s2 => some { q with s := s2, tok := tok', forks := forks' }
      | none => none
    | none => none
  | none => none

/-- The loop of lines 205-224 from index `i` on, for `cnt` more tokens. -/
def pipeLoop (hd : Header) (lib : Lib) (bg : Bool) : Nat → Nat → Pl → Option Pl
  | 0, _, p => some p
  | cnt + 1, i, p =>
    match p.tok[i]? with
    | none => none
    | some t =>
      if t = Token.T_PIPE then
        match spawnStage hd lib bg true p (i - p.token_offset) with
        | some q =>
          pipeLoop hd lib bg cnt (i + 1)
            { q with input := q.next_input, next_input := (lib.Pipe q.npipe).1,
                     output := (lib.Pipe q.npipe).2, npipe := q.npipe + 1,
                     token_offset := i + 1 }
        | none => none
      else pipeLoop hd lib bg cnt (i + 1) p

/-- Function `do_pipeline` up to line 231, where every stage has been started
and added to the job. -/
def do_pipeline_spawn (hd : Header) (lib : Lib) (tok : List Token) (ntokens : Nat)
    (bg : Bool) (s : St) (forks : List Int) : Option Pl :=
  match pipeLoop hd lib bg ntokens 0
      { s := s, tok := tok, forks := forks, pgid := 0, job := none, input := -1,
        output := (lib.Pipe 0).2, next_input := (lib.Pipe 0).1, token_offset := 0,
        npipe := 1 } with
  | some p =>
    spawnStage hd lib bg false
      { p with next_input := MaybeClose p.next_input, output := MaybeClose p.output }
      (ntokens - p.token_offset)
  | none => none

/-- Function `do_pipeline`.  Returns the exit code, the token array and the
globals, with the reports still pending and the deliveries not yet used. -/
def do_pipeline (hd : Header) (lib : Lib) (tok : List Token) (ntokens : Nat) (bg : Bool)
    (s : St) (forks : List Int) (status0 : Int) (pend : List Notif) (bs : List (List Notif)) :
    Option (Int × List Token × St × List Notif × List (List Notif)) :=
  match do_pipeline_spawn hd lib tok ntokens bg s forks with
  | some p =>
    if !bg then
      match monitorjob hd p.s status0 pend bs with
      | some (code, s', pend', bs') => some (code, p.tok, s', pend', bs')
      | none => none
    else
      match p.job with
      | some j =>
        match jobcmd p.s j with
        | some c => some (0, p.tok, { p.s with out := p.s.out ++ [Msg.running j c] }, pend, bs)
        | none => none
      | none => none
  | none => none

/-- The token sequence of a pipeline: the stages with a pipe token between
neighbours. -/
def joinStages : List (List Token) → List Token
  | [] => []
  | [st] => st
  | st :: rest => st ++ Token.T_PIPE :: joinStages rest

/-- Is the token a string? -/
def Token.isWord : Token → Bool
  | Token.word _ => true
  | _ => false

/-- The list begins with a file name that `Open` opens (`out`: for writing). -/
def opensNext (lib : Lib) (out : Bool) : List Token → Bool
  | Token.word w :: _ => (lib.Open (Token.word w) out).isSome
  | _ => false

/-- Every token of the list is a word, or a redirection operator followed by
a file name that `Open` opens. -/
def argsOk (lib : Lib) : List Token → Bool
  | [] => true
  | t :: ts =>
    (t.isWord || (decide (t = Token.T_INPUT) && opensNext lib false ts) ||
      (decide (t = Token.T_OUTPUT) && opensNext lib true ts)) && argsOk lib ts

/-- A stage of a pipeline as the shell can start it: it begins with a word,
the command, and goes on with words and with redirection operators, each
followed by a file name that `Open` opens. -/
def stageOk (lib : Lib) (st : List Token) : Bool :=
  (match st with
    | Token.word _ :: _ => true
    | _ => false) && argsOk lib st

/-- The token at index `k` of the stage of `len` tokens that begins at index
`off` of `tok` lets the loop of `do_redir` go on: it is a word or `NULL`, or a
redirection operator with a file name behind it, inside the stage, that `Open`
opens. -/
def Passable (lib : Lib) (tok : List Token) (off len k : Nat) : Prop :=
  ∃ t, tok[off + k]? = some t ∧
    (t.isWord = true ∨ t = Token.T_NULL ∨
      (t = Token.T_INPUT ∧ k + 1 < len ∧
        ∃ w fd, tok[off + k + 1]? = some (Token.word w) ∧
          lib.Open (Token.word w) false = some fd) ∨
      (t = Token.T_OUTPUT ∧ k + 1 < len ∧
        ∃ w fd, tok[off + k + 1]? = some (Token.word w) ∧
          lib.Open (Token.word w) true = some fd))

/-- A library on which the definitions can be evaluated.  `Open` opens every
file name as descriptor 3 and `strapp` appends a string to `*dstp`; neither
returns when it is given a token that is no string (`strapp(cmdp, NULL)` reads
through the null pointer). -/
def okLib : Lib where
  Open := fun path _ =>
    match path with
    | Token.word _ => some 3
    | _ => none
  strapp := fun dst src =>
    match src with
    | Token.word w => some (some ((dst.getD "") ++ w))
    | _ => none
  Pipe := fun k => (2 * k + 4, 2 * k + 5)

/-- An empty job table: only the foreground slot, zeroed. -/
def emptyTable : St :=
  { fg := Job.zero, bg := [], tty_pgrp := 100, tty_modes := 0, shell_tmodes := 9,
    shell_pgrp := 100, out := [], sent := [] }

/-- The stages of `a x | b > f | c`. -/
def threeStages : List (List Token) :=
  [[Token.word "a", Token.word "x"], [Token.word "b", Token.T_OUTPUT, Token.word "f"],
   [Token.word "c"]]

/-- The value `x` is one of the three job states. -/
def IsState (hd : Header) (x : Int) : Prop :=
  x = hd.RUNNING ∨ x = hd.STOPPED ∨ x = hd.FINISHED

/-- The state fields of a non-free job hold job states. -/
def JobTyped (hd : Header) (job : Job) : Prop :=
  job.pgid ≠ 0 → IsState hd job.state ∧ ∀ p ∈ job.proc, IsState hd p.state

/-! ## The job records the code builds -/

/-- A wait status that the handler stores together with the state FINISHED
(`jobs.c`, lines 49-51): a normal exit or a termination by a signal. -/
def Header.Final (hd : Header) (status : Int) : Prop :=
  hd.WIFEXITED status = true ∨ hd.WIFSIGNALED status = true

/-- A process record as `addproc` and the handler write it: its state is a job
state, and a FINISHED record holds the status it finished with. -/
def ProcSound (hd : Header) (p : Proc) : Prop :=
  IsState hd p.state ∧ (p.state = hd.FINISHED → hd.Final p.exitcode)

/-- A job as the code builds it.  A non-free job has the command and the
records that `addproc` gave it and a job state; its records are as `addproc`
and the handler write them; and it is FINISHED only after each of its records
has been given the status it finished with (the handler sets the job state
from records that agree, and no status is ever taken back). -/
def JobSound (hd : Header) (job : Job) : Prop :=
  job.pgid ≠ 0 →
    job.command ≠ none ∧ job.proc ≠ [] ∧ IsState hd job.state ∧
    (∀ p ∈ job.proc, ProcSound hd p) ∧
    (job.state = hd.FINISHED → ∀ p ∈ job.proc, hd.Final p.exitcode)

instance (hd : Header) (job : Job) : Decidable (JobSound hd job) := by
  unfold JobSound ProcSound IsState Header.Final
  exact inferInstance

/-! ## Auxiliary description used in the statement about `do_redir` -/

/-- The tokens that are left when every redirection operator is removed
together with the file name behind it: what the comment on `n` in `do_redir`
("number of tokens after redirections are removed") counts. -/
def withoutRedirs : List Token → List Token
  | [] => []
  | Token.T_INPUT :: _ :: ts => withoutRedirs ts
  | Token.T_OUTPUT :: _ :: ts => withoutRedirs ts
  | t :: ts => t :: withoutRedirs ts

/-! ## Theorems -/

theorem getJob_setJob_self (s : St) (j : Nat) (job : Job) (h : j < s.njobmax) :
    (s.setJob j job).getJob j = some job := by
  cases j with
  | zero => simp [St.setJob, St.getJob, St.jobs]
  | succ k =>
    have hk : k < s.bg.length := by simpa [St.njobmax] using h
    simp [St.setJob, St.getJob, St.jobs, hk]

theorem getJob_setJob_ne (s : St) (j k : Nat) (job : Job) (h : k ≠ j) :
    (s.setJob j job).getJob k = s.getJob k := by
  cases j with
  | zero =>
    cases k with
    | zero => exact absurd rfl h
    | succ k => simp [St.setJob, St.getJob, St.jobs]
  | succ j =>
    cases k with
    | zero => simp [St.setJob, St.getJob, St.jobs]
    | succ k =>
      have : j ≠ k := fun e => h (by rw [e])
      simp [St.setJob, St.getJob, St.jobs, List.getElem?_set_ne this]

theorem getJob_lt (s : St) (j : Nat) (job : Job) (h : s.getJob j = some job) :
    j < s.njobmax := by
  unfold St.getJob at h
  have := (List.getElem?_eq_some_iff.mp h).1
  simpa [St.jobs, St.njobmax] using this

/-! ### `jobstate` -/

/-- C1, as stated, fails: slot 0 of `freedSlot` is a slot index below `njobmax`
whose state is FINISHED, and `jobstate` reads `proc[-1]` of a `NULL` array
there, so it neither returns the state nor stores a status. -/
theorem jobstate_freed_slot_undefined :
    FG < freedSlot.njobmax ∧
    (freedSlot.getJob FG).map Job.state = some linux.FINISHED ∧
    jobstate linux freedSlot FG 0 = none := by
  decide

theorem jobstate_fin_some (hd : Header) (s : St) (j : Nat) (status : Int) (job : Job)
    (hj : s.getJob j = some job) (hfin : job.state = hd.FINISHED) (hpos : 0 < job.nproc) :
    ∃ last s', job.proc[job.nproc - 1]? = some last ∧
      jobstate hd s j status = some (job.state, last.exitcode, s') ∧
      ∀ k, k ≠ j → s'.getJob k = s.getJob k := by
  have hlt : job.nproc - 1 < job.proc.length := by
    unfold Job.nproc at hpos ⊢; omega
  have hne : job.nproc ≠ 0 := by omega
  refine ⟨job.proc[job.nproc - 1], s.setJob j { job with pgid := 0, proc := [], command := none },
    List.getElem?_eq_getElem hlt, ?_, fun k hk => getJob_setJob_ne s j k _ hk⟩
  simp [jobstate, hj, hfin, exitcode, deljob, hne, List.getElem?_eq_getElem hlt]

/-- C1 (amended): for a slot `j < njobmax` whose job has a process record
whenever its state is FINISHED, `jobstate` returns the job's state; if that
state is FINISHED it stores the exit status of record `nproc - 1` through
`statusp` and the slot becomes free (`pgid = 0`, no records, no command) while
every other slot and everything else is as before; otherwise the globals and
`*statusp` are unchanged. -/
theorem jobstate_spec (hd : Header) (s : St) (j : Nat) (status : Int) (job : Job)
    (hj : s.getJob j = some job)
    (hp : job.state = hd.FINISHED → 0 < job.nproc) :
    (job.state ≠ hd.FINISHED → jobstate hd s j status = some (job.state, status, s)) ∧
    (job.state = hd.FINISHED →
      ∃ last s', job.proc[job.nproc - 1]? = some last ∧
        jobstate hd s j status = some (job.state, last.exitcode, s') ∧
        s'.getJob j = some { job with pgid := 0, proc := [], command := none } ∧
        (∀ k, k ≠ j → s'.getJob k = s.getJob k) ∧
        s'.njobmax = s.njobmax ∧ s'.out = s.out ∧ s'.sent = s.sent ∧
        s'.tty_pgrp = s.tty_pgrp ∧ s'.tty_modes = s.tty_modes) := by
  constructor
  · intro hne
    simp [jobstate, hj, hne]
  · intro hfin
    have hpos := hp hfin
    have hlt : job.nproc - 1 < job.proc.length := by
      unfold Job.nproc at hpos ⊢; omega
    refine ⟨job.proc[job.nproc - 1], s.setJob j { job with pgid := 0, proc := [], command := none },
      List.getElem?_eq_getElem hlt, ?_, getJob_setJob_self s j _ (getJob_lt s j job hj),
      fun k hk => getJob_setJob_ne s j k _ hk, ?_⟩
    · have hne : job.nproc ≠ 0 := by omega
      simp [jobstate, hj, hfin, exitcode, deljob, hne, List.getElem?_eq_getElem hlt]
    · cases j <;> simp [St.setJob, St.njobmax]

/-- C1 (amended) at slot 1 of `finishedPipe`: the status of the last stage is
stored and the slot is freed. -/
theorem jobstate_spec_witness :
    finishedPipe.getJob 1 = some ⟨7, [⟨7, 0, 256⟩, ⟨8, 0, 512⟩], 3, 0, some "a | b"⟩ ∧
    ∃ last s', ([⟨7, 0, 256⟩, ⟨8, 0, 512⟩] : List Proc)[1]? = some last ∧
      jobstate linux finishedPipe 1 (-1) = some (0, last.exitcode, s') ∧
      s'.getJob 1 = some ⟨0, [], 3, 0, none⟩ ∧
      (∀ k, k ≠ 1 → s'.getJob k = finishedPipe.getJob k) ∧
      s'.njobmax = finishedPipe.njobmax ∧ s'.out = finishedPipe.out ∧
      s'.sent = finishedPipe.sent ∧
      s'.tty_pgrp = finishedPipe.tty_pgrp ∧ s'.tty_modes = finishedPipe.tty_modes :=
  ⟨rfl, (jobstate_spec linux finishedPipe 1 (-1)
      ⟨7, [⟨7, 0, 256⟩, ⟨8, 0, 512⟩], 3, 0, some "a | b"⟩ rfl (by decide)).2 rfl⟩

/-! ### `sigchld_handler` -/

theorem allSame_iff (x : Int) (ps : List Proc) :
    allSame x ps = true ↔ ∀ p ∈ ps, p.state = x := by
  induction ps with
  | nil => simp [allSame]
  | cons p ps ih =>
    by_cases h : x = p.state
    · subst h
      simp [allSame, ih]
    · have h' : ¬ p.state = x := fun e => h e.symm
      simp [allSame, h, h']

theorem withProc_id (js : List Job) : js.map (withProc id) = js := by
  induction js with
  | nil => rfl
  | cons a js ih => simp [withProc, ih]

theorem updjobs_eq_map (hd : Header) (pid status : Int) (js : List Job) :
    updjobs hd pid status js = js.map (withProc (updproc hd pid status)) := rfl

theorem updproc_pid (hd : Header) (pid status : Int) (p : Proc) :
    (updproc hd pid status p).pid = p.pid := by
  unfold updproc
  split_ifs <;> rfl

theorem updproc_other (hd : Header) (pid status : Int) (p : Proc) (h : pid ≠ p.pid) :
    updproc hd pid status p = p := by
  have h' : ¬ p.pid = pid := fun e => h e.symm
  simp [updproc, h']

/-- The reaping loop changes the table by one function on process records that
keeps every pid and every record whose pid is not reported. -/
theorem reap_eq_map (hd : Header) (q : List Notif) (js : List Job) :
    ∃ g : Proc → Proc, (∀ p, (g p).pid = p.pid) ∧
      (∀ p, (∀ n ∈ q, n.1 ≠ p.pid) → g p = p) ∧
      (reap hd js q).1 = js.map (withProc g) := by
  induction q generalizing js with
  | nil => exact ⟨id, fun _ => rfl, fun _ _ => rfl, by simp [reap, withProc_id]⟩
  | cons n q ih =>
    obtain ⟨pid, status⟩ := n
    by_cases hpos : 0 < pid
    · by_cases hk : known pid js = true
      · obtain ⟨g, hg, hfix, he⟩ := ih (updjobs hd pid status js)
        refine ⟨g ∘ updproc hd pid status, fun p => ?_, fun p hp => ?_, ?_⟩
        · simp [hg, updproc_pid]
        · have h1 : pid ≠ p.pid := hp (pid, status) (List.mem_cons_self _ _)
          simp only [Function.comp, updproc_other hd pid status p h1]
          exact hfix p (fun n hn => hp n (List.mem_cons_of_mem _ hn))
        · simp only [reap, hpos, hk, if_true]
          rw [he, updjobs_eq_map, List.map_map]
          apply List.map_congr_left
          intro job _
          simp [withProc, Function.comp]
      · refine ⟨updproc hd pid status, updproc_pid hd pid status, fun p hp => ?_, ?_⟩
        · exact updproc_other hd pid status p (hp (pid, status) (List.mem_cons_self _ _))
        · simp [reap, hpos, hk, updjobs_eq_map]
    · exact ⟨id, fun _ => rfl, fun _ _ => rfl, by simp [reap, hpos, withProc_id]⟩

theorem rederiveAll_get (js js' : List Job) (h : rederiveAll js = some js') :
    js'.length = js.length ∧
    ∀ (j : Nat) (a : Job), js[j]? = some a → ∃ b, js'[j]? = some b ∧ rederive a = some b := by
  induction js generalizing js' with
  | nil =>
    simp [rederiveAll] at h
    subst h
    simp
  | cons x xs ih =>
    unfold rederiveAll at h
    cases hx : rederive x with
    | none => simp [hx] at h
    | some x' =>
      cases hxs : rederiveAll xs with
      | none => simp [hx, hxs] at h
      | some xs' =>
        simp [hx, hxs] at h
        subst h
        obtain ⟨hl, hg⟩ := ih xs' hxs
        refine ⟨by simp [hl], fun j a hja => ?_⟩
        cases j with
        | zero =>
          simp at hja
          subst hja
          exact ⟨x', by simp, hx⟩
        | succ j =>
          simp at hja
          obtain ⟨b, hb, hr⟩ := hg j a hja
          exact ⟨b, by simpa using hb, hr⟩

theorem rederiveAll_isSome (js : List Job) (h : ∀ job ∈ js, job.pgid ≠ 0 → job.proc ≠ []) :
    ∃ js', rederiveAll js = some js' := by
  induction js with
  | nil => exact ⟨[], rfl⟩
  | cons x xs ih =>
    obtain ⟨xs', hxs⟩ := ih (fun job hj => h job (List.mem_cons_of_mem _ hj))
    have hx : ∃ x', rederive x = some x' := by
      unfold rederive
      by_cases hp : x.pgid ≠ 0
      · have hne := h x (List.mem_cons_self _ _) hp
        cases hpr : x.proc with
        | nil => exact absurd hpr hne
        | cons p0 ps =>
          rw [if_pos hp]
          dsimp only
          split_ifs
          · exact ⟨_, rfl⟩
          · exact ⟨_, rfl⟩
      · rw [if_neg hp]
        exact ⟨_, rfl⟩
    obtain ⟨x', hx⟩ := hx
    exact ⟨x' :: xs', by simp [rederiveAll, hx, hxs]⟩

/-- What lines 68-83 do to one slot. -/
theorem rederive_spec (a b : Job) (h : rederive a = some b) :
    b.pgid = a.pgid ∧ b.proc = a.proc ∧ b.tmodes = a.tmodes ∧ b.command = a.command ∧
    (a.pgid = 0 → b = a) ∧
    (a.pgid ≠ 0 → a.proc ≠ [] ∧
      (∀ S, (∀ p ∈ a.proc, p.state = S) → b.state = S) ∧
      ((¬ ∃ S, ∀ p ∈ a.proc, p.state = S) → b.state = a.state)) := by
  unfold rederive at h
  by_cases hp : a.pgid ≠ 0
  · rw [if_pos hp] at h
    cases hpr : a.proc with
    | nil => simp [hpr] at h
    | cons p0 ps =>
      simp only [hpr] at h
      by_cases hs : allSame p0.state ps = true
      · rw [if_pos hs, Option.some.injEq] at h
        subst h
        refine ⟨rfl, rfl, rfl, rfl, fun h0 => absurd h0 hp, fun _ => ⟨by simp, ?_, ?_⟩⟩
        · intro S hS
          exact hS p0 (List.mem_cons_self _ _)
        · intro hno
          exfalso
          apply hno
          refine ⟨p0.state, fun p hp' => ?_⟩
          rcases List.mem_cons.mp hp' with e | e
          · rw [e]
          · exact (allSame_iff _ _).mp hs p e
      · rw [if_neg hs, Option.some.injEq] at h
        subst h
        refine ⟨rfl, hpr, rfl, rfl, fun _ => rfl, fun _ => ⟨by simp, ?_, fun _ => rfl⟩⟩
        intro S hS
        exfalso
        apply hs
        rw [allSame_iff]
        intro p hp'
        rw [hS p (List.mem_cons_of_mem _ hp'), hS p0 (List.mem_cons_self _ _)]
  · rw [if_neg hp, Option.some.injEq] at h
    subst h
    exact ⟨rfl, rfl, rfl, rfl, fun _ => rfl, fun h0 => absurd h0 hp⟩

/-- The handler's result slot by slot: the records are those of the reaping
loop, the slot is what lines 68-83 make of it. -/
theorem sigchld_handler_get (hd : Header) (s s' : St) (q q' : List Notif)
    (h : sigchld_handler hd s q = some (s', q')) :
    s'.njobmax = s.njobmax ∧ q' = (reap hd s.jobs q).2 ∧
    s'.out = s.out ∧ s'.sent = s.sent ∧ s'.tty_pgrp = s.tty_pgrp ∧
    s'.tty_modes = s.tty_modes ∧ s'.shell_tmodes = s.shell_tmodes ∧
    s'.shell_pgrp = s.shell_pgrp ∧
    ∃ g : Proc → Proc, (∀ p, (g p).pid = p.pid) ∧
      (∀ p, (∀ n ∈ q, n.1 ≠ p.pid) → g p = p) ∧
      (reap hd s.jobs q).1 = s.jobs.map (withProc g) ∧
      ∀ j a, s.getJob j = some a →
        ∃ b, s'.getJob j = some b ∧ rederive (withProc g a) = some b := by
  unfold sigchld_handler at h
  cases hr : rederiveAll (reap hd s.jobs q).1 with
  | none => simp [hr] at h
  | some js' =>
    cases js' with
    | nil => simp [hr] at h
    | cons fg' bg' =>
      simp only [hr, Option.some.injEq, Prod.mk.injEq] at h
      obtain ⟨hs, hq⟩ := h
      subst hs
      obtain ⟨g, hg, hfix, he⟩ := reap_eq_map hd q s.jobs
      obtain ⟨hl, hget⟩ := rederiveAll_get _ _ hr
      rw [he] at hl hget
      refine ⟨?_, hq.symm, rfl, rfl, rfl, rfl, rfl, rfl, g, hg, hfix, he, fun j a hja => ?_⟩
      · simp [St.jobs] at hl
        simp [St.njobmax, hl]
      · have : (s.jobs.map (withProc g))[j]? = some (withProc g a) := by
          unfold St.getJob at hja
          simp [hja]
        obtain ⟨b, hb, hrb⟩ := hget j _ this
        exact ⟨b, by simpa [St.getJob, St.jobs] using hb, hrb⟩

theorem sigchld_handler_isSome (hd : Header) (s : St) (q : List Notif)
    (h : ∀ job ∈ s.jobs, job.pgid ≠ 0 → job.proc ≠ []) :
    ∃ r, sigchld_handler hd s q = some r := by
  obtain ⟨g, hg, -, he⟩ := reap_eq_map hd q s.jobs
  have h' : ∀ job ∈ (reap hd s.jobs q).1, job.pgid ≠ 0 → job.proc ≠ [] := by
    rw [he]
    intro job hj hp
    obtain ⟨a, ha, rfl⟩ := List.mem_map.mp hj
    have := h a ha hp
    simpa [withProc] using this
  obtain ⟨js', hjs⟩ := rederiveAll_isSome _ h'
  have hl := (rederiveAll_get _ _ hjs).1
  rw [he] at hl
  cases js' with
  | nil => simp [St.jobs] at hl
  | cons fg' bg' =>
    refine ⟨({ s with fg := fg', bg := bg' }, (reap hd s.jobs q).2), ?_⟩
    simp only [sigchld_handler, hjs]

/-- C2: on a table whose non-free jobs all have a process record the handler
runs to its end, and whenever it has run, every non-free job with at least
one record has the common state of its records if they agree, and the state
it had before otherwise. -/
theorem sigchld_handler_job_state (hd : Header) (s : St) (q : List Notif) :
    ((∀ job ∈ s.jobs, job.pgid ≠ 0 → job.proc ≠ []) → ∃ r, sigchld_handler hd s q = some r) ∧
    ∀ s' q', sigchld_handler hd s q = some (s', q') →
      ∀ j old new, s.getJob j = some old → s'.getJob j = some new →
        new.pgid ≠ 0 → new.proc ≠ [] →
        (∀ S, (∀ p ∈ new.proc, p.state = S) → new.state = S) ∧
        ((¬ ∃ S, ∀ p ∈ new.proc, p.state = S) → new.state = old.state) := by
  refine ⟨sigchld_handler_isSome hd s q, ?_⟩
  intro s' q' h j old new hold hnew hpg _
  obtain ⟨-, -, -, -, -, -, -, -, g, -, -, -, hget⟩ := sigchld_handler_get hd s s' q q' h
  obtain ⟨b, hb, hr⟩ := hget j old hold
  rw [hnew] at hb
  cases hb
  obtain ⟨hpgid, hproc, -, -, -, hst⟩ := rederive_spec _ _ hr
  have hpg' : (withProc g old).pgid ≠ 0 := by rw [← hpgid]; exact hpg
  obtain ⟨-, h1, h2⟩ := hst hpg'
  rw [← hproc] at h1 h2
  exact ⟨h1, h2⟩

/-- C2 on `runningPipe` when the first stage is reported stopped: the records
disagree and the job stays RUNNING. -/
theorem sigchld_handler_job_state_witness :
    sigchld_handler linux runningPipe [(7, 4991)] = some (halfStoppedPipe, []) ∧
    ((∀ S, (∀ p ∈ ([⟨7, 2, -1⟩, ⟨8, 1, -1⟩] : List Proc), p.state = S) → (1 : Int) = S) ∧
     ((¬ ∃ S, ∀ p ∈ ([⟨7, 2, -1⟩, ⟨8, 1, -1⟩] : List Proc), p.state = S) → (1 : Int) = 1)) :=
  ⟨by decide, (sigchld_handler_job_state linux runningPipe [(7, 4991)]).2 halfStoppedPipe []
    (by decide) 1
    ⟨7, [⟨7, 1, -1⟩, ⟨8, 1, -1⟩], 3, 1, some "a | b"⟩
    ⟨7, [⟨7, 2, -1⟩, ⟨8, 1, -1⟩], 3, 1, some "a | b"⟩ (by decide) (by decide) (by decide)
    (by decide)⟩

/-- C8, as stated, fails: the job in slot 1 of `finishedOne` is non-free and
FINISHED, and after the handler has fetched a stop report for pid 7 its state
is STOPPED. -/
theorem sigchld_handler_finished_not_kept :
    (finishedOne.getJob 1).map Job.state = some linux.FINISHED ∧
    (finishedOne.getJob 1).map Job.pgid = some 7 ∧
    sigchld_handler linux finishedOne [(7, 4991)] = some (finishedOneStopped, []) ∧
    (finishedOneStopped.getJob 1).map Job.state = some linux.STOPPED ∧
    linux.STOPPED ≠ linux.FINISHED := by
  decide

/-- C8 (amended): on a table whose non-free jobs all have a process record the
handler runs to its end, and whenever it has run, a non-free job that was
FINISHED before is FINISHED after, unless its records then all have one state
other than FINISHED; in particular the job is untouched when its records were
all FINISHED and no report carries the pid of one of them. -/
theorem sigchld_handler_finished_kept (hd : Header) (s : St) (q : List Notif) :
    ((∀ job ∈ s.jobs, job.pgid ≠ 0 → job.proc ≠ []) → ∃ r, sigchld_handler hd s q = some r) ∧
    ∀ s' q', sigchld_handler hd s q = some (s', q') →
      ∀ j old new, s.getJob j = some old → s'.getJob j = some new →
        old.pgid ≠ 0 → old.state = hd.FINISHED →
        ((¬ ∃ S, S ≠ hd.FINISHED ∧ ∀ p ∈ new.proc, p.state = S) → new.state = hd.FINISHED) ∧
        ((∀ p ∈ old.proc, p.state = hd.FINISHED) →
          (∀ n ∈ q, ∀ p ∈ old.proc, n.1 ≠ p.pid) → new = old) := by
  refine ⟨sigchld_handler_isSome hd s q, ?_⟩
  intro s' q' h j old new hold hnew hpg hfin
  obtain ⟨-, -, -, -, -, -, -, -, g, -, hfix, -, hget⟩ := sigchld_handler_get hd s s' q q' h
  obtain ⟨b, hb, hr⟩ := hget j old hold
  rw [hnew] at hb
  cases hb
  obtain ⟨hpgid, hproc, htm, hcmd, -, hst⟩ := rederive_spec _ _ hr
  obtain ⟨hne, h1, h2⟩ := hst hpg
  rw [← hproc] at h1 h2
  have key : (¬ ∃ S, S ≠ hd.FINISHED ∧ ∀ p ∈ new.proc, p.state = S) →
      new.state = hd.FINISHED := by
    intro hno
    by_cases hall : ∃ S, ∀ p ∈ new.proc, p.state = S
    · obtain ⟨S, hS⟩ := hall
      rw [h1 S hS]
      by_contra hc
      exact hno ⟨S, hc, hS⟩
    · rw [h2 hall]
      exact hfin
  refine ⟨key, fun hallfin hq => ?_⟩
  have hsame : new.proc = old.proc := by
    rw [hproc]
    show old.proc.map g = old.proc
    conv_rhs => rw [← List.map_id old.proc]
    apply List.map_congr_left
    intro p hp
    exact hfix p (fun n hn => hq n hn p hp)
  have hstate : new.state = old.state := by
    rw [hfin]
    apply key
    rintro ⟨S, hS, hall⟩
    rw [hsame] at hall
    cases hpr : old.proc with
    | nil => exact hne (by simp [withProc, hpr])
    | cons p0 ps =>
      have hp0 : p0 ∈ old.proc := by rw [hpr]; exact List.mem_cons_self _ _
      exact hS ((hall p0 hp0).symm.trans (hallfin p0 hp0))
  cases new
  cases old
  simp_all [withProc]

/-- C8 (amended) on `finishedOne` when an unrelated pid is reported. -/
theorem sigchld_handler_finished_kept_witness :
    sigchld_handler linux finishedOne [(9, 0)] = some (finishedOne, []) ∧
    (((¬ ∃ S, S ≠ linux.FINISHED ∧ ∀ p ∈ ([⟨7, 0, 0⟩] : List Proc), p.state = S) →
        (0 : Int) = linux.FINISHED) ∧
      ((∀ p ∈ ([⟨7, 0, 0⟩] : List Proc), p.state = linux.FINISHED) →
        (∀ n ∈ ([(9, 0)] : List Notif), ∀ p ∈ ([⟨7, 0, 0⟩] : List Proc), n.1 ≠ p.pid) →
        (⟨7, [⟨7, 0, 0⟩], 3, 0, some "a"⟩ : Job) = ⟨7, [⟨7, 0, 0⟩], 3, 0, some "a"⟩)) :=
  ⟨by decide, (sigchld_handler_finished_kept linux finishedOne [(9, 0)]).2 finishedOne []
    (by decide) 1 ⟨7, [⟨7, 0, 0⟩], 3, 0, some "a"⟩ ⟨7, [⟨7, 0, 0⟩], 3, 0, some "a"⟩
    (by decide) (by decide) (by decide) (by decide)⟩

/-- C9: the handler stops polling at the first report whose pid is in no
process record.  On `runningPipe` with the reports of an unknown pid 99 and
then of the exits of pids 7 and 8 pending, one run of the handler fetches the
first report only: both records stay RUNNING and two reports stay pending,
whereas without the unknown pid both records and the job become FINISHED. -/
theorem sigchld_handler_stops_at_unknown_pid :
    sigchld_handler linux runningPipe [(99, 0), (7, 0), (8, 256)] =
      some (runningPipe, [(7, 0), (8, 256)]) ∧
    sigchld_handler linux runningPipe [(7, 0), (8, 256)] =
      some ({ runningPipe with
        bg := [{ pgid := 7, proc := [⟨7, 0, 0⟩, ⟨8, 0, 256⟩], tmodes := 3, state := 0,
                 command := some "a | b" }] }, []) := by
  decide

/-! ### `monitorjob` -/

theorem linux_distinct : linux.Distinct := by
  unfold Header.Distinct
  decide

theorem linux_exitOrSignal : linux.ExitOrSignal := by
  intro status h
  simp only [linux, Bool.and_eq_true, decide_eq_true_eq] at h
  simp only [linux, beq_eq_false_iff_ne, ne_eq]
  omega

theorem getJob_FG (s : St) : s.getJob FG = some s.fg := by
  simp [St.getJob, St.jobs, FG]

theorem jobstate_state (hd : Header) (s s' : St) (j : Nat) (st state status : Int)
    (h : jobstate hd s j st = some (state, status, s')) :
    ∃ job, s.getJob j = some job ∧ job.state = state := by
  unfold jobstate at h
  cases hj : s.getJob j with
  | none => simp [hj] at h
  | some job =>
    refine ⟨job, rfl, ?_⟩
    simp only [hj] at h
    split_ifs at h with hf
    · cases he : exitcode job with
      | none => simp [he] at h
      | some e =>
        cases hd' : deljob hd job with
        | none => simp [he, hd'] at h
        | some j' =>
          simp [he, hd'] at h
          exact h.1
    · simp at h
      exact h.1

theorem jobstate_of_ne (hd : Header) (s : St) (j : Nat) (st : Int) (job : Job)
    (hj : s.getJob j = some job) (hne : job.state ≠ hd.FINISHED) :
    jobstate hd s j st = some (job.state, st, s) := by
  simp [jobstate, hj, hne]

/-- The loop of `monitorjob` is the wait for the foreground job to leave
RUNNING followed by one more call of `jobstate`. -/
theorem monitorWait_eq (hd : Header) (hne : hd.RUNNING ≠ hd.FINISHED) (bs : List (List Notif))
    (s : St) (st : Int) (pend : List Notif) :
    monitorWait hd s st pend bs =
      match waitWhile hd hd.RUNNING s pend bs with
      | some (sW, p, b) =>
        match jobstate hd sW FG st with
        | some (state, status, s1) => some (state, status, s1, p, b)
        | none => none
      | none => none := by
  induction bs generalizing s st pend with
  | nil =>
    unfold monitorWait waitWhile
    by_cases hr : s.fg.state = hd.RUNNING
    · have := jobstate_of_ne hd s FG st s.fg (getJob_FG s) (by rw [hr]; exact hne)
      simp [this, hr]
    · simp only [hr, if_false]
      cases hj : jobstate hd s FG st with
      | none => rfl
      | some r =>
        obtain ⟨state, status, s1⟩ := r
        obtain ⟨job, hjob, hst⟩ := jobstate_state hd s s1 FG st state status hj
        rw [getJob_FG] at hjob
        cases hjob
        simp [← hst, hr]
  | cons b bs ih =>
    unfold monitorWait waitWhile
    by_cases hr : s.fg.state = hd.RUNNING
    · have := jobstate_of_ne hd s FG st s.fg (getJob_FG s) (by rw [hr]; exact hne)
      simp only [this, hr, if_true]
      cases hh : Sigsuspend hd s pend b with
      | none => rfl
      | some r =>
        obtain ⟨s', pend'⟩ := r
        exact ih s' st pend'
    · simp only [hr, if_false]
      cases hj : jobstate hd s FG st with
      | none => rfl
      | some r =>
        obtain ⟨state, status, s1⟩ := r
        obtain ⟨job, hjob, hst⟩ := jobstate_state hd s s1 FG st state status hj
        rw [getJob_FG] at hjob
        cases hjob
        simp [← hst, hr]

theorem waitWhile_left (hd : Header) (st : Int) (bs : List (List Notif)) (s : St)
    (pend : List Notif) (sW : St) (p : List Notif) (b : List (List Notif))
    (h : waitWhile hd st s pend bs = some (sW, p, b)) : sW.fg.state ≠ st := by
  induction bs generalizing s pend with
  | nil =>
    unfold waitWhile at h
    split_ifs at h with hs
    simp at h
    rw [← h.1]
    exact hs
  | cons x xs ih =>
    unfold waitWhile at h
    split_ifs at h with hs
    · cases hh : Sigsuspend hd s pend x with
      | none => simp [hh] at h
      | some r =>
        obtain ⟨s', pend'⟩ := r
        simp only [hh] at h
        exact ih s' pend' h
    · simp at h
      rw [← h.1]
      exact hs

theorem findFree_some (js : List Job) (j0 n : Nat) (h : findFree js j0 = some n) :
    j0 ≤ n ∧ (∃ job, js[n - j0]? = some job ∧ job.pgid = 0) ∧
    ∀ (k : Nat) (job : Job), k < n - j0 → js[k]? = some job → job.pgid ≠ 0 := by
  induction js generalizing j0 with
  | nil => simp [findFree] at h
  | cons x xs ih =>
    unfold findFree at h
    split_ifs at h with hx
    · simp at h
      subst h
      simp [hx]
    · obtain ⟨h1, ⟨job, h2, h3⟩, h4⟩ := ih (j0 + 1) h
      have e : n - j0 = (n - (j0 + 1)) + 1 := by omega
      refine ⟨by omega, ⟨job, ?_, h3⟩, fun k job' hk hj => ?_⟩
      · rw [e]; simpa using h2
      · cases k with
        | zero =>
          simp at hj
          subst hj
          exact hx
        | succ k =>
          simp at hj
          exact h4 k job' (by omega) hj

theorem findFree_none (js : List Job) (j0 : Nat) (h : findFree js j0 = none) :
    ∀ job ∈ js, job.pgid ≠ 0 := by
  induction js generalizing j0 with
  | nil => simp
  | cons x xs ih =>
    unfold findFree at h
    split_ifs at h with hx
    intro job hj
    rcases List.mem_cons.mp hj with e | e
    · rw [e]; exact hx
    · exact ih (j0 + 1) h job e

theorem getJob_succ (s : St) (k : Nat) : s.getJob (k + 1) = s.bg[k]? := by
  simp [St.getJob, St.jobs]

/-- What `allocjob` returns: the lowest free background slot if there is one,
else a new zeroed slot at index `njobmax`. -/
theorem allocjob_spec (s : St) :
    1 ≤ (allocjob s).1 ∧
    (∃ job, (allocjob s).2.getJob (allocjob s).1 = some job ∧ job.pgid = 0) ∧
    (∀ k job, 1 ≤ k → k < (allocjob s).1 → s.getJob k = some job → job.pgid ≠ 0) ∧
    (∀ k, k ≠ (allocjob s).1 → (allocjob s).2.getJob k = s.getJob k) ∧
    (allocjob s).2.fg = s.fg ∧ (allocjob s).2.out = s.out ∧ (allocjob s).2.sent = s.sent ∧
    (allocjob s).2.tty_modes = s.tty_modes ∧ (allocjob s).2.tty_pgrp = s.tty_pgrp ∧
    (allocjob s).2.shell_tmodes = s.shell_tmodes ∧ (allocjob s).2.shell_pgrp = s.shell_pgrp ∧
    (((allocjob s).1 < s.njobmax ∧ (allocjob s).2 = s) ∨
      ((allocjob s).1 = s.njobmax ∧ (allocjob s).2.njobmax = s.njobmax + 1)) := by
  unfold allocjob
  cases hf : findFree s.bg BG with
  | some n =>
    obtain ⟨h1, ⟨job, h2, h3⟩, h4⟩ := findFree_some s.bg BG n hf
    simp only [BG] at h1 h2 h4
    have hn : n = (n - 1) + 1 := by omega
    dsimp only
    refine ⟨h1, ⟨job, ?_, h3⟩, ?_, fun _ _ => rfl, rfl, rfl, rfl, rfl, rfl, rfl, rfl, Or.inl ⟨?_, rfl⟩⟩
    · show s.getJob n = some job
      rw [hn, getJob_succ]; exact h2
    · intro k job' hk1 hk2 hj
      obtain ⟨k', rfl⟩ : ∃ k', k = k' + 1 := ⟨k - 1, by omega⟩
      rw [getJob_succ] at hj
      exact h4 k' job' (by show k' < n - 1; omega) hj
    · show n < s.njobmax
      have := (List.getElem?_eq_some_iff.mp h2).1
      simp only [St.njobmax]; omega
  | none =>
    have hall := findFree_none s.bg BG hf
    dsimp only
    refine ⟨by simp [St.njobmax], ⟨Job.zero, ?_, rfl⟩, ?_, ?_, rfl, rfl, rfl, rfl, rfl, rfl, rfl,
      Or.inr ⟨rfl, by simp [St.njobmax]⟩⟩
    · simp [St.njobmax, St.getJob, St.jobs]
    · intro k job' hk1 _ hj
      obtain ⟨k', rfl⟩ : ∃ k', k = k' + 1 := ⟨k - 1, by omega⟩
      rw [getJob_succ] at hj
      exact hall job' (List.getElem?_mem hj)
    · intro k hk
      cases k with
      | zero => simp [St.getJob, St.jobs]
      | succ k' =>
        simp only [getJob_succ]
        simp only [St.njobmax] at hk
        have hk' : k' ≠ s.bg.length := fun e => hk (by rw [e])
        by_cases hlt : k' < s.bg.length
        · simp [List.getElem?_append_left, hlt]
        · have hgt : s.bg.length < k' := by omega
          rw [List.getElem?_eq_none (by simp; omega), List.getElem?_eq_none (by omega)]

theorem njobmax_setJob (s : St) (j : Nat) (job : Job) : (s.setJob j job).njobmax = s.njobmax := by
  cases j <;> simp [St.setJob, St.njobmax]

/-- The STOPPED branch of `monitorjob` (lines 290-294): the foreground job goes,
with the terminal modes just read, to the slot `allocjob` chose; slot 0 is
zeroed and nothing else changes. -/
theorem monitorEnd_stopped (hd : Header) (status : Int) (s : St) :
    ∃ n s2, monitorEnd hd hd.STOPPED status s = some (0, s2) ∧ 1 ≤ n ∧
      s2.fg = Job.zero ∧
      s2.getJob n = some { s.fg with tmodes := s.tty_modes } ∧
      (∀ k, k ≠ 0 → k ≠ n → s2.getJob k = s.getJob k) ∧
      (∀ k job, 1 ≤ k → k < n → s.getJob k = some job → job.pgid ≠ 0) ∧
      ((n < s.njobmax ∧ (∃ job, s.getJob n = some job ∧ job.pgid = 0) ∧
          s2.njobmax = s.njobmax) ∨
        (n = s.njobmax ∧ s2.njobmax = s.njobmax + 1)) ∧
      s2.out = s.out ++ [Msg.suspended n s.fg.command] ∧ s2.sent = s.sent ∧
      s2.tty_pgrp = s.tty_pgrp ∧ s2.tty_modes = s.tty_modes ∧
      s2.shell_tmodes = s.shell_tmodes ∧ s2.shell_pgrp = s.shell_pgrp := by
  let s1 : St := { s with fg := { s.fg with tmodes := s.tty_modes } }
  have hs1 : ∀ k, k ≠ 0 → s1.getJob k = s.getJob k := by
    intro k hk
    obtain ⟨k', rfl⟩ : ∃ k', k = k' + 1 := ⟨k - 1, by omega⟩
    simp [getJob_succ, s1]
  obtain ⟨h1, ⟨fr, hfr, hfr0⟩, hlow, hoth, hfg, hout, hsent, htm, htp, hstm, hsp, hcase⟩ :=
    allocjob_spec s1
  have hn0 : (allocjob s1).1 ≠ 0 := by omega
  have hlt := getJob_lt _ _ _ hfr
  have hmove : movejob (allocjob s1).2 FG (allocjob s1).1 =
      some ((((allocjob s1).2).setJob (allocjob s1).1 s1.fg).setJob FG Job.zero) := by
    unfold movejob
    rw [getJob_FG, hfr, hfg]
    have : FG ≠ (allocjob s1).1 := fun e => hn0 e.symm
    simp [hfr0, this]
  have hget : ((((allocjob s1).2).setJob (allocjob s1).1 s1.fg).setJob FG Job.zero).getJob
      (allocjob s1).1 = some s1.fg := by
    rw [getJob_setJob_ne _ _ _ _ hn0, getJob_setJob_self _ _ _ hlt]
  have hfld : ∀ (t : St) j x, (t.setJob j x).out = t.out ∧ (t.setJob j x).sent = t.sent ∧
      (t.setJob j x).tty_pgrp = t.tty_pgrp ∧ (t.setJob j x).tty_modes = t.tty_modes ∧
      (t.setJob j x).shell_tmodes = t.shell_tmodes ∧ (t.setJob j x).shell_pgrp = t.shell_pgrp := by
    intro t j x
    cases j <;> exact ⟨rfl, rfl, rfl, rfl, rfl, rfl⟩
  obtain ⟨o1, o2, o3, o4, o5, o6⟩ := hfld (allocjob s1).2 (allocjob s1).1 s1.fg
  obtain ⟨p1, p2, p3, p4, p5, p6⟩ :=
    hfld ((allocjob s1).2.setJob (allocjob s1).1 s1.fg) FG Job.zero
  refine ⟨(allocjob s1).1,
    { (((allocjob s1).2).setJob (allocjob s1).1 s1.fg).setJob FG Job.zero with
      out := ((((allocjob s1).2).setJob (allocjob s1).1 s1.fg).setJob FG Job.zero).out ++
        [Msg.suspended (allocjob s1).1 s1.fg.command] },
    ?_, h1, rfl, hget, ?_, ?_, ?_, ?_, ?_, ?_, ?_, ?_, ?_⟩
  · unfold monitorEnd
    simp only [if_true]
    show (match movejob (allocjob s1).2 FG (allocjob s1).1 with
      | some s2 =>
        match jobcmd s2 (allocjob s1).1 with
        | some c => some ((0 : Int), { s2 with out := s2.out ++ [Msg.suspended (allocjob s1).1 c] })
        | none => none
      | none => none) = _
    rw [hmove]
    simp only [jobcmd, hget, Option.map_some']
  · intro k hk0 hkn
    show ((((allocjob s1).2).setJob (allocjob s1).1 s1.fg).setJob FG Job.zero).getJob k = _
    rw [getJob_setJob_ne _ _ _ _ hk0, getJob_setJob_ne _ _ _ _ hkn, hoth k hkn, hs1 k hk0]
  · intro k job hk1 hk2 hj
    exact hlow k job hk1 hk2 (by rw [hs1 k (by omega)]; exact hj)
  · have hnj : s1.njobmax = s.njobmax := rfl
    rcases hcase with ⟨hl, he⟩ | ⟨he, hl⟩
    · left
      refine ⟨by rw [← hnj]; exact hl, ⟨fr, ?_, hfr0⟩, ?_⟩
      · rw [← hs1 _ hn0, ← hfr, he]
      · show ((((allocjob s1).2).setJob (allocjob s1).1 s1.fg).setJob FG Job.zero).njobmax = _
        rw [njobmax_setJob, njobmax_setJob, he]
        exact hnj
    · right
      refine ⟨by rw [← hnj]; exact he, ?_⟩
      show ((((allocjob s1).2).setJob (allocjob s1).1 s1.fg).setJob FG Job.zero).njobmax = _
      rw [njobmax_setJob, njobmax_setJob, hl, hnj]
  · show (((allocjob s1).2.setJob (allocjob s1).1 s1.fg).setJob FG Job.zero).out ++ _ = _
    rw [p1, o1, hout]
  · show (((allocjob s1).2.setJob (allocjob s1).1 s1.fg).setJob FG Job.zero).sent = _
    rw [p2, o2, hsent]
  · show (((allocjob s1).2.setJob (allocjob s1).1 s1.fg).setJob FG Job.zero).tty_pgrp = _
    rw [p3, o3, htp]
  · show (((allocjob s1).2.setJob (allocjob s1).1 s1.fg).setJob FG Job.zero).tty_modes = _
    rw [p4, o4, htm]
  · show (((allocjob s1).2.setJob (allocjob s1).1 s1.fg).setJob FG Job.zero).shell_tmodes = _
    rw [p5, o5, hstm]
  · show (((allocjob s1).2.setJob (allocjob s1).1 s1.fg).setJob FG Job.zero).shell_pgrp = _
    rw [p6, o6, hsp]

theorem monitorjob_of_wait (hd : Header) (hne : hd.RUNNING ≠ hd.FINISHED) (s : St)
    (status0 : Int) (pend : List Notif) (bs : List (List Notif))
    (sW : St) (pend' : List Notif) (bs' : List (List Notif))
    (hW : waitWhile hd hd.RUNNING (giveTerminal s) pend bs = some (sW, pend', bs')) :
    monitorjob hd s status0 pend bs =
      match jobstate hd sW FG status0 with
      | some (state, status, s1) =>
        match monitorEnd hd state status s1 with
        | some (code, s2) => some (code, takeTerminal s2, pend', bs')
        | none => none
      | none => none := by
  unfold monitorjob
  rw [monitorWait_eq hd hne, hW]
  dsimp only
  cases hj : jobstate hd sW FG status0 with
  | none => rfl
  | some r => rfl

/-- C3: once the foreground job has left RUNNING, `monitorjob` returns; it
returns 0 if the job is then STOPPED, and if it is FINISHED it returns the exit
value of the status of the job's last process when that status is a normal
exit, and the signal number when it is a termination by a signal. -/
theorem monitorjob_exit_code (hd : Header) (hdist : hd.Distinct) (hx : hd.ExitOrSignal)
    (s : St) (status0 : Int) (pend : List Notif) (bs : List (List Notif))
    (sW : St) (pend' : List Notif) (bs' : List (List Notif))
    (hW : waitWhile hd hd.RUNNING (giveTerminal s) pend bs = some (sW, pend', bs')) :
    (sW.fg.state = hd.STOPPED →
      ∃ s', monitorjob hd s status0 pend bs = some (0, s', pend', bs')) ∧
    (sW.fg.state = hd.FINISHED → ∀ last, sW.fg.proc[sW.fg.nproc - 1]? = some last →
      ∃ code s', monitorjob hd s status0 pend bs = some (code, s', pend', bs') ∧
        (hd.WIFEXITED last.exitcode = true → code = hd.WEXITSTATUS last.exitcode) ∧
        (hd.WIFSIGNALED last.exitcode = true → code = hd.WTERMSIG last.exitcode)) := by
  obtain ⟨h1, h2, h3⟩ := hdist
  have hm := monitorjob_of_wait hd (fun e => h1 e.symm) s status0 pend bs sW pend' bs' hW
  constructor
  · intro hst
    have hj := jobstate_of_ne hd sW FG status0 sW.fg (getJob_FG sW)
      (by rw [hst]; exact fun e => h2 e.symm)
    obtain ⟨n, s2, he, -⟩ := monitorEnd_stopped hd status0 sW
    refine ⟨takeTerminal s2, ?_⟩
    rw [hm, hj, hst]
    simp only [he]
  · intro hfin last hlast
    have hpos : sW.fg.state = hd.FINISHED → 0 < sW.fg.nproc := by
      intro _
      have := (List.getElem?_eq_some_iff.mp hlast).1
      unfold Job.nproc
      omega
    obtain ⟨l, s1, hl, hj, -⟩ :=
      jobstate_fin_some hd sW FG status0 sW.fg (getJob_FG sW) hfin (hpos hfin)
    rw [hlast] at hl
    cases hl
    rw [hfin] at hj
    have hend : monitorEnd hd hd.FINISHED last.exitcode s1 =
        some (if hd.WIFEXITED last.exitcode = true then hd.WEXITSTATUS last.exitcode
          else if hd.WIFSIGNALED last.exitcode = true then hd.WTERMSIG last.exitcode else 0,
          s1) := by
      unfold monitorEnd
      rw [if_neg h2, if_pos rfl]
      split_ifs <;> rfl
    refine ⟨if hd.WIFEXITED last.exitcode = true then hd.WEXITSTATUS last.exitcode
        else if hd.WIFSIGNALED last.exitcode = true then hd.WTERMSIG last.exitcode else 0,
      takeTerminal s1, ?_, ?_, ?_⟩
    · rw [hm, hj]
      simp only [hend]
    · intro he
      rw [if_pos he]
    · intro hsig
      have he := hx _ hsig
      rw [if_neg (by rw [he]; exact Bool.false_ne_true), if_pos hsig]

/-- C3 on `fgPipe`: the first stage exits with value 1, then the last stage is
killed by signal 15, and `monitorjob` returns 15. -/
theorem monitorjob_exit_code_witness :
    ∃ code s', monitorjob linux fgPipe 0 [] [[(7, 256)], [(8, 15)]] = some (code, s', [], []) ∧
      (linux.WIFEXITED 15 = true → code = linux.WEXITSTATUS 15) ∧
      (linux.WIFSIGNALED 15 = true → code = linux.WTERMSIG 15) :=
  (monitorjob_exit_code linux linux_distinct linux_exitOrSignal fgPipe 0 []
    [[(7, 256)], [(8, 15)]]
    { (giveTerminal fgPipe) with
      fg := { pgid := 7, proc := [⟨7, 0, 256⟩, ⟨8, 0, 15⟩], tmodes := 3, state := 0,
              command := some "a | b" } } [] [] (by decide)).2 (by decide) ⟨8, 0, 15⟩ (by decide)

theorem updproc_isState (hd : Header) (pid status : Int) (p : Proc)
    (h : IsState hd p.state) : IsState hd (updproc hd pid status p).state := by
  unfold updproc
  split_ifs
  · exact Or.inl rfl
  · exact Or.inr (Or.inl rfl)
  · exact Or.inr (Or.inr rfl)
  · exact h
  · exact h

theorem reap_states (hd : Header) (q : List Notif) :
    ∀ (js : List Job) (j : Nat) (a b : Job), js[j]? = some a →
      (reap hd js q).1[j]? = some b →
      b.pgid = a.pgid ∧ b.state = a.state ∧
      ((∀ p ∈ a.proc, IsState hd p.state) → ∀ p ∈ b.proc, IsState hd p.state) := by
  induction q with
  | nil =>
    intro js j a b ha hb
    simp only [reap] at hb
    rw [ha] at hb
    cases hb
    exact ⟨rfl, rfl, fun h => h⟩
  | cons n q ih =>
    intro js j a b ha hb
    obtain ⟨pid, status⟩ := n
    have hupd : (updjobs hd pid status js)[j]? = some (withProc (updproc hd pid status) a) := by
      rw [updjobs_eq_map, List.getElem?_map, ha]
      rfl
    have hone : ∀ p ∈ (withProc (updproc hd pid status) a).proc,
        (∀ p ∈ a.proc, IsState hd p.state) → IsState hd p.state := by
      intro p hp hall
      simp only [withProc, List.mem_map] at hp
      obtain ⟨p', hp', rfl⟩ := hp
      exact updproc_isState hd pid status p' (hall p' hp')
    unfold reap at hb
    by_cases hpos : 0 < pid
    · rw [if_pos hpos] at hb
      by_cases hk : known pid js = true
      · rw [if_pos hk] at hb
        obtain ⟨e1, e2, e3⟩ := ih _ j _ b hupd hb
        exact ⟨e1, e2, fun hall => e3 (fun p hp => hone p hp hall)⟩
      · rw [if_neg hk] at hb
        rw [hupd] at hb
        cases hb
        exact ⟨rfl, rfl, fun hall p hp => hone p hp hall⟩
    · rw [if_neg hpos] at hb
      rw [ha] at hb
      cases hb
      exact ⟨rfl, rfl, fun h => h⟩

/-- The handler keeps the state fields of the foreground job well typed. -/
theorem sigchld_handler_typed (hd : Header) (s s' : St) (q q' : List Notif)
    (h : sigchld_handler hd s q = some (s', q')) (ht : JobTyped hd s.fg) :
    JobTyped hd s'.fg := by
  unfold sigchld_handler at h
  cases hr : rederiveAll (reap hd s.jobs q).1 with
  | none => simp [hr] at h
  | some js' =>
    cases js' with
    | nil => simp [hr] at h
    | cons fg' bg' =>
      simp only [hr, Option.some.injEq, Prod.mk.injEq] at h
      obtain ⟨hs, -⟩ := h
      subst hs
      show JobTyped hd fg'
      obtain ⟨hl, hget⟩ := rederiveAll_get _ _ hr
      cases hre : (reap hd s.jobs q).1 with
      | nil => rw [hre] at hl; simp at hl
      | cons a rest =>
        obtain ⟨b, hb, hrb⟩ := hget 0 a (by rw [hre]; simp)
        simp only [List.getElem?_cons_zero, Option.some.injEq] at hb
        subst hb
        obtain ⟨e1, e2, e3⟩ := reap_states hd q s.jobs 0 s.fg a (by simp [St.jobs])
          (by rw [hre]; simp)
        obtain ⟨r1, r2, -, -, -, r6⟩ := rederive_spec a _ hrb
        intro hpg
        rw [r1] at hpg
        obtain ⟨t1, t2⟩ := ht (by rw [← e1]; exact hpg)
        obtain ⟨hne, k1, k2⟩ := r6 hpg
        have hprocs := e3 t2
        refine ⟨?_, by rw [r2]; exact hprocs⟩
        by_cases hall : ∃ S, ∀ p ∈ a.proc, p.state = S
        · obtain ⟨S, hS⟩ := hall
          rw [k1 S hS]
          cases hpr : a.proc with
          | nil => exact absurd hpr hne
          | cons p0 ps =>
            have hp0 : p0 ∈ a.proc := by rw [hpr]; exact List.mem_cons_self _ _
            rw [← hS p0 hp0]
            exact hprocs p0 hp0
        · rw [k2 hall, e2]
          exact t1

theorem waitWhile_typed (hd : Header) (st : Int) (bs : List (List Notif)) :
    ∀ (s : St) (pend : List Notif) (sW : St) (p : List Notif) (b : List (List Notif)),
      waitWhile hd st s pend bs = some (sW, p, b) → JobTyped hd s.fg → JobTyped hd sW.fg := by
  induction bs with
  | nil =>
    intro s pend sW p b h ht
    unfold waitWhile at h
    split_ifs at h
    simp at h
    rw [← h.1]
    exact ht
  | cons x xs ih =>
    intro s pend sW p b h ht
    unfold waitWhile at h
    split_ifs at h
    · cases hh : Sigsuspend hd s pend x with
      | none => simp [hh] at h
      | some r =>
        obtain ⟨s', pend'⟩ := r
        simp only [hh] at h
        exact ih s' pend' sW p b h (sigchld_handler_typed hd s s' _ pend' hh ht)
    · simp at h
      rw [← h.1]
      exact ht

theorem jobstate_fin (hd : Header) (s : St) (j : Nat) (st : Int) (job : Job)
    (state status : Int) (s1 : St) (hj : s.getJob j = some job)
    (hfin : job.state = hd.FINISHED) (h : jobstate hd s j st = some (state, status, s1)) :
    s1 = s.setJob j { job with pgid := 0, proc := [], command := none } ∧
    exitcode job = some status ∧ state = job.state := by
  unfold jobstate at h
  simp only [hj, hfin, if_true] at h
  cases he : exitcode job with
  | none => simp [he] at h
  | some e =>
    simp only [he, deljob, hfin, if_true, Option.some.injEq, Prod.mk.injEq] at h
    obtain ⟨e1, e2, e3⟩ := h
    exact ⟨by rw [hfin]; exact e3.symm, by rw [e2], by rw [hfin, e1]⟩

theorem monitorEnd_finished (hd : Header) (hne : hd.FINISHED ≠ hd.STOPPED) (status code : Int)
    (s s2 : St) (h : monitorEnd hd hd.FINISHED status s = some (code, s2)) : s2 = s := by
  unfold monitorEnd at h
  rw [if_neg hne, if_pos rfl] at h
  split_ifs at h <;> simp at h <;> exact h.2.symm

theorem giveTerminal_fg (s : St) : (giveTerminal s).fg = s.fg := by
  unfold giveTerminal
  split_ifs <;> rfl

/-- C10: whenever `monitorjob` returns, the foreground job had left RUNNING.  If
it was FINISHED, slot 0 has been freed and the background slots are as they
were.  If it was STOPPED, slot 0 is zeroed and the job sits, with the same
pgid, records, state and command, in background slot `n`, where `n` is the
lowest free background slot, or the new last slot if none was free; all other
slots are as they were.  So slot 0 is free at the return, provided the state
fields of the foreground job held job states at the call. -/
theorem monitorjob_frees_fg (hd : Header) (hdist : hd.Distinct) (s : St) (status0 : Int)
    (pend : List Notif) (bs : List (List Notif)) (code : Int) (s' : St)
    (pend' : List Notif) (bs' : List (List Notif))
    (h : monitorjob hd s status0 pend bs = some (code, s', pend', bs')) :
    (JobTyped hd s.fg → s'.fg.pgid = 0) ∧
    ∃ sW, waitWhile hd hd.RUNNING (giveTerminal s) pend bs = some (sW, pend', bs') ∧
      sW.fg.state ≠ hd.RUNNING ∧
      (sW.fg.state = hd.FINISHED →
        s'.fg = { sW.fg with pgid := 0, proc := [], command := none } ∧ s'.bg = sW.bg) ∧
      (sW.fg.state = hd.STOPPED →
        s'.fg = Job.zero ∧
        ∃ n moved, 1 ≤ n ∧ s'.getJob n = some moved ∧
          moved.pgid = sW.fg.pgid ∧ moved.proc = sW.fg.proc ∧
          moved.state = sW.fg.state ∧ moved.command = sW.fg.command ∧
          (∀ k job, 1 ≤ k → k < n → sW.getJob k = some job → job.pgid ≠ 0) ∧
          ((n < sW.njobmax ∧ (∃ job, sW.getJob n = some job ∧ job.pgid = 0) ∧
              s'.njobmax = sW.njobmax) ∨
            (n = sW.njobmax ∧ s'.njobmax = sW.njobmax + 1)) ∧
          (∀ k, k ≠ 0 → k ≠ n → s'.getJob k = sW.getJob k)) := by
  obtain ⟨h1, h2, h3⟩ := hdist
  have hne : hd.RUNNING ≠ hd.FINISHED := fun e => h1 e.symm
  cases hW : waitWhile hd hd.RUNNING (giveTerminal s) pend bs with
  | none =>
    unfold monitorjob at h
    rw [monitorWait_eq hd hne, hW] at h
    simp at h
  | some r =>
    obtain ⟨sW, p, b⟩ := r
    rw [monitorjob_of_wait hd hne s status0 pend bs sW p b hW] at h
    cases hj : jobstate hd sW FG status0 with
    | none => simp [hj] at h
    | some r1 =>
      obtain ⟨state, status, s1⟩ := r1
      simp only [hj] at h
      cases he : monitorEnd hd state status s1 with
      | none => simp [he] at h
      | some r2 =>
        obtain ⟨code2, s2⟩ := r2
        simp only [he, Option.some.injEq, Prod.mk.injEq] at h
        obtain ⟨-, hs', hp, hb⟩ := h
        subst hs' hp hb
        have hrun := waitWhile_left hd hd.RUNNING bs _ pend sW _ _ hW
        have hF : sW.fg.state = hd.FINISHED →
            (takeTerminal s2).fg = { sW.fg with pgid := 0, proc := [], command := none } ∧
            (takeTerminal s2).bg = sW.bg := by
          intro hfin
          obtain ⟨e1, -, e3⟩ := jobstate_fin hd sW FG status0 sW.fg state status s1
            (getJob_FG sW) hfin hj
          rw [e3, hfin] at he
          have e4 := monitorEnd_finished hd h2 _ _ _ _ he
          rw [e4, e1]
          exact ⟨rfl, rfl⟩
        have hS : sW.fg.state = hd.STOPPED →
            (takeTerminal s2).fg = Job.zero ∧
            ∃ n moved, 1 ≤ n ∧ (takeTerminal s2).getJob n = some moved ∧
              moved.pgid = sW.fg.pgid ∧ moved.proc = sW.fg.proc ∧
              moved.state = sW.fg.state ∧ moved.command = sW.fg.command ∧
              (∀ k job, 1 ≤ k → k < n → sW.getJob k = some job → job.pgid ≠ 0) ∧
              ((n < sW.njobmax ∧ (∃ job, sW.getJob n = some job ∧ job.pgid = 0) ∧
                  (takeTerminal s2).njobmax = sW.njobmax) ∨
                (n = sW.njobmax ∧ (takeTerminal s2).njobmax = sW.njobmax + 1)) ∧
              (∀ k, k ≠ 0 → k ≠ n → (takeTerminal s2).getJob k = sW.getJob k) := by
          intro hst
          have hj' := jobstate_of_ne hd sW FG status0 sW.fg (getJob_FG sW)
            (by rw [hst]; exact fun e => h2 e.symm)
          rw [hj] at hj'
          simp only [Option.some.injEq, Prod.mk.injEq] at hj'
          obtain ⟨e1, e2, e3⟩ := hj'
          rw [e1, e3, hst] at he
          obtain ⟨n, t, ht, hn1, hfg, hget, hoth, hlow, hcase, -⟩ :=
            monitorEnd_stopped hd status sW
          rw [he] at ht
          simp only [Option.some.injEq, Prod.mk.injEq] at ht
          obtain ⟨-, e4⟩ := ht
          rw [e4]
          exact ⟨hfg, n, _, hn1, hget, rfl, rfl, rfl, rfl, hlow, hcase, hoth⟩
        refine ⟨fun ht => ?_, sW, rfl, hrun, hF, hS⟩
        by_cases hfin : sW.fg.state = hd.FINISHED
        · rw [(hF hfin).1]
        · by_cases hst : sW.fg.state = hd.STOPPED
          · rw [(hS hst).1]
            rfl
          · have htW : JobTyped hd sW.fg := by
              apply waitWhile_typed hd hd.RUNNING bs _ pend sW _ _ hW
              rw [giveTerminal_fg]
              exact ht
            have hpg : sW.fg.pgid = 0 := by
              by_contra hc
              rcases (htW hc).1 with e | e | e
              · exact hrun e
              · exact hst e
              · exact hfin e
            have hj' := jobstate_of_ne hd sW FG status0 sW.fg (getJob_FG sW) hfin
            rw [hj] at hj'
            simp only [Option.some.injEq, Prod.mk.injEq] at hj'
            obtain ⟨e1, e2, e3⟩ := hj'
            have he' : monitorEnd hd state status s1 = some (0, s1) := by
              unfold monitorEnd
              rw [if_neg (by rw [e1]; exact hst), if_neg (by rw [e1]; exact hfin)]
            rw [he] at he'
            simp only [Option.some.injEq, Prod.mk.injEq] at he'
            rw [he'.2, e3]
            exact hpg

/-- C10 on `fgPipe` when both stages are reported stopped: the pipeline moves
to slot 2, the lowest free background slot. -/
theorem monitorjob_frees_fg_witness :
    monitorjob linux fgPipe 0 [] [[(7, 4991), (8, 4991)]] = some (0, fgPipeSuspended, [], []) ∧
    (JobTyped linux fgPipe.fg → fgPipeSuspended.fg.pgid = 0) ∧
    ∃ sW, waitWhile linux linux.RUNNING (giveTerminal fgPipe) [] [[(7, 4991), (8, 4991)]] =
        some (sW, [], []) ∧
      sW.fg.state ≠ linux.RUNNING ∧
      (sW.fg.state = linux.FINISHED →
        fgPipeSuspended.fg = { sW.fg with pgid := 0, proc := [], command := none } ∧
        fgPipeSuspended.bg = sW.bg) ∧
      (sW.fg.state = linux.STOPPED →
        fgPipeSuspended.fg = Job.zero ∧
        ∃ n moved, 1 ≤ n ∧ fgPipeSuspended.getJob n = some moved ∧
          moved.pgid = sW.fg.pgid ∧ moved.proc = sW.fg.proc ∧
          moved.state = sW.fg.state ∧ moved.command = sW.fg.command ∧
          (∀ k job, 1 ≤ k → k < n → sW.getJob k = some job → job.pgid ≠ 0) ∧
          ((n < sW.njobmax ∧ (∃ job, sW.getJob n = some job ∧ job.pgid = 0) ∧
              fgPipeSuspended.njobmax = sW.njobmax) ∨
            (n = sW.njobmax ∧ fgPipeSuspended.njobmax = sW.njobmax + 1)) ∧
          (∀ k, k ≠ 0 → k ≠ n → fgPipeSuspended.getJob k = sW.getJob k)) :=
  ⟨by rfl, monitorjob_frees_fg linux linux_distinct fgPipe 0 [] [[(7, 4991), (8, 4991)]]
    0 fgPipeSuspended [] [] (by rfl)⟩

/-! ### `resumejob` -/

theorem lastLive_spec (hd : Header) (s : St) (n : Nat) :
    lastLive hd s n ≤ n ∧
    (∀ k job, lastLive hd s n < k → k ≤ n → s.getJob k = some job → job.state = hd.FINISHED) ∧
    (0 < lastLive hd s n → ∀ job, s.getJob (lastLive hd s n) = some job →
      job.state ≠ hd.FINISHED) := by
  induction n with
  | zero =>
    exact ⟨le_refl _, fun k job h1 h2 => absurd h1 (by simp only [lastLive]; omega),
      fun h => absurd h (lt_irrefl _)⟩
  | succ n ih =>
    obtain ⟨i1, i2, i3⟩ := ih
    cases hj : s.getJob (n + 1) with
    | none =>
      have e : lastLive hd s (n + 1) = n + 1 := by simp only [lastLive, hj]
      rw [e]
      refine ⟨le_refl _, fun k job h1 h2 => by omega, fun _ job hjob => ?_⟩
      rw [hj] at hjob
      cases hjob
    | some job0 =>
      by_cases hf : job0.state = hd.FINISHED
      · have e : lastLive hd s (n + 1) = lastLive hd s n := by
          simp only [lastLive, hj, hf, if_true]
        rw [e]
        refine ⟨by omega, fun k job h1 h2 hk => ?_, i3⟩
        by_cases hk' : k = n + 1
        · rw [hk', hj] at hk
          cases hk
          exact hf
        · exact i2 k job h1 (by omega) hk
      · have e : lastLive hd s (n + 1) = n + 1 := by
          simp only [lastLive, hj, hf, if_false]
        rw [e]
        refine ⟨le_refl _, fun k job h1 h2 => by omega, fun _ job hjob => ?_⟩
        rw [hj] at hjob
        cases hjob
        exact hf

theorem noTarget_iff (hd : Header) (s : St) (r : Nat) :
    noTarget hd s r = true ↔
      (s.njobmax ≤ r ∨ ∃ job, s.getJob r = some job ∧ job.state = hd.FINISHED) := by
  unfold noTarget
  cases hj : s.getJob r with
  | none =>
    have : s.njobmax ≤ r := by
      unfold St.getJob at hj
      have := List.getElem?_eq_none_iff.mp hj
      simpa [St.jobs, St.njobmax] using this
    simp [this]
  | some job =>
    have := getJob_lt s r job hj
    have h' : ¬ s.njobmax ≤ r := by omega
    simp [h']

/-- The refusal of `resumejob` in terms of the index that lines 188-191 leave
in `j`. -/
theorem resumejob_false_resolve (hd : Header) (s : St) (j : Int) (bg : Bool) (status0 : Int)
    (pend : List Notif) (bs : List (List Notif)) :
    (j < 0 →
      resolve hd s j < s.njobmax ∧
      (∀ k job, resolve hd s j < k → s.getJob k = some job → job.state = hd.FINISHED) ∧
      ((∃ k job, s.getJob k = some job ∧ job.state ≠ hd.FINISHED) →
        ∃ job, s.getJob (resolve hd s j) = some job ∧ job.state ≠ hd.FINISHED)) ∧
    (∀ s' pend' bs', resumejob hd s j bg status0 pend bs = some (false, s', pend', bs') ↔
      ((s.njobmax ≤ resolve hd s j ∨
          ∃ job, s.getJob (resolve hd s j) = some job ∧ job.state = hd.FINISHED) ∧
        s' = s ∧ pend' = pend ∧ bs' = bs)) := by
  constructor
  · intro hneg
    obtain ⟨l1, l2, l3⟩ := lastLive_spec hd s (s.njobmax - 1)
    have hr : resolve hd s j = lastLive hd s (s.njobmax - 1) := by simp [resolve, hneg]
    rw [hr]
    have hlt : lastLive hd s (s.njobmax - 1) < s.njobmax := by
      have : 0 < s.njobmax := by simp [St.njobmax]
      omega
    have hup : ∀ k job, lastLive hd s (s.njobmax - 1) < k → s.getJob k = some job →
        job.state = hd.FINISHED := by
      intro k job hk hj
      have := getJob_lt s k job hj
      exact l2 k job hk (by omega) hj
    refine ⟨hlt, hup, ?_⟩
    rintro ⟨k, job, hk, hne⟩
    obtain ⟨job0, hj0⟩ : ∃ job0, s.getJob (lastLive hd s (s.njobmax - 1)) = some job0 := by
      unfold St.getJob
      exact ⟨_, List.getElem?_eq_getElem (by simpa [St.jobs, St.njobmax] using hlt)⟩
    refine ⟨job0, hj0, ?_⟩
    by_cases h0 : 0 < lastLive hd s (s.njobmax - 1)
    · exact l3 h0 job0 hj0
    · have hz : lastLive hd s (s.njobmax - 1) = 0 := by omega
      by_cases hk0 : k = 0
      · rw [hz, ← hk0, hk] at hj0
        cases hj0
        exact hne
      · exact absurd (hup k job (by omega) hk) hne
  · intro s' pend' bs'
    rw [← noTarget_iff]
    unfold resumejob
    by_cases hn : noTarget hd s (resolve hd s j) = true
    · simp only [hn, if_true, Option.some.injEq, Prod.mk.injEq, true_and]
      constructor
      · rintro ⟨e1, e2, e3⟩
        exact ⟨e1.symm, e2.symm, e3.symm⟩
      · rintro ⟨e1, e2, e3⟩
        exact ⟨e1.symm, e2.symm, e3.symm⟩
    · have hn' : noTarget hd s (resolve hd s j) = false := by simpa using hn
      rw [hn']
      simp only [Bool.false_eq_true, false_and, iff_false]
      intro h
      split at h
      · exact hn (by assumption)
      · cases bg with
        | false =>
          simp only [Bool.not_false, if_true] at h
          split at h
          · split at h
            · split at h
              · simp at h
              · simp at h
            · simp at h
          · simp at h
        | true =>
          simp only [Bool.not_true, Bool.false_eq_true, if_false] at h
          split at h
          · simp at h
          · simp at h

/-- C4: `resumejob` returns false exactly when the slot it is to resume is out
of range or holds a FINISHED job, and then the globals (job table, signals
sent, lines printed) and the pending reports are as before.  For `j ≥ 0` that
slot is `j` itself.  For `j < 0` it is the slot `r` below `njobmax` above which
every slot is FINISHED and which, unless it is slot 0, is not FINISHED itself:
the highest slot that is not FINISHED whenever there is one. -/
theorem resumejob_false_iff (hd : Header) (s : St) (j : Int) (bg : Bool) (status0 : Int)
    (pend : List Notif) (bs : List (List Notif)) :
    (0 ≤ j →
      ∀ s' pend' bs', resumejob hd s j bg status0 pend bs = some (false, s', pend', bs') ↔
        (((s.njobmax : Int) ≤ j ∨
            ∃ job, s.getJob j.toNat = some job ∧ job.state = hd.FINISHED) ∧
          s' = s ∧ pend' = pend ∧ bs' = bs)) ∧
    (j < 0 →
      ∃ r, r < s.njobmax ∧
        (∀ k job, r < k → s.getJob k = some job → job.state = hd.FINISHED) ∧
        (0 < r → ∃ job, s.getJob r = some job ∧ job.state ≠ hd.FINISHED) ∧
        ((∃ k job, s.getJob k = some job ∧ job.state ≠ hd.FINISHED) →
          ∃ job, s.getJob r = some job ∧ job.state ≠ hd.FINISHED) ∧
        ∀ s' pend' bs', resumejob hd s j bg status0 pend bs = some (false, s', pend', bs') ↔
          ((∃ job, s.getJob r = some job ∧ job.state = hd.FINISHED) ∧
            s' = s ∧ pend' = pend ∧ bs' = bs)) := by
  obtain ⟨hres, hiff⟩ := resumejob_false_resolve hd s j bg status0 pend bs
  constructor
  · intro hj s' pend' bs'
    have hr : resolve hd s j = j.toNat := by
      have : ¬ j < 0 := by omega
      simp [resolve, this]
    rw [hiff s' pend' bs', hr]
    have hle : s.njobmax ≤ j.toNat ↔ (s.njobmax : Int) ≤ j := by
      have := Int.toNat_of_nonneg hj
      omega
    rw [hle]
  · intro hj
    obtain ⟨h1, h2, h3⟩ := hres hj
    obtain ⟨job0, hj0⟩ : ∃ job0, s.getJob (resolve hd s j) = some job0 := by
      unfold St.getJob
      exact ⟨_, List.getElem?_eq_getElem (by simpa [St.jobs, St.njobmax] using h1)⟩
    refine ⟨resolve hd s j, h1, h2, fun hpos => ⟨job0, hj0, ?_⟩, h3, fun s' pend' bs' => ?_⟩
    · have hr : resolve hd s j = lastLive hd s (s.njobmax - 1) := by simp [resolve, hj]
      rw [hr] at hpos hj0
      exact (lastLive_spec hd s (s.njobmax - 1)).2.2 hpos job0 hj0
    · rw [hiff s' pend' bs']
      constructor
      · rintro ⟨h | h, e⟩
        · omega
        · exact ⟨h, e⟩
      · rintro ⟨h, e⟩
        exact ⟨Or.inr h, e⟩

/-- C4 on `threeJobs` (slot 1 STOPPED, slot 2 FINISHED, slot 3 zeroed):
`resumejob(7, ..)` is out of range and `resumejob(2, ..)` meets a FINISHED job,
so both return false and change nothing; `resumejob(1, ..)` does not return
false; `resumejob(-1, ..)` picks slot 1 and does not return false either. -/
theorem resumejob_false_iff_witness :
    resumejob linux threeJobs 7 true 0 [] [] = some (false, threeJobs, [], []) ∧
    resumejob linux threeJobs 2 true 0 [] [] = some (false, threeJobs, [], []) ∧
    (resumejob linux threeJobs 1 true 0 [] []).map (fun r => r.1) = some true ∧
    (resumejob linux threeJobs (-1) true 0 [] []).map (fun r => r.1) = some true ∧
    (((threeJobs.njobmax : Int) ≤ 7 ∨
        ∃ job, threeJobs.getJob (7 : Int).toNat = some job ∧ job.state = linux.FINISHED) ∧
      threeJobs = threeJobs ∧ ([] : List Notif) = [] ∧ ([] : List (List Notif)) = []) ∧
    (∃ r, r < threeJobs.njobmax ∧
      (∀ k job, r < k → threeJobs.getJob k = some job → job.state = linux.FINISHED) ∧
      (0 < r → ∃ job, threeJobs.getJob r = some job ∧ job.state ≠ linux.FINISHED) ∧
      ((∃ k job, threeJobs.getJob k = some job ∧ job.state ≠ linux.FINISHED) →
        ∃ job, threeJobs.getJob r = some job ∧ job.state ≠ linux.FINISHED) ∧
      ∀ s' pend' bs',
        resumejob linux threeJobs (-1) true 0 [] [] = some (false, s', pend', bs') ↔
          ((∃ job, threeJobs.getJob r = some job ∧ job.state = linux.FINISHED) ∧
            s' = threeJobs ∧ pend' = [] ∧ bs' = [])) :=
  ⟨by rfl, by rfl, by rfl, by rfl,
    (((resumejob_false_iff linux threeJobs 7 true 0 [] []).1 (by decide)) threeJobs [] []).1
      (by rfl),
    (resumejob_false_iff linux threeJobs (-1) true 0 [] []).2 (by decide)⟩

/-! ### The job records the code builds -/

theorem updproc_sound (hd : Header) (hdist : hd.Distinct) (pid status : Int) (p : Proc)
    (h : ProcSound hd p) : ProcSound hd (updproc hd pid status p) := by
  obtain ⟨h1, h2, -⟩ := hdist
  unfold updproc
  split_ifs with a b c d
  · exact ⟨Or.inl rfl, fun e => absurd e.symm h1⟩
  · exact ⟨Or.inr (Or.inl rfl), fun e => absurd e.symm h2⟩
  · exact ⟨Or.inr (Or.inr rfl), fun _ => by simpa [Header.Final] using d⟩
  · exact h
  · exact h

theorem updproc_final (hd : Header) (pid status : Int) (p : Proc)
    (h : hd.Final p.exitcode) : hd.Final (updproc hd pid status p).exitcode := by
  unfold updproc
  split_ifs with a b c d
  · exact h
  · exact h
  · simpa [Header.Final] using d
  · exact h
  · exact h

/-- The reaping loop keeps the pgid, the state and the command of every slot,
and every property of its records that one update of a record keeps. -/
theorem reap_keeps (hd : Header) (P : Proc → Prop)
    (hP : ∀ pid status p, P p → P (updproc hd pid status p)) (q : List Notif) :
    ∀ (js : List Job) (j : Nat) (a b : Job), js[j]? = some a →
      (reap hd js q).1[j]? = some b →
      b.pgid = a.pgid ∧ b.state = a.state ∧ b.command = a.command ∧
      ((∀ p ∈ a.proc, P p) → ∀ p ∈ b.proc, P p) := by
  induction q with
  | nil =>
    intro js j a b ha hb
    simp only [reap] at hb
    rw [ha] at hb
    cases hb
    exact ⟨rfl, rfl, rfl, fun h => h⟩
  | cons n q ih =>
    intro js j a b ha hb
    obtain ⟨pid, status⟩ := n
    have hupd : (updjobs hd pid status js)[j]? = some (withProc (updproc hd pid status) a) := by
      rw [updjobs_eq_map, List.getElem?_map, ha]
      rfl
    have hone : ∀ p ∈ (withProc (updproc hd pid status) a).proc,
        (∀ p ∈ a.proc, P p) → P p := by
      intro p hp hall
      simp only [withProc, List.mem_map] at hp
      obtain ⟨p', hp', rfl⟩ := hp
      exact hP pid status p' (hall p' hp')
    unfold reap at hb
    by_cases hpos : 0 < pid
    · rw [if_pos hpos] at hb
      by_cases hk : known pid js = true
      · rw [if_pos hk] at hb
        obtain ⟨e1, e2, e3, e4⟩ := ih _ j _ b hupd hb
        exact ⟨e1, e2, e3, fun hall => e4 (fun p hp => hone p hp hall)⟩
      · rw [if_neg hk] at hb
        rw [hupd] at hb
        cases hb
        exact ⟨rfl, rfl, rfl, fun hall p hp => hone p hp hall⟩
    · rw [if_neg hpos] at hb
      rw [ha] at hb
      cases hb
      exact ⟨rfl, rfl, rfl, fun h => h⟩

/-- The handler keeps every job as the code builds it. -/
theorem sigchld_handler_sound (hd : Header) (hdist : hd.Distinct) (s s' : St)
    (q q' : List Notif) (h : sigchld_handler hd s q = some (s', q')) (j : Nat) (a b : Job)
    (ha : s.getJob j = some a) (hb : s'.getJob j = some b) (hs : JobSound hd a) :
    JobSound hd b := by
  obtain ⟨-, -, -, -, -, -, -, -, g, -, -, he, hget⟩ := sigchld_handler_get hd s s' q q' h
  obtain ⟨b', hb', hr⟩ := hget j a ha
  rw [hb] at hb'
  cases hb'
  have ha' : s.jobs[j]? = some a := ha
  have hm : (reap hd s.jobs q).1[j]? = some (withProc g a) := by
    rw [he, List.getElem?_map, ha']
    rfl
  obtain ⟨e1, e2, e3, k1⟩ :=
    reap_keeps hd (ProcSound hd) (updproc_sound hd hdist) q s.jobs j a _ ha' hm
  obtain ⟨-, -, -, k2⟩ :=
    reap_keeps hd (fun p => hd.Final p.exitcode) (updproc_final hd) q s.jobs j a _ ha' hm
  obtain ⟨r1, r2, -, r4, -, r6⟩ := rederive_spec _ _ hr
  intro hpg
  have hpa : a.pgid ≠ 0 := by
    rw [r1, e1] at hpg
    exact hpg
  obtain ⟨c1, -, c3, c4, c5⟩ := hs hpa
  obtain ⟨hne, m1, m2⟩ := r6 (by rw [e1]; exact hpa)
  have hprocs := k1 c4
  refine ⟨by rw [r4, e3]; exact c1, by rw [r2]; exact hne, ?_, by rw [r2]; exact hprocs, ?_⟩
  · by_cases hall : ∃ S, ∀ p ∈ (withProc g a).proc, p.state = S
    · obtain ⟨S, hS⟩ := hall
      rw [m1 S hS]
      cases hpr : (withProc g a).proc with
      | nil => exact absurd hpr hne
      | cons p0 ps =>
        have hp0 : p0 ∈ (withProc g a).proc := by rw [hpr]; exact List.mem_cons_self _ _
        rw [← hS p0 hp0]
        exact (hprocs p0 hp0).1
    · rw [m2 hall, e2]
      exact c3
  · intro hfin p hp
    rw [r2] at hp
    by_cases hall : ∃ S, ∀ p ∈ (withProc g a).proc, p.state = S
    · obtain ⟨S, hS⟩ := hall
      exact (hprocs p hp).2 (by rw [hS p hp, ← m1 S hS]; exact hfin)
    · rw [m2 hall, e2] at hfin
      exact k2 (c5 hfin) p hp

theorem mkcommandLoop_cons (lib : Lib) (t : Token) (ts : List Token) (cmd : Option String)
    (ht : t ≠ Token.T_NULL) :
    mkcommandLoop lib (t :: ts) cmd =
      match lib.strapp cmd (Token.word " ") with
      | some c1 =>
        match lib.strapp c1 t with
        | some c2 => mkcommandLoop lib ts c2
        | none => none
      | none => none := by
  cases t <;> first | exact absurd rfl ht | rfl

theorem mkcommandLoop_string (lib : Lib)
    (hS : ∀ c t c', lib.strapp c t = some c' → c' ≠ none) (ts : List Token) :
    ∀ cmd r, mkcommandLoop lib ts cmd = some r → cmd ≠ none → r ≠ none := by
  induction ts with
  | nil => intro cmd r h; simp [mkcommandLoop] at h
  | cons t ts ih =>
    intro cmd r h hc
    by_cases ht : t = Token.T_NULL
    · subst ht
      simp only [mkcommandLoop, Option.some.injEq] at h
      rw [← h]
      exact hc
    · rw [mkcommandLoop_cons lib t ts cmd ht] at h
      cases h1 : lib.strapp cmd (Token.word " ") with
      | none => simp [h1] at h
      | some c1 =>
        cases h2 : lib.strapp c1 t with
        | none => simp [h1, h2] at h
        | some c2 =>
          simp only [h1, h2] at h
          exact ih c2 r h (hS _ _ _ h2)

/-- With a `strapp` that leaves a string in `*dstp`, `mkcommand` leaves one. -/
theorem mkcommand_string (lib : Lib) (hS : ∀ c t c', lib.strapp c t = some c' → c' ≠ none)
    (cmd : Option String) (argv : List Token) (r : Option String)
    (h : mkcommand lib cmd argv = some r) : r ≠ none := by
  unfold mkcommand at h
  cases h0 : (if cmd.isSome then lib.strapp cmd (Token.word " | ") else some cmd) with
  | none => simp [h0] at h
  | some c0 =>
    simp only [h0] at h
    cases argv with
    | nil => simp at h
    | cons a rest =>
      dsimp only at h
      cases h1 : lib.strapp c0 a with
      | none => simp [h1] at h
      | some c1 =>
        simp only [h1] at h
        exact mkcommandLoop_string lib hS rest c1 r h (hS _ _ _ h1)

/-- The function `addproc` on a job that is not FINISHED, such as the one
`addjob` has just made, leaves a job as in `JobSound` in the slot, in the same
state, and no other slot changes. -/
theorem addproc_sound (hd : Header) (hdist : hd.Distinct) (lib : Lib)
    (hS : ∀ c t c', lib.strapp c t = some c' → c' ≠ none) (s s' : St) (j : Nat) (pid : Int)
    (argv : List Token) (job : Job) (hj : s.getJob j = some job)
    (h : addproc hd lib s j pid argv = some s')
    (h1 : IsState hd job.state) (h2 : job.state ≠ hd.FINISHED)
    (h3 : ∀ p ∈ job.proc, ProcSound hd p) :
    ∃ job', s'.getJob j = some job' ∧ JobSound hd job' ∧ job'.state = job.state ∧
      job'.pgid = job.pgid ∧ ∀ k, k ≠ j → s'.getJob k = s.getJob k := by
  unfold addproc at h
  simp only [hj] at h
  cases hc : mkcommand lib job.command argv with
  | none => simp [hc] at h
  | some c =>
    simp only [hc, Option.some.injEq] at h
    subst h
    refine ⟨_, getJob_setJob_self _ _ _ (getJob_lt _ _ _ hj), ?_, rfl, rfl,
      fun k hk => getJob_setJob_ne _ _ _ _ hk⟩
    intro _
    refine ⟨mkcommand_string lib hS _ _ _ hc, by simp, h1, ?_, fun hf => absurd hf h2⟩
    intro p hp
    rcases List.mem_append.mp hp with e | e
    · exact h3 p e
    · simp only [List.mem_singleton] at e
      subst e
      exact ⟨Or.inl rfl, fun e => absurd e.symm hdist.1⟩

/-- The job `addjob` makes is in the state RUNNING and has no record yet, so
`addproc_sound` applies to it. -/
theorem addjob_fresh (hd : Header) (hdist : hd.Distinct) (s : St) (pgid : Int) (bg : Bool) :
    ∃ job, (addjob hd s pgid bg).2.getJob (addjob hd s pgid bg).1 = some job ∧
      job.pgid = pgid ∧ IsState hd job.state ∧ job.state ≠ hd.FINISHED ∧
      ∀ p ∈ job.proc, ProcSound hd p := by
  refine ⟨{ pgid := pgid, state := hd.RUNNING, command := none, proc := [],
            tmodes := s.shell_tmodes }, ?_, rfl, Or.inl rfl, fun e => hdist.1 e.symm, ?_⟩
  · unfold addjob
    dsimp only
    cases bg with
    | false =>
      simp only [Bool.false_eq_true, if_false]
      exact getJob_setJob_self _ _ _ (by simp [St.njobmax])
    | true =>
      simp only [if_true]
      obtain ⟨-, ⟨fr, hfr, -⟩, -⟩ := allocjob_spec s
      exact getJob_setJob_self _ _ _ (getJob_lt _ _ _ hfr)
  · intro p hp
    simp at hp

/-- The function `jobstate` keeps every job as the code builds it. -/
theorem jobstate_sound (hd : Header) (s s' : St) (j : Nat) (st state status : Int)
    (h : jobstate hd s j st = some (state, status, s')) (k : Nat) (a b : Job)
    (ha : s.getJob k = some a) (hb : s'.getJob k = some b) (hs : JobSound hd a) :
    JobSound hd b := by
  obtain ⟨job, hj, -⟩ := jobstate_state hd s s' j st state status h
  by_cases hf : job.state = hd.FINISHED
  · obtain ⟨e, -, -⟩ := jobstate_fin hd s j st job state status s' hj hf h
    subst e
    by_cases hk : k = j
    · subst hk
      rw [getJob_setJob_self _ _ _ (getJob_lt _ _ _ hj)] at hb
      cases hb
      intro hp
      exact absurd rfl hp
    · rw [getJob_setJob_ne _ _ _ _ hk, ha] at hb
      cases hb
      exact hs
  · rw [jobstate_of_ne hd s j st job hj hf] at h
    cases h
    rw [ha] at hb
    cases hb
    exact hs

/-- The function `movejob` keeps every job as the code builds it. -/
theorem movejob_sound (hd : Header) (s s' : St) (src dst : Nat)
    (h : movejob s src dst = some s')
    (hs : ∀ k a, s.getJob k = some a → JobSound hd a) :
    ∀ k b, s'.getJob k = some b → JobSound hd b := by
  unfold movejob at h
  cases h1 : s.getJob src with
  | none => simp [h1] at h
  | some a =>
    cases h2 : s.getJob dst with
    | none => simp [h1, h2] at h
    | some d =>
      simp only [h1, h2] at h
      split_ifs at h with hc
      simp only [Option.some.injEq] at h
      subst h
      intro k b hb
      by_cases hk : k = src
      · subst hk
        have hlt : k < (s.setJob dst a).njobmax := by
          rw [njobmax_setJob]
          exact getJob_lt _ _ _ h1
        rw [getJob_setJob_self _ _ _ hlt] at hb
        cases hb
        intro hp
        exact absurd rfl hp
      · rw [getJob_setJob_ne _ _ _ _ hk] at hb
        by_cases hk2 : k = dst
        · subst hk2
          rw [getJob_setJob_self _ _ _ (getJob_lt _ _ _ h2)] at hb
          cases hb
          exact hs src a h1
        · rw [getJob_setJob_ne _ _ _ _ hk2] at hb
          exact hs k b hb

/-! ### `watchjobs` -/

theorem setJob_fields (t : St) (j : Nat) (x : Job) :
    (t.setJob j x).out = t.out ∧ (t.setJob j x).sent = t.sent ∧
    (t.setJob j x).tty_pgrp = t.tty_pgrp ∧ (t.setJob j x).tty_modes = t.tty_modes ∧
    (t.setJob j x).shell_tmodes = t.shell_tmodes ∧ (t.setJob j x).shell_pgrp = t.shell_pgrp := by
  cases j <;> exact ⟨rfl, rfl, rfl, rfl, rfl, rfl⟩

theorem linesOf_congr (hd : Header) (which status0 : Int) (s t : St) (k : Nat)
    (h : t.getJob k = s.getJob k) : linesOf hd which status0 t k = linesOf hd which status0 s k := by
  unfold linesOf
  rw [h]

theorem watchjobsFrom_spec (hd : Header) (which status0 : Int) (n : Nat) :
    ∀ (j : Nat) (s s' : St), 1 ≤ j → watchjobsFrom hd which status0 n j s = some s' →
      s.njobmax ≤ j + n →
      sameRest s s' ∧
      (∀ k, k < j → s'.getJob k = s.getJob k) ∧
      (∀ k job, j ≤ k → s.getJob k = some job → s'.getJob k = some (afterWatch hd job)) ∧
      s'.out = s.out ++ (List.range' j n).flatMap (linesOf hd which status0 s) := by
  induction n with
  | zero =>
    intro j s s' _ h hn
    simp only [watchjobsFrom, Option.some.injEq] at h
    subst h
    refine ⟨⟨rfl, rfl, rfl, rfl, rfl, rfl, rfl⟩, fun _ _ => rfl, fun k job hk hj => ?_, by simp⟩
    have := getJob_lt s k job hj
    omega
  | succ n ih =>
    intro j s s' hj1 h hn
    unfold watchjobsFrom at h
    cases hg : s.getJob j with
    | none =>
      simp only [hg, Option.some.injEq] at h
      subst h
      have hge : s.njobmax ≤ j := by
        unfold St.getJob at hg
        have := List.getElem?_eq_none_iff.mp hg
        simpa [St.jobs, St.njobmax] using this
      refine ⟨⟨rfl, rfl, rfl, rfl, rfl, rfl, rfl⟩, fun _ _ => rfl, fun k job hk hj => ?_, ?_⟩
      · have := getJob_lt s k job hj
        omega
      · have hl : ∀ k ∈ List.range' j (n + 1), linesOf hd which status0 s k = [] := by
          intro k hk
          have hk' := (List.mem_range'_1.mp hk).1
          have : s.getJob k = none := by
            unfold St.getJob
            apply List.getElem?_eq_none
            simp only [St.jobs, List.length_cons]
            simp only [St.njobmax] at hge
            omega
          simp [linesOf, this]
        rw [List.flatMap_eq_nil_iff.mpr hl]
        simp
    | some job =>
      simp only [hg] at h
      have hrange : List.range' j (n + 1) = j :: List.range' (j + 1) n := by
        simp [List.range'_succ]
      by_cases hp : job.pgid = 0
      · simp only [hp, if_true] at h
        obtain ⟨hr, hlow, hup, hout⟩ := ih (j + 1) s s' (by omega) h (by omega)
        refine ⟨hr, fun k hk => hlow k (by omega), fun k job' hk hjk => ?_, ?_⟩
        · by_cases hkj : k = j
          · subst hkj
            rw [hg] at hjk
            cases hjk
            rw [hlow k (by omega), hg]
            simp [afterWatch, hp]
          · exact hup k job' (by omega) hjk
        · rw [hout, hrange, List.flatMap_cons]
          simp [linesOf, hg, hp]
      · simp only [hp, if_false] at h
        cases hc : job.command with
        | none => simp [hc] at h
        | some c =>
          simp only [hc] at h
          cases hjs : jobstate hd s j status0 with
          | none => simp [hjs] at h
          | some r =>
            obtain ⟨state, status, s1⟩ := r
            simp only [hjs] at h
            have hjlt := getJob_lt s j job hg
            -- what `jobstate` did
            have hs1 : s1.getJob j = some (afterWatch hd job) ∧
                (∀ k, k ≠ j → s1.getJob k = s.getJob k) ∧ sameRest s s1 ∧ s1.out = s.out ∧
                state = job.state ∧
                status = (if job.state = hd.FINISHED then (exitcode job).getD status0
                  else status0) := by
              by_cases hf : job.state = hd.FINISHED
              · obtain ⟨e1, e2, e3⟩ := jobstate_fin hd s j status0 job state status s1 hg hf hjs
                obtain ⟨f1, f2, f3, f4, f5, f6⟩ := setJob_fields s j
                  { job with pgid := 0, proc := [], command := none }
                obtain ⟨j', rfl⟩ : ∃ j', j = j' + 1 := ⟨j - 1, by omega⟩
                rw [e1]
                refine ⟨?_, fun k hk => getJob_setJob_ne s _ k _ hk,
                  ⟨rfl, njobmax_setJob _ _ _, f2, f3, f4, f5, f6⟩, f1, e3, ?_⟩
                · rw [getJob_setJob_self s _ _ hjlt]
                  simp [afterWatch, hp, hf]
                · simp [hf, e2]
              · have := jobstate_of_ne hd s j status0 job hg hf
                rw [hjs] at this
                simp only [Option.some.injEq, Prod.mk.injEq] at this
                obtain ⟨e1, e2, e3⟩ := this
                rw [e3]
                refine ⟨?_, fun _ _ => rfl, ⟨rfl, rfl, rfl, rfl, rfl, rfl, rfl⟩, rfl, e1, ?_⟩
                · rw [hg]
                  simp [afterWatch, hf]
                · simp [hf, e2]
            obtain ⟨g1, g2, ⟨r1, r2, r3, r4, r5, r6, r7⟩, g4, g5, g6⟩ := hs1
            obtain ⟨⟨q1, q2, q3, q4, q5, q6, q7⟩, hlow, hup, hout⟩ :=
              ih (j + 1) _ s' (by omega) h (by simp only [St.njobmax] at r2 hn ⊢; omega)
            have hget : ∀ (t : St) (o : List Msg) (k : Nat),
                ({ t with out := o } : St).getJob k = t.getJob k := fun _ _ _ => rfl
            have hget2 := hget s1 (s1.out ++ report hd which j (some c) state status)
            refine ⟨⟨q1.trans r1, q2.trans r2, q3.trans r3, q4.trans r4, q5.trans r5,
              q6.trans r6, q7.trans r7⟩, fun k hk => ?_, fun k job' hk hjk => ?_, ?_⟩
            · rw [hlow k (by omega), hget2, g2 k (by omega)]
            · by_cases hkj : k = j
              · subst hkj
                rw [hg] at hjk
                cases hjk
                rw [hlow k (by omega), hget2, g1]
              · have hks : s1.getJob k = some job' := by rw [g2 k hkj]; exact hjk
                exact hup k job' (by omega) (by rw [hget2]; exact hks)
            · rw [hout, hrange, List.flatMap_cons]
              have hl : linesOf hd which status0 s j = report hd which j (some c) state status := by
                simp only [linesOf, hg, hp, if_false, hc, g5, g6]
              have hrest : ∀ t : St, (∀ k, t.getJob k = s1.getJob k) →
                  (List.range' (j + 1) n).flatMap (linesOf hd which status0 t) =
                  (List.range' (j + 1) n).flatMap (linesOf hd which status0 s) := by
                intro t ht
                apply List.flatMap_congr
                intro k hk
                have hk' := (List.mem_range'_1.mp hk).1
                apply linesOf_congr
                rw [ht, g2 k (by omega)]
              rw [hrest _ hget2, hl, g4]
              simp [List.append_assoc]

theorem watchjobsFrom_isSome (hd : Header) (which status0 : Int) (n : Nat) :
    ∀ (j : Nat) (s : St), 1 ≤ j →
      (∀ k job, j ≤ k → s.getJob k = some job → Watchable hd job) →
      ∃ s', watchjobsFrom hd which status0 n j s = some s' := by
  induction n with
  | zero => intro j s _ _; exact ⟨s, rfl⟩
  | succ n ih =>
    intro j s hj1 hw
    unfold watchjobsFrom
    cases hg : s.getJob j with
    | none => exact ⟨s, rfl⟩
    | some job =>
      by_cases hp : job.pgid = 0
      · simp only [hp, if_true]
        exact ih (j + 1) s (by omega) (fun k job' hk => hw k job' (by omega))
      · simp only [hp, if_false]
        obtain ⟨hcmd, hproc⟩ := hw j job (le_refl _) hg hp
        cases hc : job.command with
        | none => exact absurd hc hcmd
        | some c =>
          have hpos : job.state = hd.FINISHED → 0 < job.nproc := by
            intro hf
            have := hproc hf
            unfold Job.nproc
            exact List.length_pos.mpr this
          have hjs : ∃ state status s1, jobstate hd s j status0 = some (state, status, s1) ∧
              ∀ k, k ≠ j → s1.getJob k = s.getJob k := by
            by_cases hf : job.state = hd.FINISHED
            · obtain ⟨l, s1, -, h2, h4⟩ := jobstate_fin_some hd s j status0 job hg hf (hpos hf)
              exact ⟨_, _, s1, h2, h4⟩
            · exact ⟨_, _, s, jobstate_of_ne hd s j status0 job hg hf, fun _ _ => rfl⟩
          obtain ⟨state, status, s1, h1, h2⟩ := hjs
          simp only [h1]
          apply ih (j + 1) _ (by omega)
          intro k job' hk hjk
          have e : s1.getJob k = some job' := hjk
          rw [h2 k (by omega)] at e
          exact hw k job' (by omega) e

theorem watchable_of_mem (hd : Header) (s : St) (h : ∀ job ∈ s.bg, Watchable hd job) :
    ∀ k job, 1 ≤ k → s.getJob k = some job → Watchable hd job := by
  intro k job hk hj
  obtain ⟨k', rfl⟩ : ∃ k', k = k' + 1 := ⟨k - 1, by omega⟩
  rw [getJob_succ] at hj
  exact h job (List.getElem?_mem hj)

theorem exitcode_of_last (job : Job) (last : Proc)
    (h : job.proc[job.nproc - 1]? = some last) : exitcode job = some last.exitcode := by
  have := (List.getElem?_eq_some_iff.mp h).1
  have hne : job.nproc ≠ 0 := by unfold Job.nproc; omega
  simp [exitcode, hne, h]

/-- The lines printed for one slot, case by case. -/
theorem linesOf_cases (hd : Header) (hdist : hd.Distinct)
    (which status0 : Int) (s : St) (k : Nat) (job : Job) (hj : s.getJob k = some job) :
    (job.pgid = 0 → linesOf hd which status0 s k = []) ∧
    (job.pgid ≠ 0 → ¬ (job.state = which ∨ which = hd.ALL) →
      linesOf hd which status0 s k = []) ∧
    (job.pgid ≠ 0 → (job.state = which ∨ which = hd.ALL) →
      (job.state = hd.RUNNING → linesOf hd which status0 s k = [Msg.running k job.command]) ∧
      (job.state = hd.STOPPED →
        linesOf hd which status0 s k = [Msg.suspended k job.command]) ∧
      (job.state = hd.FINISHED → ∀ last, job.proc[job.nproc - 1]? = some last →
        (hd.WIFEXITED last.exitcode = true → linesOf hd which status0 s k =
          [Msg.exited k job.command (hd.WEXITSTATUS last.exitcode)]) ∧
        (hd.WIFEXITED last.exitcode = false → hd.WIFSIGNALED last.exitcode = true →
          linesOf hd which status0 s k =
            [Msg.killed k job.command (hd.WTERMSIG last.exitcode)]))) := by
  obtain ⟨h1, h2, h3⟩ := hdist
  refine ⟨fun hp => by simp [linesOf, hj, hp], fun hp hm => by simp [linesOf, hj, hp, report, hm],
    fun hp hm => ?_⟩
  have base : linesOf hd which status0 s k =
      if job.state = hd.RUNNING then [Msg.running k job.command]
      else if job.state = hd.STOPPED then [Msg.suspended k job.command]
      else if job.state = hd.FINISHED then
        if hd.WIFEXITED (if job.state = hd.FINISHED then (exitcode job).getD status0
            else status0) = true then
          [Msg.exited k job.command (hd.WEXITSTATUS (if job.state = hd.FINISHED then
            (exitcode job).getD status0 else status0))]
        else if hd.WIFSIGNALED (if job.state = hd.FINISHED then (exitcode job).getD status0
            else status0) = true then
          [Msg.killed k job.command (hd.WTERMSIG (if job.state = hd.FINISHED then
            (exitcode job).getD status0 else status0))]
        else []
      else [] := by
    simp only [linesOf, hj, hp, if_false, report]
    rw [if_pos hm]
  rw [base]
  refine ⟨fun hr => ?_, fun hs => ?_, fun hf last hl => ?_⟩
  · rw [if_pos hr]
  · have : ¬ job.state = hd.RUNNING := by rw [hs]; exact fun e => h3 e.symm
    rw [if_neg this, if_pos hs]
  · have n1 : ¬ job.state = hd.RUNNING := by rw [hf]; exact h1
    have n2 : ¬ job.state = hd.STOPPED := by rw [hf]; exact h2
    have he := exitcode_of_last job last hl
    rw [if_neg n1, if_neg n2, if_pos hf, if_pos hf, he, Option.getD_some]
    refine ⟨fun e => by rw [if_pos e], fun e1 e2 => ?_⟩
    rw [if_neg (by rw [e1]; exact Bool.false_ne_true), if_pos e2]

theorem watchjobs_run (hd : Header) (which status0 : Int) (s s' : St)
    (h : watchjobs hd which status0 s = some s') :
    sameRest s s' ∧
    (∀ k job, 1 ≤ k → s.getJob k = some job → s'.getJob k = some (afterWatch hd job)) ∧
    s'.out = s.out ++ (List.range' 1 s.bg.length).flatMap (linesOf hd which status0 s) := by
  unfold watchjobs at h
  obtain ⟨h1, -, h3, h4⟩ := watchjobsFrom_spec hd which status0 (s.njobmax - BG) BG s s'
    (le_refl _) h (by simp only [St.njobmax, BG]; omega)
  refine ⟨h1, h3, ?_⟩
  simpa [St.njobmax, BG] using h4

/-- A job as the code builds it can be passed to `watchjobs`. -/
theorem watchable_of_sound (hd : Header) (job : Job) (h : JobSound hd job) :
    Watchable hd job := by
  intro hp
  obtain ⟨c1, c2, -⟩ := h hp
  exact ⟨c1, fun _ => c2⟩

/-- The function `watchjobs` keeps every job as the code builds it. -/
theorem watchjobs_sound (hd : Header) (which status0 : Int) (s s' : St)
    (h : watchjobs hd which status0 s = some s')
    (hs : ∀ k a, s.getJob k = some a → JobSound hd a) :
    ∀ k b, s'.getJob k = some b → JobSound hd b := by
  obtain ⟨⟨r1, r2, -⟩, hslots, -⟩ := watchjobs_run hd which status0 s s' h
  intro k b hb
  cases k with
  | zero =>
    have e : s'.getJob 0 = some s'.fg := getJob_FG s'
    rw [e] at hb
    cases hb
    rw [r1]
    exact hs 0 s.fg (getJob_FG s)
  | succ k =>
    have hlt : k + 1 < s.njobmax := by rw [← r2]; exact getJob_lt _ _ _ hb
    obtain ⟨a, ha⟩ : ∃ a, s.getJob (k + 1) = some a := by
      unfold St.getJob
      exact ⟨_, List.getElem?_eq_getElem (by simpa [St.jobs, St.njobmax] using hlt)⟩
    rw [hslots (k + 1) a (by omega) ha] at hb
    cases hb
    unfold afterWatch
    split_ifs with hc
    · intro hp
      exact absurd rfl hp
    · exact hs (k + 1) a ha

/-- C5: `watchjobs(which)` returns on a table whose non-free background jobs
have a command, and a process record if FINISHED.  Whenever it returns, every
background slot that held a non-free FINISHED job is free, whatever the filter,
and every other background slot, the foreground slot and the signals sent are
unchanged.  The output grows by the lines of the slots 1, 2, ... in this order:
no line for a slot that is free or whose state does not match the filter, and
exactly one line, with the slot number and the command the job had before, for
a non-free job whose state matches the filter and that is as the code builds it
(`JobSound`): `running` or `suspended` for these states, and for FINISHED
`exited` with the exit value or `killed` with the signal number of the last
process's status. -/
theorem watchjobs_spec (hd : Header) (hdist : hd.Distinct) (which status0 : Int) (s : St) :
    ((∀ job ∈ s.bg, Watchable hd job) → ∃ s', watchjobs hd which status0 s = some s') ∧
    ∀ s', watchjobs hd which status0 s = some s' →
      s'.fg = s.fg ∧ s'.njobmax = s.njobmax ∧ s'.sent = s.sent ∧
      (∀ k job, 1 ≤ k → s.getJob k = some job →
        (job.pgid ≠ 0 → job.state = hd.FINISHED →
          s'.getJob k = some { job with pgid := 0, proc := [], command := none }) ∧
        (job.pgid ≠ 0 → job.state ≠ hd.FINISHED → s'.getJob k = some job) ∧
        (job.pgid = 0 → s'.getJob k = some job)) ∧
      ∃ lines : Nat → List Msg,
        s'.out = s.out ++ (List.range' 1 s.bg.length).flatMap lines ∧
        ∀ k job, 1 ≤ k → s.getJob k = some job →
          (job.pgid = 0 → lines k = []) ∧
          (job.pgid ≠ 0 → ¬ (job.state = which ∨ which = hd.ALL) → lines k = []) ∧
          (job.pgid ≠ 0 → (job.state = which ∨ which = hd.ALL) → JobSound hd job →
            (lines k).length = 1 ∧
            (job.state = hd.RUNNING → lines k = [Msg.running k job.command]) ∧
            (job.state = hd.STOPPED → lines k = [Msg.suspended k job.command]) ∧
            (job.state = hd.FINISHED →
              ∃ last, job.proc[job.nproc - 1]? = some last ∧
                ((hd.WIFEXITED last.exitcode = true ∧
                    lines k = [Msg.exited k job.command (hd.WEXITSTATUS last.exitcode)]) ∨
                  (hd.WIFEXITED last.exitcode = false ∧ hd.WIFSIGNALED last.exitcode = true ∧
                    lines k = [Msg.killed k job.command (hd.WTERMSIG last.exitcode)])))) := by
  constructor
  · intro hw
    exact watchjobsFrom_isSome hd which status0 _ BG s (le_refl _)
      (watchable_of_mem hd s hw)
  · intro s' h
    obtain ⟨⟨r1, r2, r3, -⟩, hslots, hout⟩ := watchjobs_run hd which status0 s s' h
    refine ⟨r1, r2, r3, fun k job hk hj => ?_, linesOf hd which status0 s, hout,
      fun k job _ hj => ?_⟩
    · have := hslots k job hk hj
      refine ⟨fun hp hf => ?_, fun hp hf => ?_, fun hp => ?_⟩
      · rw [this]; simp [afterWatch, hp, hf]
      · rw [this]; simp [afterWatch, hf]
      · rw [this]; simp [afterWatch, hp]
    · obtain ⟨l1, l2, l3⟩ := linesOf_cases hd hdist which status0 s k job hj
      refine ⟨l1, l2, fun hp hm hsound => ?_⟩
      obtain ⟨lr, lstop, lf⟩ := l3 hp hm
      obtain ⟨-, c2, c3, c4, c5⟩ := hsound hp
      have hfin : job.state = hd.FINISHED →
          ∃ last, job.proc[job.nproc - 1]? = some last ∧
            ((hd.WIFEXITED last.exitcode = true ∧
                linesOf hd which status0 s k =
                  [Msg.exited k job.command (hd.WEXITSTATUS last.exitcode)]) ∨
              (hd.WIFEXITED last.exitcode = false ∧ hd.WIFSIGNALED last.exitcode = true ∧
                linesOf hd which status0 s k =
                  [Msg.killed k job.command (hd.WTERMSIG last.exitcode)])) := by
        intro hf
        have hlen : job.nproc - 1 < job.proc.length := by
          have : job.proc.length ≠ 0 := fun e => c2 (List.length_eq_zero.mp e)
          unfold Job.nproc
          omega
        refine ⟨job.proc[job.nproc - 1], List.getElem?_eq_getElem hlen, ?_⟩
        obtain ⟨m1, m2⟩ := lf hf _ (List.getElem?_eq_getElem hlen)
        have hfinal := c5 hf _ (List.getElem_mem hlen)
        cases hx : hd.WIFEXITED (job.proc[job.nproc - 1]).exitcode with
        | true => exact Or.inl ⟨rfl, m1 hx⟩
        | false =>
          have hsig : hd.WIFSIGNALED (job.proc[job.nproc - 1]).exitcode = true := by
            rcases hfinal with e | e
            · rw [hx] at e
              exact absurd e Bool.false_ne_true
            · exact e
          exact Or.inr ⟨rfl, hsig, m2 hx hsig⟩
      refine ⟨?_, lr, lstop, hfin⟩
      rcases c3 with e | e | e
      · rw [lr e]; rfl
      · rw [lstop e]; rfl
      · obtain ⟨last, -, hl | hl⟩ := hfin e
        · rw [hl.2]; rfl
        · rw [hl.2.2]; rfl

/-- C5 on `threeJobs` (slot 1 STOPPED, slot 2 FINISHED with exit value 0, slot
3 free) with the filter ALL: `watchjobs` returns, frees slot 2 and prints one
line for slot 1 and one for slot 2. -/
theorem watchjobs_spec_witness :
    (∀ job ∈ threeJobs.bg, JobSound linux job) ∧
    watchjobs linux linux.ALL 0 threeJobs =
      some { threeJobs with
        bg := [{ pgid := 5, proc := [⟨5, 2, -1⟩], tmodes := 0, state := 2, command := some "c" },
               { pgid := 0, proc := [], tmodes := 0, state := 0, command := none },
               Job.zero],
        out := [Msg.suspended 1 (some "c"), Msg.exited 2 (some "d") 0] } ∧
    ((∀ job ∈ threeJobs.bg, Watchable linux job) →
      ∃ s', watchjobs linux linux.ALL 0 threeJobs = some s') ∧
    ∀ s', watchjobs linux linux.ALL 0 threeJobs = some s' →
      s'.fg = threeJobs.fg ∧ s'.njobmax = threeJobs.njobmax ∧ s'.sent = threeJobs.sent ∧
      (∀ k job, 1 ≤ k → threeJobs.getJob k = some job →
        (job.pgid ≠ 0 → job.state = linux.FINISHED →
          s'.getJob k = some { job with pgid := 0, proc := [], command := none }) ∧
        (job.pgid ≠ 0 → job.state ≠ linux.FINISHED → s'.getJob k = some job) ∧
        (job.pgid = 0 → s'.getJob k = some job)) ∧
      ∃ lines : Nat → List Msg,
        s'.out = threeJobs.out ++ (List.range' 1 threeJobs.bg.length).flatMap lines ∧
        ∀ k job, 1 ≤ k → threeJobs.getJob k = some job →
          (job.pgid = 0 → lines k = []) ∧
          (job.pgid ≠ 0 → ¬ (job.state = linux.ALL ∨ linux.ALL = linux.ALL) → lines k = []) ∧
          (job.pgid ≠ 0 → (job.state = linux.ALL ∨ linux.ALL = linux.ALL) →
            JobSound linux job →
            (lines k).length = 1 ∧
            (job.state = linux.RUNNING → lines k = [Msg.running k job.command]) ∧
            (job.state = linux.STOPPED → lines k = [Msg.suspended k job.command]) ∧
            (job.state = linux.FINISHED →
              ∃ last, job.proc[job.nproc - 1]? = some last ∧
                ((linux.WIFEXITED last.exitcode = true ∧
                    lines k =
                      [Msg.exited k job.command (linux.WEXITSTATUS last.exitcode)]) ∨
                  (linux.WIFEXITED last.exitcode = false ∧
                    linux.WIFSIGNALED last.exitcode = true ∧
                    lines k =
                      [Msg.killed k job.command (linux.WTERMSIG last.exitcode)])))) :=
  ⟨by decide, by decide, watchjobs_spec linux linux_distinct linux.ALL 0 threeJobs⟩

/-! ### The shell loop -/

/-- C7, as stated, fails: a turn of the loop with the empty line calls
`watchjobs(FINISHED)`, which on `finishedOne` frees background slot 1, so the
job table is not as it was. -/
theorem mainTurn_empty_line_reaps :
    "".length = 0 ∧
    mainTurn linux (fun _ _ => none) 0 "" finishedOne = some finishedOneReaped ∧
    finishedOneReaped.jobs ≠ finishedOne.jobs := by
  decide

/-- C7 (amended): a turn of the shell loop that reads a line of length 0
returns when the non-free background jobs have a command, and a process record
if FINISHED.  Whenever it returns, the foreground slot and the number of slots
are as before, every background slot that held a non-free FINISHED job has been
freed and every other slot is as before; so the job table is exactly as it was
if no background slot held a non-free FINISHED job. -/
theorem mainTurn_empty_line (hd : Header) (eval : String → St → Option St) (status0 : Int)
    (line : String) (hl : line.length = 0) (s : St) :
    ((∀ job ∈ s.bg, Watchable hd job) → ∃ s', mainTurn hd eval status0 line s = some s') ∧
    ∀ s', mainTurn hd eval status0 line s = some s' →
      s'.fg = s.fg ∧ s'.njobmax = s.njobmax ∧
      (∀ k job, 1 ≤ k → s.getJob k = some job →
        (job.pgid ≠ 0 → job.state = hd.FINISHED →
          s'.getJob k = some { job with pgid := 0, proc := [], command := none }) ∧
        (¬ (job.pgid ≠ 0 ∧ job.state = hd.FINISHED) → s'.getJob k = some job)) ∧
      ((∀ job ∈ s.bg, ¬ (job.pgid ≠ 0 ∧ job.state = hd.FINISHED)) → s'.jobs = s.jobs) := by
  have hm : mainTurn hd eval status0 line s = watchjobs hd hd.FINISHED status0 s := by
    simp [mainTurn, hl]
  rw [hm]
  constructor
  · intro hw
    exact watchjobsFrom_isSome hd hd.FINISHED status0 _ BG s (le_refl _)
      (watchable_of_mem hd s hw)
  · intro s' h
    obtain ⟨⟨r1, r2, -⟩, hslots, -⟩ := watchjobs_run hd hd.FINISHED status0 s s' h
    refine ⟨r1, r2, fun k job hk hj => ?_, fun hnone => ?_⟩
    · have := hslots k job hk hj
      refine ⟨fun hp hf => ?_, fun hn => ?_⟩
      · rw [this]; simp [afterWatch, hp, hf]
      · rw [this]; simp only [afterWatch, hn, if_false]
    · have hbg : s'.bg = s.bg := by
        apply List.ext_getElem?
        intro i
        cases hi : s.bg[i]? with
        | none =>
          have hlen : s'.bg.length = s.bg.length := by
            simpa [St.njobmax] using r2
          have := List.getElem?_eq_none_iff.mp hi
          exact List.getElem?_eq_none (by omega)
        | some job =>
          have hj : s.getJob (i + 1) = some job := by rw [getJob_succ]; exact hi
          have := hslots (i + 1) job (by omega) hj
          rw [getJob_succ] at this
          rw [this]
          have hn := hnone job (List.getElem?_mem hi)
          simp only [afterWatch, hn, if_false]
      simp [St.jobs, r1, hbg]

/-- C7 (amended) on `runningPipe`, where no background job is FINISHED: the
turn with the empty line returns and the job table is as it was. -/
theorem mainTurn_empty_line_witness :
    "".length = 0 ∧
    mainTurn linux (fun _ _ => none) 0 "" runningPipe = some runningPipe ∧
    (∃ s', mainTurn linux (fun _ _ => none) 0 "" runningPipe = some s') ∧
    runningPipe.jobs = runningPipe.jobs :=
  ⟨by decide, by decide,
    (mainTurn_empty_line linux (fun _ _ => none) 0 "" (by decide) runningPipe).1 (by decide),
    ((mainTurn_empty_line linux (fun _ _ => none) 0 "" (by decide) runningPipe).2 runningPipe
      (by decide)).2.2.2 (by decide)⟩

/-! ### `do_redir` and `do_pipeline` -/

theorem redirLoop_succ (lib : Lib) (off cnt i : Nat) (r : Redir) :
    redirLoop lib off (cnt + 1) i r =
      match r.tok[off + i]? with
      | none => none
      | some t =>
        if t = Token.T_INPUT then
          match r.tok[off + i + 1]? with
          | none => none
          | some path =>
            match lib.Open path false with
            | none => none
            | some fd =>
              redirLoop lib off cnt (i + 1)
                { tok := (r.tok.set (off + i) Token.T_NULL).set (off + i + 1) Token.T_NULL,
                  mode := Token.T_INPUT,
                  n := (if r.mode = Token.T_NULL then i else r.n) + 1,
                  input := fd, output := r.output }
        else if t = Token.T_OUTPUT then
          match r.tok[off + i + 1]? with
          | none => none
          | some path =>
            match lib.Open path true with
            | none => none
            | some fd =>
              redirLoop lib off cnt (i + 1)
                { tok := (r.tok.set (off + i) Token.T_NULL).set (off + i + 1) Token.T_NULL,
                  mode := Token.T_OUTPUT,
                  n := (if r.mode = Token.T_NULL then i else r.n) + 1,
                  input := r.input, output := fd }
        else redirLoop lib off cnt (i + 1) { r with n := r.n + 1 } := rfl

theorem redirLoop_ok (lib : Lib) (off len : Nat) (cnt : Nat) :
    ∀ (i : Nat) (r : Redir), i + cnt = len → off + len ≤ r.tok.length → r.n = i →
      (∀ k, i ≤ k → k < len → Passable lib r.tok off len k) →
      ∃ r', redirLoop lib off cnt i r = some r' ∧ r'.n = len ∧
        r'.tok.length = r.tok.length ∧
        (∀ k, (k < off + i ∨ off + len ≤ k) → r'.tok[k]? = r.tok[k]?) ∧
        (∀ k, i ≤ k → k < len →
          ∃ t, r'.tok[off + k]? = some t ∧ (t.isWord = true ∨ t = Token.T_NULL)) ∧
        (∀ w, r.tok[off + i]? = some (Token.word w) →
          r'.tok[off + i]? = some (Token.word w)) := by
  induction cnt with
  | zero =>
    intro i r hlen _ hn _
    exact ⟨r, rfl, by omega, rfl, fun _ _ => rfl, fun k h1 h2 => by omega, fun _ h => h⟩
  | succ cnt ih =>
    intro i r hlen hin hn hP
    obtain ⟨t, ht, hcase⟩ := hP i (le_refl _) (by omega)
    have key : ∀ (md : Token) (inp out : Int), i + 1 < len →
        (∀ w, r.tok[off + i]? ≠ some (Token.word w)) →
        ∃ r',
          redirLoop lib off cnt (i + 1)
            { tok := (r.tok.set (off + i) Token.T_NULL).set (off + i + 1) Token.T_NULL,
              mode := md, n := (if r.mode = Token.T_NULL then i else r.n) + 1,
              input := inp, output := out } = some r' ∧
          r'.n = len ∧ r'.tok.length = r.tok.length ∧
          (∀ k, (k < off + i ∨ off + len ≤ k) → r'.tok[k]? = r.tok[k]?) ∧
          (∀ k, i ≤ k → k < len →
            ∃ t, r'.tok[off + k]? = some t ∧ (t.isWord = true ∨ t = Token.T_NULL)) ∧
          (∀ w, r.tok[off + i]? = some (Token.word w) →
            r'.tok[off + i]? = some (Token.word w)) := by
      intro md inp out hi1 hnw
      have hset : ∀ m, (m < off + i ∨ off + i + 1 < m) →
          ((r.tok.set (off + i) Token.T_NULL).set (off + i + 1) Token.T_NULL)[m]? =
            r.tok[m]? := by
        intro m hm
        rw [List.getElem?_set_ne (by omega), List.getElem?_set_ne (by omega)]
      have h0 : ((r.tok.set (off + i) Token.T_NULL).set (off + i + 1) Token.T_NULL)[off + i]? =
          some Token.T_NULL := by
        rw [List.getElem?_set_ne (by omega), List.getElem?_set_self (by omega)]
      have h1 : ((r.tok.set (off + i) Token.T_NULL).set (off + i + 1)
          Token.T_NULL)[off + i + 1]? = some Token.T_NULL := by
        rw [List.getElem?_set_self (by rw [List.length_set]; omega)]
      have hn1 : (if r.mode = Token.T_NULL then i else r.n) + 1 = i + 1 := by
        split_ifs <;> omega
      have hP1 : ∀ k, i + 1 ≤ k → k < len →
          Passable lib ((r.tok.set (off + i) Token.T_NULL).set (off + i + 1) Token.T_NULL)
            off len k := by
        intro k hk1 hk2
        by_cases hk : k = i + 1
        · subst hk
          exact ⟨Token.T_NULL, h1, Or.inr (Or.inl rfl)⟩
        · obtain ⟨t', ht', hc'⟩ := hP k (by omega) hk2
          refine ⟨t', by rw [hset _ (Or.inr (by omega))]; exact ht', ?_⟩
          rcases hc' with a | a | ⟨a, b, w', fd', c, d⟩ | ⟨a, b, w', fd', c, d⟩
          · exact Or.inl a
          · exact Or.inr (Or.inl a)
          · exact Or.inr (Or.inr (Or.inl
              ⟨a, b, w', fd', by rw [hset _ (Or.inr (by omega))]; exact c, d⟩))
          · exact Or.inr (Or.inr (Or.inr
              ⟨a, b, w', fd', by rw [hset _ (Or.inr (by omega))]; exact c, d⟩))
      obtain ⟨r', g1, g2, g3, g4, g5, -⟩ := ih (i + 1)
        { tok := (r.tok.set (off + i) Token.T_NULL).set (off + i + 1) Token.T_NULL,
          mode := md, n := (if r.mode = Token.T_NULL then i else r.n) + 1,
          input := inp, output := out }
        (by omega) (by simp only [List.length_set]; exact hin) hn1 hP1
      refine ⟨r', g1, g2, by simpa using g3, fun k hk => ?_, fun k hk1 hk2 => ?_,
        fun w hw => absurd hw (hnw w)⟩
      · rw [g4 k (by omega)]
        exact hset k (by omega)
      · by_cases hk : k = i
        · subst hk
          exact ⟨Token.T_NULL, by rw [g4 _ (Or.inl (by omega))]; exact h0, Or.inr rfl⟩
        · exact g5 k (by omega) hk2
    have hstep := redirLoop_succ lib off cnt i r
    rw [ht] at hstep
    dsimp only at hstep
    rcases hcase with a | a | ⟨a, b, w, fd, c, d⟩ | ⟨a, b, w, fd, c, d⟩
    · have hne1 : ¬ t = Token.T_INPUT := by
        intro e
        rw [e] at a
        exact absurd a (by decide)
      have hne2 : ¬ t = Token.T_OUTPUT := by
        intro e
        rw [e] at a
        exact absurd a (by decide)
      rw [if_neg hne1, if_neg hne2] at hstep
      rw [hstep]
      obtain ⟨r', g1, g2, g3, g4, g5, -⟩ := ih (i + 1) { r with n := r.n + 1 }
        (by omega) hin (by show r.n + 1 = i + 1; omega)
        (fun k hk1 hk2 => hP k (by omega) hk2)
      have hkeep : r'.tok[off + i]? = r.tok[off + i]? := g4 _ (Or.inl (by omega))
      refine ⟨r', g1, g2, g3, fun k hk => g4 k (by omega), fun k hk1 hk2 => ?_,
        fun w hw => by rw [hkeep]; exact hw⟩
      by_cases hk : k = i
      · subst hk
        exact ⟨t, by rw [hkeep]; exact ht, Or.inl a⟩
      · exact g5 k (by omega) hk2
    · have hne1 : ¬ t = Token.T_INPUT := by rw [a]; decide
      have hne2 : ¬ t = Token.T_OUTPUT := by rw [a]; decide
      rw [if_neg hne1, if_neg hne2] at hstep
      rw [hstep]
      obtain ⟨r', g1, g2, g3, g4, g5, -⟩ := ih (i + 1) { r with n := r.n + 1 }
        (by omega) hin (by show r.n + 1 = i + 1; omega)
        (fun k hk1 hk2 => hP k (by omega) hk2)
      have hkeep : r'.tok[off + i]? = r.tok[off + i]? := g4 _ (Or.inl (by omega))
      refine ⟨r', g1, g2, g3, fun k hk => g4 k (by omega), fun k hk1 hk2 => ?_,
        fun w hw => by rw [hkeep]; exact hw⟩
      by_cases hk : k = i
      · subst hk
        exact ⟨t, by rw [hkeep]; exact ht, Or.inr a⟩
      · exact g5 k (by omega) hk2
    · rw [if_pos a, c] at hstep
      dsimp only at hstep
      rw [d] at hstep
      rw [hstep]
      exact key _ _ _ b (fun w' hw' => by rw [ht, a] at hw'; cases hw')
    · have hne1 : ¬ t = Token.T_INPUT := by rw [a]; decide
      rw [if_neg hne1, if_pos a, c] at hstep
      dsimp only at hstep
      rw [d] at hstep
      rw [hstep]
      exact key _ _ _ b (fun w' hw' => by rw [ht, a] at hw'; cases hw')

/-- The function `do_redir` on a stage of `len` tokens that lies inside the
array with one more slot behind it, and whose tokens are as in `Passable`:
it returns `len`, writes `NULL` behind the stage, leaves words and `NULL`s in
it, keeps a word at its beginning and changes nothing outside. -/
theorem do_redir_ok (lib : Lib) (tok : List Token) (off len : Nat) (input output : Int)
    (h : off + len < tok.length) (hP : ∀ k, k < len → Passable lib tok off len k) :
    ∃ tok' inp out, do_redir lib tok off len input output = some (len, tok', inp, out) ∧
      tok'.length = tok.length ∧ tok'[off + len]? = some Token.T_NULL ∧
      (∀ k, (k < off ∨ off + len < k) → tok'[k]? = tok[k]?) ∧
      (∀ k, k < len →
        ∃ t, tok'[off + k]? = some t ∧ (t.isWord = true ∨ t = Token.T_NULL)) ∧
      (∀ w, 0 < len → tok[off]? = some (Token.word w) →
        tok'[off]? = some (Token.word w)) := by
  obtain ⟨r', h1, h2, h3, h4, h5, h6⟩ := redirLoop_ok lib off len len 0
    { tok := tok, mode := Token.T_NULL, n := 0, input := input, output := output }
    (by omega) (by show off + len ≤ tok.length; omega) rfl (fun k _ hk => hP k hk)
  have h3' : r'.tok.length = tok.length := h3
  have hlt : off + r'.n < r'.tok.length := by rw [h2, h3']; exact h
  refine ⟨r'.tok.set (off + len) Token.T_NULL, r'.input, r'.output, ?_, ?_, ?_, ?_, ?_, ?_⟩
  · unfold do_redir
    rw [h1]
    dsimp only
    rw [if_pos hlt, h2]
  · simpa using h3'
  · rw [List.getElem?_set_self (by rw [h3']; exact h)]
  · intro k hk
    rw [List.getElem?_set_ne (by omega)]
    exact h4 k (by omega)
  · intro k hk
    rw [List.getElem?_set_ne (by omega)]
    exact h5 k (Nat.zero_le _) hk
  · intro w hl hw
    rw [List.getElem?_set_ne (by omega)]
    exact h6 w hw

theorem mkcommandLoop_ok (lib : Lib)
    (hS : ∀ c w, ∃ c', lib.strapp c (Token.word w) = some c') (ts : List Token) :
    ∀ (n : Nat) (cmd : Option String),
      (∀ k, k < n → ∃ t, ts[k]? = some t ∧ (t.isWord = true ∨ t = Token.T_NULL)) →
      ts[n]? = some Token.T_NULL → ∃ c, mkcommandLoop lib ts cmd = some c := by
  induction ts with
  | nil => intro n cmd _ h; simp at h
  | cons t ts ih =>
    intro n cmd hw hn
    by_cases ht : t = Token.T_NULL
    · subst ht
      exact ⟨cmd, rfl⟩
    · cases n with
      | zero =>
        simp only [List.getElem?_cons_zero, Option.some.injEq] at hn
        exact absurd hn ht
      | succ m =>
        obtain ⟨t', ht', hc⟩ := hw 0 (by omega)
        simp only [List.getElem?_cons_zero, Option.some.injEq] at ht'
        subst ht'
        have hword : ∃ w, t = Token.word w := by
          rcases hc with a | a
          · cases t <;> first | exact ⟨_, rfl⟩ | exact absurd a (by decide)
          · exact absurd a ht
        obtain ⟨w, rfl⟩ := hword
        obtain ⟨c1, h1⟩ := hS cmd " "
        obtain ⟨c2, h2⟩ := hS c1 w
        obtain ⟨c, hc'⟩ := ih m c2
          (fun k hk => by
            have := hw (k + 1) (by omega)
            simpa using this)
          (by simpa using hn)
        refine ⟨c, ?_⟩
        rw [mkcommandLoop_cons lib _ ts cmd ht, h1]
        dsimp only
        rw [h2]
        exact hc'

theorem mkcommand_ok (lib : Lib) (hS : ∀ c w, ∃ c', lib.strapp c (Token.word w) = some c')
    (cmd : Option String) (w : String) (rest : List Token) (n : Nat)
    (hw : ∀ k, k < n → ∃ t, rest[k]? = some t ∧ (t.isWord = true ∨ t = Token.T_NULL))
    (hn : rest[n]? = some Token.T_NULL) :
    ∃ c, mkcommand lib cmd (Token.word w :: rest) = some c := by
  have h0 : ∃ c0, (if cmd.isSome then lib.strapp cmd (Token.word " | ") else some cmd)
      = some c0 := by
    split_ifs
    · exact hS _ _
    · exact ⟨cmd, rfl⟩
  obtain ⟨c0, h0⟩ := h0
  obtain ⟨c1, h1⟩ := hS c0 w
  obtain ⟨c, hc⟩ := mkcommandLoop_ok lib hS rest n c1 hw hn
  exact ⟨c, by simp only [mkcommand, h0, h1, hc]⟩

theorem addproc_ok (hd : Header) (lib : Lib)
    (hS : ∀ c w, ∃ c', lib.strapp c (Token.word w) = some c')
    (s : St) (j : Nat) (pid : Int) (job : Job) (w : String) (rest : List Token) (n : Nat)
    (hj : s.getJob j = some job)
    (hw : ∀ k, k < n → ∃ t, rest[k]? = some t ∧ (t.isWord = true ∨ t = Token.T_NULL))
    (hn : rest[n]? = some Token.T_NULL) :
    ∃ c, addproc hd lib s j pid (Token.word w :: rest) =
      some (s.setJob j { job with proc := job.proc ++ [mkproc hd pid], command := c }) := by
  obtain ⟨c, hc⟩ := mkcommand_ok lib hS job.command w rest n hw hn
  exact ⟨c, by simp only [addproc, hj, hc]⟩

/-- The array `token + off` after `do_redir` on a stage of `len ≥ 1` tokens
that begins with a word: that word, then `len - 1` words or `NULL`s, then
`NULL`. -/
theorem argv_shape (tok' : List Token) (off len : Nat) (w : String) (hlen : 1 ≤ len)
    (h0 : tok'[off]? = some (Token.word w)) (hend : tok'[off + len]? = some Token.T_NULL)
    (hin : ∀ k, k < len →
      ∃ t, tok'[off + k]? = some t ∧ (t.isWord = true ∨ t = Token.T_NULL)) :
    ∃ rest, tok'.drop off = Token.word w :: rest ∧
      (∀ k, k < len - 1 → ∃ t, rest[k]? = some t ∧ (t.isWord = true ∨ t = Token.T_NULL)) ∧
      rest[len - 1]? = some Token.T_NULL := by
  have hget : ∀ k, (tok'.drop off)[k]? = tok'[off + k]? := fun k => List.getElem?_drop _ _ _
  cases hd : tok'.drop off with
  | nil =>
    have := hget 0
    rw [hd, Nat.add_zero, h0] at this
    simp at this
  | cons a rest =>
    have ha := hget 0
    rw [hd, Nat.add_zero, h0] at ha
    simp only [List.getElem?_cons_zero, Option.some.injEq] at ha
    subst ha
    have hrest : ∀ k, rest[k]? = tok'[off + (k + 1)]? := by
      intro k
      rw [← hget (k + 1), hd, List.getElem?_cons_succ]
    refine ⟨rest, rfl, fun k hk => ?_, ?_⟩
    · rw [hrest k]
      exact hin (k + 1) (by omega)
    · rw [hrest (len - 1)]
      have e : len - 1 + 1 = len := by omega
      rw [e]
      exact hend

theorem drop_eq_of_tail {α : Type} (a b : List α) (m : Nat)
    (h : ∀ k, m < k → a[k]? = b[k]?) : a.drop (m + 1) = b.drop (m + 1) := by
  apply List.ext_getElem?
  intro i
  rw [List.getElem?_drop, List.getElem?_drop]
  exact h _ (by omega)

/-- One stage of a pipeline whose job exists already: the process is added to
slot `j` and nothing else in the table changes. -/
theorem spawnStage_next (hd : Header) (lib : Lib)
    (hS : ∀ c w, ∃ c', lib.strapp c (Token.word w) = some c') (bg first : Bool)
    (p : Pl) (len : Nat) (pid : Int) (rest : List Int) (j : Nat) (job : Job) (w : String)
    (hlen : 1 ≤ len) (hin : p.token_offset + len < p.tok.length)
    (hw : p.tok[p.token_offset]? = some (Token.word w))
    (hP : ∀ k, k < len → Passable lib p.tok p.token_offset len k)
    (hf : p.forks = pid :: rest) (hpid : pid ≠ 0)
    (hno : ¬ (first = true ∧ p.pgid = 0)) (hjob : p.job = some j)
    (hj : p.s.getJob j = some job) :
    ∃ q c, spawnStage hd lib bg first p len = some q ∧ q.forks = rest ∧ q.pgid = p.pgid ∧
      q.job = some j ∧
      q.s = p.s.setJob j { job with proc := job.proc ++ [mkproc hd pid], command := c } ∧
      q.tok.length = p.tok.length ∧
      (∀ k, p.token_offset + len < k → q.tok[k]? = p.tok[k]?) ∧
      q.token_offset = p.token_offset := by
  obtain ⟨tok', inp, out, h1, h2, h3, h4, h5, h6⟩ :=
    do_redir_ok lib p.tok p.token_offset len p.input p.output hin hP
  obtain ⟨rest', e1, e2, e3⟩ :=
    argv_shape tok' p.token_offset len w hlen (h6 w (by omega) hw) h3 h5
  obtain ⟨c, hc⟩ := addproc_ok hd lib hS p.s j pid job w rest' (len - 1) hj e2 e3
  have hlen0 : ¬ len = 0 := by omega
  refine ⟨{ p with
      s := p.s.setJob j { job with proc := job.proc ++ [mkproc hd pid], command := c },
      tok := tok', forks := rest }, c, ?_, rfl, rfl, hjob, rfl, h2,
    fun k hk => h4 k (Or.inr hk), rfl⟩
  unfold spawnStage do_stage
  rw [h1]
  dsimp only
  rw [if_neg hlen0, hf]
  dsimp only
  rw [if_neg hpid]
  dsimp only
  rw [if_neg hno, hjob]
  dsimp only
  rw [e1, hc]

/-- The first stage of a pipeline: `addjob` makes the job in its slot `j` and
the process is added to it. -/
theorem spawnStage_first (hd : Header) (lib : Lib)
    (hS : ∀ c w, ∃ c', lib.strapp c (Token.word w) = some c') (bg : Bool)
    (p : Pl) (len : Nat) (pid : Int) (rest : List Int) (w : String)
    (hlen : 1 ≤ len) (hin : p.token_offset + len < p.tok.length)
    (hw : p.tok[p.token_offset]? = some (Token.word w))
    (hP : ∀ k, k < len → Passable lib p.tok p.token_offset len k)
    (hf : p.forks = pid :: rest) (hpid : pid ≠ 0) (hpg : p.pgid = 0) :
    ∃ q c, spawnStage hd lib bg true p len = some q ∧ q.forks = rest ∧ q.pgid = pid ∧
      q.job = some (addjob hd p.s pid bg).1 ∧
      q.s = (addjob hd p.s pid bg).2.setJob (addjob hd p.s pid bg).1
        { pgid := pid, proc := [mkproc hd pid], tmodes := p.s.shell_tmodes,
          state := hd.RUNNING, command := c } ∧
      q.tok.length = p.tok.length ∧
      (∀ k, p.token_offset + len < k → q.tok[k]? = p.tok[k]?) ∧
      q.token_offset = p.token_offset := by
  obtain ⟨tok', inp, out, h1, h2, h3, h4, h5, h6⟩ :=
    do_redir_ok lib p.tok p.token_offset len p.input p.output hin hP
  obtain ⟨rest', e1, e2, e3⟩ :=
    argv_shape tok' p.token_offset len w hlen (h6 w (by omega) hw) h3 h5
  have hslot : (addjob hd p.s pid bg).2.getJob (addjob hd p.s pid bg).1 =
      some { pgid := pid, state := hd.RUNNING, command := none, proc := [],
             tmodes := p.s.shell_tmodes } := by
    unfold addjob
    dsimp only
    cases bg with
    | false =>
      simp only [Bool.false_eq_true, if_false]
      exact getJob_setJob_self _ _ _ (by simp [St.njobmax])
    | true =>
      simp only [if_true]
      obtain ⟨-, ⟨fr, hfr, -⟩, -⟩ := allocjob_spec p.s
      exact getJob_setJob_self _ _ _ (getJob_lt _ _ _ hfr)
  obtain ⟨c, hc⟩ := addproc_ok hd lib hS _ _ pid _ w rest' (len - 1) hslot e2 e3
  have hlen0 : ¬ len = 0 := by omega
  refine ⟨{ p with
      pgid := pid
      job := some (addjob hd p.s pid bg).1
      s := (addjob hd p.s pid bg).2.setJob (addjob hd p.s pid bg).1
        { pgid := pid, proc := [mkproc hd pid], tmodes := p.s.shell_tmodes,
          state := hd.RUNNING, command := c }
      tok := tok'
      forks := rest }, c, ?_, rfl, rfl, rfl, rfl, h2,
    fun k hk => h4 k (Or.inr hk), rfl⟩
  unfold spawnStage do_stage
  rw [h1]
  dsimp only
  rw [if_neg hlen0, hf]
  dsimp only
  rw [if_neg hpid]
  dsimp only
  rw [if_pos ⟨rfl, hpg⟩]
  dsimp only
  rw [e1, hc]
  simp [mkproc]

theorem pipeLoop_succ (hd : Header) (lib : Lib) (bg : Bool) (p : Pl) (cnt i : Nat) :
    pipeLoop hd lib bg (cnt + 1) i p =
      match p.tok[i]? with
      | none => none
      | some t =>
        if t = Token.T_PIPE then
          match spawnStage hd lib bg true p (i - p.token_offset) with
          | some q =>
            pipeLoop hd lib bg cnt (i + 1)
              { q with input := q.next_input, next_input := (lib.Pipe q.npipe).1,
                       output := (lib.Pipe q.npipe).2, npipe := q.npipe + 1,
                       token_offset := i + 1 }
          | none => none
        else pipeLoop hd lib bg cnt (i + 1) p := rfl

theorem pipeLoop_skip (hd : Header) (lib : Lib) (bg : Bool) (p : Pl) (cnt : Nat) (m : Nat) :
    ∀ i, (∀ k, k < m → ∃ t, p.tok[i + k]? = some t ∧ t ≠ Token.T_PIPE) →
      pipeLoop hd lib bg (m + cnt) i p = pipeLoop hd lib bg cnt (i + m) p := by
  induction m with
  | zero => intro i _; simp
  | succ m ih =>
    intro i h
    obtain ⟨t, ht, hne⟩ := h 0 (by omega)
    rw [Nat.add_zero] at ht
    have e : m + 1 + cnt = (m + cnt) + 1 := by omega
    rw [e, pipeLoop_succ, ht]
    dsimp only
    rw [if_neg hne]
    have := ih (i + 1) (fun k hk => by
      obtain ⟨t', ht', hne'⟩ := h (k + 1) (by omega)
      exact ⟨t', by rw [← ht']; congr 1; omega, hne'⟩)
    rw [this, show i + 1 + m = i + (m + 1) by omega]

theorem layout_facts (tok : List Token) (off : Nat) (st : List Token) (x : Token)
    (Y : List Token) (h : tok.drop off = st ++ x :: Y) :
    (∀ k, k < st.length → tok[off + k]? = st[k]?) ∧ tok[off + st.length]? = some x ∧
    tok.drop (off + st.length + 1) = Y ∧ off + st.length < tok.length := by
  have hget : ∀ k, tok[off + k]? = (st ++ x :: Y)[k]? := by
    intro k
    rw [← h, List.getElem?_drop]
  have hx : tok[off + st.length]? = some x := by
    rw [hget, List.getElem?_append_right (le_refl _)]
    simp
  refine ⟨fun k hk => ?_, hx, ?_, (List.getElem?_eq_some_iff.mp hx).1⟩
  · rw [hget, List.getElem?_append_left hk]
  · have : tok.drop (off + st.length + 1) = (tok.drop off).drop (st.length + 1) := by
      rw [List.drop_drop, Nat.add_assoc]
    rw [this, h]
    simp

theorem stage_no_pipe (tok : List Token) (off : Nat) (st : List Token)
    (h : ∀ k, k < st.length → tok[off + k]? = st[k]?) (hp : Token.T_PIPE ∉ st) :
    ∀ k, k < st.length → ∃ t, tok[off + k]? = some t ∧ t ≠ Token.T_PIPE := by
  intro k hk
  refine ⟨st[k], by rw [h k hk, List.getElem?_eq_getElem hk], fun e => hp ?_⟩
  rw [← e]
  exact List.getElem_mem hk

theorem joinStages_cons (st st2 : List Token) (rest : List (List Token)) :
    joinStages (st :: st2 :: rest) = st ++ Token.T_PIPE :: joinStages (st2 :: rest) := rfl

theorem opensNext_spec (lib : Lib) (out : Bool) (ts : List Token)
    (h : opensNext lib out ts = true) :
    ∃ w fd, ts[0]? = some (Token.word w) ∧ lib.Open (Token.word w) out = some fd := by
  cases ts with
  | nil => simp [opensNext] at h
  | cons t ts =>
    cases t with
    | word w =>
      simp only [opensNext] at h
      obtain ⟨fd, hfd⟩ := Option.isSome_iff_exists.mp h
      exact ⟨w, fd, by simp, hfd⟩
    | T_NULL => simp [opensNext] at h
    | T_PIPE => simp [opensNext] at h
    | T_BGJOB => simp [opensNext] at h
    | T_INPUT => simp [opensNext] at h
    | T_OUTPUT => simp [opensNext] at h

/-- The tokens of a list that satisfies `argsOk`, by index. -/
theorem argsOk_get (lib : Lib) (ts : List Token) (h : argsOk lib ts = true) :
    ∀ k t, ts[k]? = some t →
      t.isWord = true ∨
      (t = Token.T_INPUT ∧ ∃ w fd, ts[k + 1]? = some (Token.word w) ∧
        lib.Open (Token.word w) false = some fd) ∨
      (t = Token.T_OUTPUT ∧ ∃ w fd, ts[k + 1]? = some (Token.word w) ∧
        lib.Open (Token.word w) true = some fd) := by
  induction ts with
  | nil => intro k t hk; simp at hk
  | cons a ts ih =>
    simp only [argsOk, Bool.and_eq_true, Bool.or_eq_true, decide_eq_true_eq] at h
    obtain ⟨ha, hts⟩ := h
    intro k t hk
    cases k with
    | zero =>
      simp only [List.getElem?_cons_zero, Option.some.injEq] at hk
      subst hk
      rcases ha with (a1 | ⟨a1, a2⟩) | ⟨a1, a2⟩
      · exact Or.inl a1
      · obtain ⟨w, fd, e1, e2⟩ := opensNext_spec lib false ts a2
        exact Or.inr (Or.inl ⟨a1, w, fd, by simpa using e1, e2⟩)
      · obtain ⟨w, fd, e1, e2⟩ := opensNext_spec lib true ts a2
        exact Or.inr (Or.inr ⟨a1, w, fd, by simpa using e1, e2⟩)
    | succ k =>
      rw [List.getElem?_cons_succ] at hk
      have := ih hts k t hk
      simpa using this

/-- What `stageOk` says of a stage, and of an array that holds the stage from
index `off` on. -/
theorem stageOk_spec (lib : Lib) (st : List Token) (h : stageOk lib st = true) :
    (∃ w, st[0]? = some (Token.word w)) ∧ 1 ≤ st.length ∧ Token.T_PIPE ∉ st ∧
    ∀ (tok : List Token) (off : Nat), (∀ k, k < st.length → tok[off + k]? = st[k]?) →
      ∀ k, k < st.length → Passable lib tok off st.length k := by
  simp only [stageOk, Bool.and_eq_true] at h
  obtain ⟨hfirst, hargs⟩ := h
  have hget := argsOk_get lib st hargs
  have hw : ∃ w, st[0]? = some (Token.word w) := by
    cases st with
    | nil => simp at hfirst
    | cons a ts =>
      cases a with
      | word w => exact ⟨w, by simp⟩
      | T_NULL => simp at hfirst
      | T_PIPE => simp at hfirst
      | T_BGJOB => simp at hfirst
      | T_INPUT => simp at hfirst
      | T_OUTPUT => simp at hfirst
  refine ⟨hw, ?_, ?_, ?_⟩
  · obtain ⟨w, hw⟩ := hw
    have := (List.getElem?_eq_some_iff.mp hw).1
    omega
  · intro hmem
    obtain ⟨k, hk, e⟩ := List.getElem_of_mem hmem
    have hk' : st[k]? = some Token.T_PIPE := by rw [List.getElem?_eq_getElem hk, e]
    rcases hget k _ hk' with a | ⟨a, -⟩ | ⟨a, -⟩
    · exact absurd a (by decide)
    · exact absurd a (by decide)
    · exact absurd a (by decide)
  · intro tok off htok k hk
    have hk' : st[k]? = some st[k] := List.getElem?_eq_getElem hk
    refine ⟨st[k], by rw [htok k hk, hk'], ?_⟩
    rcases hget k _ hk' with a | ⟨a, w, fd, e1, e2⟩ | ⟨a, w, fd, e1, e2⟩
    · exact Or.inl a
    · have hlt : k + 1 < st.length := (List.getElem?_eq_some_iff.mp e1).1
      refine Or.inr (Or.inr (Or.inl ⟨a, hlt, w, fd, ?_, e2⟩))
      rw [Nat.add_assoc, htok (k + 1) hlt]
      exact e1
    · have hlt : k + 1 < st.length := (List.getElem?_eq_some_iff.mp e1).1
      refine Or.inr (Or.inr (Or.inr ⟨a, hlt, w, fd, ?_, e2⟩))
      rw [Nat.add_assoc, htok (k + 1) hlt]
      exact e1

/-- The rest of `do_pipeline` once the job exists: every further stage adds its
process to slot `j`, in order, and no other slot changes. -/
theorem pipe_tail (hd : Header) (lib : Lib)
    (hS : ∀ c w, ∃ c', lib.strapp c (Token.word w) = some c') (bg : Bool) (ntokens : Nat)
    (stages : List (List Token)) :
    stages ≠ [] → (∀ st ∈ stages, stageOk lib st = true) →
    ∀ (p : Pl) (pids more : List Int) (j : Nat) (job : Job),
      p.tok.drop p.token_offset = joinStages stages ++ [Token.T_NULL] →
      p.token_offset + (joinStages stages).length = ntokens →
      p.forks = pids ++ more → pids.length = stages.length → (∀ x ∈ pids, x ≠ 0) →
      p.pgid ≠ 0 → p.job = some j → p.s.getJob j = some job →
      ∃ p1 p2 job', pipeLoop hd lib bg (joinStages stages).length p.token_offset p = some p1 ∧
        spawnStage hd lib bg false
          { p1 with next_input := MaybeClose p1.next_input, output := MaybeClose p1.output }
          (ntokens - p1.token_offset) = some p2 ∧
        p2.job = some j ∧ p2.pgid = p.pgid ∧ p2.forks = more ∧
        p2.s.getJob j = some job' ∧ job'.proc = job.proc ++ pids.map (mkproc hd) ∧
        job'.pgid = job.pgid ∧ job'.state = job.state ∧ job'.tmodes = job.tmodes ∧
        (∀ k, k ≠ j → p2.s.getJob k = p.s.getJob k) ∧ p2.s.njobmax = p.s.njobmax := by
  induction stages with
  | nil => intro h; exact absurd rfl h
  | cons st rest ih =>
    intro _ hst p pids more j job htok hcnt hforks hlen hpids hpg hjob hj
    obtain ⟨⟨w, hw0⟩, hstlen, hnp, hpass⟩ := stageOk_spec lib st (hst st (List.mem_cons_self _ _))
    have hjlt := getJob_lt _ _ _ hj
    cases rest with
    | nil =>
      -- the last stage
      obtain ⟨pid, rfl⟩ : ∃ pid, pids = [pid] := by
        match pids, hlen with
        | [pid], _ => exact ⟨pid, rfl⟩
      have hj1 : joinStages [st] = st := rfl
      rw [hj1] at htok hcnt ⊢
      obtain ⟨f1, f2, f3, f4⟩ := layout_facts p.tok p.token_offset st Token.T_NULL [] htok
      have hskip := pipeLoop_skip hd lib bg p 0 st.length p.token_offset
        (stage_no_pipe p.tok p.token_offset st f1 hnp)
      rw [Nat.add_zero] at hskip
      have hlen' : ntokens - p.token_offset = st.length := by omega
      have hw : p.tok[p.token_offset]? = some (Token.word w) := by
        have := f1 0 (by omega)
        rw [Nat.add_zero] at this
        rw [this, hw0]
      obtain ⟨q, c, h1, h2, h3, h4, h5, -, -, -⟩ := spawnStage_next hd lib hS bg false
        { p with next_input := MaybeClose p.next_input, output := MaybeClose p.output }
        st.length pid more j job w hstlen f4 hw (hpass p.tok p.token_offset f1) hforks
        (hpids pid (List.mem_cons_self _ _)) (by simp) hjob hj
      refine ⟨p, q, { job with proc := job.proc ++ [mkproc hd pid], command := c },
        by rw [hskip]; rfl, by rw [hlen']; exact h1, h4, h3, h2,
        by rw [h5]; exact getJob_setJob_self _ _ _ hjlt, by simp, rfl, rfl, rfl,
        fun k hk => by rw [h5]; exact getJob_setJob_ne _ _ _ _ hk,
        by rw [h5]; exact njobmax_setJob _ _ _⟩
    | cons st2 more' =>
      obtain ⟨pid, pids', rfl⟩ : ∃ pid pids', pids = pid :: pids' := by
        match pids, hlen with
        | pid :: pids', _ => exact ⟨pid, pids', rfl⟩
      rw [joinStages_cons] at htok hcnt ⊢
      rw [List.append_assoc, List.cons_append] at htok
      obtain ⟨f1, f2, f3, f4⟩ := layout_facts p.tok p.token_offset st Token.T_PIPE _ htok
      have hL : (st ++ Token.T_PIPE :: joinStages (st2 :: more')).length =
          st.length + ((joinStages (st2 :: more')).length + 1) := by
        simp
      have hskip := pipeLoop_skip hd lib bg p ((joinStages (st2 :: more')).length + 1)
        st.length p.token_offset (stage_no_pipe p.tok p.token_offset st f1 hnp)
      have hw : p.tok[p.token_offset]? = some (Token.word w) := by
        have := f1 0 (by omega)
        rw [Nat.add_zero] at this
        rw [this, hw0]
      obtain ⟨q, c, h1, h2, h3, h4, h5, h6, h7, h8⟩ := spawnStage_next hd lib hS bg true
        p st.length pid (pids' ++ more) j job w hstlen f4 hw (hpass p.tok p.token_offset f1)
        hforks (hpids pid (List.mem_cons_self _ _)) (by simp [hpg]) hjob hj
      have hsub : p.token_offset + st.length - p.token_offset = st.length := by omega
      have hstep : pipeLoop hd lib bg (st ++ Token.T_PIPE :: joinStages (st2 :: more')).length
          p.token_offset p =
          pipeLoop hd lib bg (joinStages (st2 :: more')).length (p.token_offset + st.length + 1)
            { q with input := q.next_input, next_input := (lib.Pipe q.npipe).1,
                     output := (lib.Pipe q.npipe).2, npipe := q.npipe + 1,
                     token_offset := p.token_offset + st.length + 1 } := by
        rw [hL, hskip, pipeLoop_succ, f2]
        dsimp only
        rw [if_pos rfl, hsub, h1]
      have hdrop : q.tok.drop (p.token_offset + st.length + 1) =
          joinStages (st2 :: more') ++ [Token.T_NULL] := by
        rw [drop_eq_of_tail q.tok p.tok (p.token_offset + st.length) h7, f3]
      obtain ⟨p1, p2, job', g1, g2, g3, g4, g5, g6, g7, g8, g9, g10, g11, g12⟩ :=
        ih (by simp) (fun s hs => hst s (List.mem_cons_of_mem _ hs))
          { q with input := q.next_input, next_input := (lib.Pipe q.npipe).1,
                   output := (lib.Pipe q.npipe).2, npipe := q.npipe + 1,
                   token_offset := p.token_offset + st.length + 1 }
          pids' more j { job with proc := job.proc ++ [mkproc hd pid], command := c }
          hdrop (by simp only [hL] at hcnt; show _ + 1 + _ = _; omega) h2
          (by simpa using hlen) (fun x hx => hpids x (List.mem_cons_of_mem _ hx))
          (by show q.pgid ≠ 0; rw [h3]; exact hpg) h4
          (by show q.s.getJob j = _; rw [h5]; exact getJob_setJob_self _ _ _ hjlt)
      refine ⟨p1, p2, job', by rw [hstep]; exact g1, g2, g3, by rw [g4]; exact h3, g5, g6,
        by rw [g7]; simp, g8, g9, g10, fun k hk => ?_, ?_⟩
      · rw [g11 k hk]
        show q.s.getJob k = _
        rw [h5]
        exact getJob_setJob_ne _ _ _ _ hk
      · rw [g12]
        show q.s.njobmax = _
        rw [h5]
        exact njobmax_setJob _ _ _

/-- What `addjob` does to the table: the slot it returns holds the new job and
every other slot is as before.  For a foreground job the slot is 0; for a
background job it is the lowest free background slot, or a new last slot if
none is free. -/
theorem addjob_spec (hd : Header) (s : St) (pgid : Int) (bg : Bool) :
    (addjob hd s pgid bg).2.getJob (addjob hd s pgid bg).1 =
      some { pgid := pgid, state := hd.RUNNING, command := none, proc := [],
             tmodes := s.shell_tmodes } ∧
    (∀ k, k ≠ (addjob hd s pgid bg).1 → (addjob hd s pgid bg).2.getJob k = s.getJob k) ∧
    (bg = false → (addjob hd s pgid bg).1 = FG ∧ (addjob hd s pgid bg).2.njobmax = s.njobmax) ∧
    (bg = true → 1 ≤ (addjob hd s pgid bg).1 ∧
      (∀ k job, 1 ≤ k → k < (addjob hd s pgid bg).1 → s.getJob k = some job → job.pgid ≠ 0) ∧
      (((addjob hd s pgid bg).1 < s.njobmax ∧
          (∃ job, s.getJob (addjob hd s pgid bg).1 = some job ∧ job.pgid = 0) ∧
          (addjob hd s pgid bg).2.njobmax = s.njobmax) ∨
        ((addjob hd s pgid bg).1 = s.njobmax ∧
          (addjob hd s pgid bg).2.njobmax = s.njobmax + 1))) := by
  cases bg with
  | false =>
    have e : addjob hd s pgid false = (FG, s.setJob FG
        { pgid := pgid, state := hd.RUNNING, command := none, proc := [],
          tmodes := s.shell_tmodes }) := rfl
    rw [e]
    exact ⟨getJob_setJob_self _ _ _ (by simp [St.njobmax]),
      fun k hk => getJob_setJob_ne _ _ _ _ hk, fun _ => ⟨rfl, njobmax_setJob _ _ _⟩,
      fun h => by cases h⟩
  | true =>
    have e : addjob hd s pgid true = ((allocjob s).1, (allocjob s).2.setJob (allocjob s).1
        { pgid := pgid, state := hd.RUNNING, command := none, proc := [],
          tmodes := s.shell_tmodes }) := rfl
    rw [e]
    obtain ⟨h1, ⟨fr, hfr, hfr0⟩, hlow, hoth, -, -, -, -, -, -, -, hcase⟩ := allocjob_spec s
    refine ⟨getJob_setJob_self _ _ _ (getJob_lt _ _ _ hfr), fun k hk => ?_,
      fun h => (by cases h), fun _ => ⟨h1, hlow, ?_⟩⟩
    · show ((allocjob s).2.setJob (allocjob s).1 _).getJob k = _
      rw [getJob_setJob_ne _ _ _ _ hk]
      exact hoth k hk
    · show ((allocjob s).1 < s.njobmax ∧ (∃ job, s.getJob (allocjob s).1 = some job ∧
          job.pgid = 0) ∧ ((allocjob s).2.setJob (allocjob s).1 _).njobmax = s.njobmax) ∨
        ((allocjob s).1 = s.njobmax ∧
          ((allocjob s).2.setJob (allocjob s).1 _).njobmax = s.njobmax + 1)
      rw [njobmax_setJob]
      rcases hcase with ⟨c1, c2⟩ | ⟨c1, c2⟩
      · refine Or.inl ⟨c1, ⟨fr, ?_, hfr0⟩, by rw [c2]⟩
        rw [c2] at hfr
        exact hfr
      · exact Or.inr ⟨c1, c2⟩

/-- C6, as stated, fails.  The token sequences `> f | b` and `a > | b` are made
of two non-empty stages separated by one pipe token, and `Fork` gives the shell
the pids 7 and 8, yet `do_pipeline` registers no job with two records: it does
not get to line 232.  For `> f | b`, `do_redir` returns 2 for the first stage,
so `do_stage` forks, `addjob` makes the job, and `addproc` calls `mkcommand` on
the stage, which `do_redir` has overwritten with `NULL`s: `strapp(cmdp, NULL)`
does not return.  For `a > | b`, `do_redir` calls `Open` on the pipe token. -/
theorem do_pipeline_stage_without_command :
    joinStages [[Token.T_OUTPUT, Token.word "f"], [Token.word "b"]] =
      [Token.T_OUTPUT, Token.word "f", Token.T_PIPE, Token.word "b"] ∧
    do_stage okLib (-1) 5
        [Token.T_OUTPUT, Token.word "f", Token.T_PIPE, Token.word "b", Token.T_NULL] 0 2 [7, 8] =
      some (7, [Token.T_NULL, Token.T_NULL, Token.T_NULL, Token.word "b", Token.T_NULL], [8]) ∧
    mkcommand okLib none
        [Token.T_NULL, Token.T_NULL, Token.T_NULL, Token.word "b", Token.T_NULL] = none ∧
    do_pipeline_spawn linux okLib
        (joinStages [[Token.T_OUTPUT, Token.word "f"], [Token.word "b"]] ++ [Token.T_NULL]) 4
        false emptyTable [7, 8] = none ∧
    joinStages [[Token.word "a", Token.T_OUTPUT], [Token.word "b"]] =
      [Token.word "a", Token.T_OUTPUT, Token.T_PIPE, Token.word "b"] ∧
    do_redir okLib
        [Token.word "a", Token.T_OUTPUT, Token.T_PIPE, Token.word "b", Token.T_NULL] 0 2
        (-1) 5 = none ∧
    do_pipeline_spawn linux okLib
        (joinStages [[Token.word "a", Token.T_OUTPUT], [Token.word "b"]] ++ [Token.T_NULL]) 4
        false emptyTable [7, 8] = none :=
  ⟨by decide, by decide, by decide, by rfl, by decide, by decide, by rfl⟩

/-- C6 (amended): take a token sequence of `N ≥ 2` stages joined by pipe tokens
(and followed by the tokenizer's `NULL`), where every stage begins with a word
and goes on with words and with redirection operators, each followed by a file
name that `Open` opens.  When `strapp` returns on strings and `Fork` gives the
shell the pids `pids` of the `N` children, `do_pipeline` reaches line 232, and
then one slot `j` holds a job of exactly `N` process records, whose pids are
`pids` in stage order and whose pgid is the first of them; every other slot is
as before.  For a foreground job `j` is slot 0; for a background job it is the
lowest free background slot, or a new last slot if none is free. -/
theorem do_pipeline_registers (hd : Header) (lib : Lib)
    (hS : ∀ c w, ∃ c', lib.strapp c (Token.word w) = some c')
    (stages : List (List Token)) (hN : 2 ≤ stages.length)
    (hst : ∀ st ∈ stages, stageOk lib st = true)
    (pids more : List Int) (hlen : pids.length = stages.length) (hpids : ∀ x ∈ pids, x ≠ 0)
    (bg : Bool) (s : St) :
    ∃ p j job,
      do_pipeline_spawn hd lib (joinStages stages ++ [Token.T_NULL])
        (joinStages stages).length bg s (pids ++ more) = some p ∧
      p.job = some j ∧
      (bg = false → j = FG ∧ p.s.njobmax = s.njobmax) ∧
      (bg = true → 1 ≤ j ∧
        (∀ k job, 1 ≤ k → k < j → s.getJob k = some job → job.pgid ≠ 0) ∧
        ((j < s.njobmax ∧ (∃ job, s.getJob j = some job ∧ job.pgid = 0) ∧
            p.s.njobmax = s.njobmax) ∨
          (j = s.njobmax ∧ p.s.njobmax = s.njobmax + 1))) ∧
      p.s.getJob j = some job ∧
      job.nproc = stages.length ∧ job.proc.map Proc.pid = pids ∧
      (∀ r ∈ job.proc, r.state = hd.RUNNING) ∧
      pids.head? = some job.pgid ∧ p.pgid = job.pgid ∧
      (∀ k, k ≠ j → p.s.getJob k = s.getJob k) := by
  obtain ⟨st, st2, rest, rfl⟩ : ∃ st st2 rest, stages = st :: st2 :: rest := by
    match stages, hN with
    | st :: st2 :: rest, _ => exact ⟨st, st2, rest, rfl⟩
  obtain ⟨pid, pids', rfl⟩ : ∃ pid pids', pids = pid :: pids' := by
    match pids, hlen with
    | pid :: pids', _ => exact ⟨pid, pids', rfl⟩
  obtain ⟨⟨w, hw0⟩, hstlen, hnp, hpass⟩ := stageOk_spec lib st (hst st (List.mem_cons_self _ _))
  let p0 : Pl :=
    { s := s, tok := joinStages (st :: st2 :: rest) ++ [Token.T_NULL],
      forks := pid :: pids' ++ more, pgid := 0, job := none, input := -1,
      output := (lib.Pipe 0).2, next_input := (lib.Pipe 0).1, token_offset := 0, npipe := 1 }
  have htok : p0.tok.drop p0.token_offset =
      st ++ Token.T_PIPE :: (joinStages (st2 :: rest) ++ [Token.T_NULL]) := by
    show List.drop 0 (joinStages (st :: st2 :: rest) ++ [Token.T_NULL]) = _
    rw [List.drop_zero, joinStages_cons, List.append_assoc, List.cons_append]
  obtain ⟨f1, f2, f3, f4⟩ := layout_facts p0.tok 0 st Token.T_PIPE _ htok
  have hL : (joinStages (st :: st2 :: rest)).length =
      st.length + ((joinStages (st2 :: rest)).length + 1) := by
    rw [joinStages_cons]; simp
  have hskip := pipeLoop_skip hd lib bg p0 ((joinStages (st2 :: rest)).length + 1)
    st.length 0 (stage_no_pipe p0.tok 0 st f1 hnp)
  have hw : p0.tok[p0.token_offset]? = some (Token.word w) := by
    have := f1 0 (by omega)
    rw [Nat.add_zero] at this
    show p0.tok[0]? = _
    rw [this, hw0]
  obtain ⟨q, c, h1, h2, h3, h4, h5, h6, h7, h8⟩ := spawnStage_first hd lib hS bg p0
    st.length pid (pids' ++ more) w hstlen f4 hw (hpass p0.tok 0 f1) rfl
    (hpids pid (List.mem_cons_self _ _)) rfl
  obtain ⟨a1, a2, a3, a4⟩ := addjob_spec hd s pid bg
  have hjlt := getJob_lt _ _ _ a1
  have hstep : pipeLoop hd lib bg (joinStages (st :: st2 :: rest)).length 0 p0 =
      pipeLoop hd lib bg (joinStages (st2 :: rest)).length (0 + st.length + 1)
        { q with input := q.next_input, next_input := (lib.Pipe q.npipe).1,
                 output := (lib.Pipe q.npipe).2, npipe := q.npipe + 1,
                 token_offset := 0 + st.length + 1 } := by
    rw [hL, hskip, pipeLoop_succ, f2]
    dsimp only
    rw [if_pos rfl]
    have : 0 + st.length - p0.token_offset = st.length := by
      show 0 + st.length - 0 = st.length
      omega
    rw [this, h1]
  have hdrop : q.tok.drop (0 + st.length + 1) = joinStages (st2 :: rest) ++ [Token.T_NULL] := by
    rw [drop_eq_of_tail q.tok p0.tok (0 + st.length) h7, f3]
  obtain ⟨p1, p2, job', g1, g2, g3, g4, g5, g6, g7, g8, g9, g10, g11, g12⟩ :=
    pipe_tail hd lib hS bg (joinStages (st :: st2 :: rest)).length (st2 :: rest) (by simp)
      (fun x hx => hst x (List.mem_cons_of_mem _ hx))
      { q with input := q.next_input, next_input := (lib.Pipe q.npipe).1,
               output := (lib.Pipe q.npipe).2, npipe := q.npipe + 1,
               token_offset := 0 + st.length + 1 }
      pids' more (addjob hd s pid bg).1
      { pgid := pid, proc := [mkproc hd pid], tmodes := s.shell_tmodes,
        state := hd.RUNNING, command := c }
      hdrop (by rw [hL]; show 0 + st.length + 1 + _ = _; omega) h2
      (by simpa using hlen) (fun x hx => hpids x (List.mem_cons_of_mem _ hx))
      (by show q.pgid ≠ 0; rw [h3]; exact hpids pid (List.mem_cons_self _ _)) h4
      (by show q.s.getJob _ = _; rw [h5]; exact getJob_setJob_self _ _ _ hjlt)
  have hnj : p2.s.njobmax = (addjob hd s pid bg).2.njobmax := by
    rw [g12]
    show q.s.njobmax = _
    rw [h5]
    exact njobmax_setJob _ _ _
  refine ⟨p2, (addjob hd s pid bg).1, job', ?_, g3, ?_, ?_, g6, ?_, ?_, ?_, ?_, ?_, ?_⟩
  · unfold do_pipeline_spawn
    show (match pipeLoop hd lib bg (joinStages (st :: st2 :: rest)).length 0 p0 with
      | some p => spawnStage hd lib bg false
          { p with next_input := MaybeClose p.next_input, output := MaybeClose p.output }
          ((joinStages (st :: st2 :: rest)).length - p.token_offset)
      | none => none) = some p2
    rw [hstep, g1]
    exact g2
  · intro hb
    rw [hnj]
    exact a3 hb
  · intro hb
    rw [hnj]
    exact a4 hb
  · unfold Job.nproc
    rw [g7]
    simp only [List.length_append, List.length_map, List.length_cons, List.length_nil]
    simp only [List.length_cons] at hlen
    omega
  · rw [g7]
    have hmap : ∀ l : List Int, List.map Proc.pid (l.map (mkproc hd)) = l := by
      intro l
      induction l with
      | nil => rfl
      | cons x xs ih => simp only [List.map_cons, ih]; rfl
    rw [List.map_append, hmap]
    rfl
  · intro r hr
    rw [g7] at hr
    simp only [List.singleton_append, List.mem_cons, List.mem_map] at hr
    rcases hr with e | ⟨x, -, e⟩
    · rw [e]; rfl
    · rw [← e]; rfl
  · rw [g8]; rfl
  · rw [g4, g8]; exact h3
  · intro k hk
    rw [g11 k hk]
    show q.s.getJob k = _
    rw [h5, getJob_setJob_ne _ _ _ _ hk]
    exact a2 k hk

/-- C6 (amended) on the pipeline `a x | b > f | c`, started in the background
of the table `fgPipe` with the children 7, 8 and 9: the job is registered in
slot 2, the lowest free background slot. -/
theorem do_pipeline_registers_witness :
    (∀ st ∈ threeStages, stageOk okLib st = true) ∧
    (do_pipeline_spawn linux okLib (joinStages threeStages ++ [Token.T_NULL])
        (joinStages threeStages).length true fgPipe ([7, 8, 9] ++ [])).map
      (fun p => (p.job, p.s.getJob 2)) =
      some (some 2, some { pgid := 7, proc := [⟨7, 1, -1⟩, ⟨8, 1, -1⟩, ⟨9, 1, -1⟩],
                           tmodes := 9, state := 1, command := some "a x | b | c" }) ∧
    ∃ p j job,
      do_pipeline_spawn linux okLib (joinStages threeStages ++ [Token.T_NULL])
        (joinStages threeStages).length true fgPipe ([7, 8, 9] ++ []) = some p ∧
      p.job = some j ∧
      (true = false → j = FG ∧ p.s.njobmax = fgPipe.njobmax) ∧
      (true = true → 1 ≤ j ∧
        (∀ k job, 1 ≤ k → k < j → fgPipe.getJob k = some job → job.pgid ≠ 0) ∧
        ((j < fgPipe.njobmax ∧ (∃ job, fgPipe.getJob j = some job ∧ job.pgid = 0) ∧
            p.s.njobmax = fgPipe.njobmax) ∨
          (j = fgPipe.njobmax ∧ p.s.njobmax = fgPipe.njobmax + 1))) ∧
      p.s.getJob j = some job ∧
      job.nproc = threeStages.length ∧ job.proc.map Proc.pid = [7, 8, 9] ∧
      (∀ r ∈ job.proc, r.state = linux.RUNNING) ∧
      ([7, 8, 9] : List Int).head? = some job.pgid ∧ p.pgid = job.pgid ∧
      (∀ k, k ≠ j → p.s.getJob k = fgPipe.getJob k) :=
  ⟨by decide, by rfl,
    do_pipeline_registers linux okLib (fun c w => ⟨some (c.getD "" ++ w), rfl⟩) threeStages
      (by decide) (by decide) [7, 8, 9] [] (by decide) (by decide) true fgPipe⟩

/-! ### `do_redir` -/

/-- C11: `do_redir` does not return the number of tokens left after the
redirections are removed.  For `cat < in` (3 tokens, one token left) it returns
3 and only overwrites `<` and `in` by `NULL`; for `cat < in x` (4 tokens, two
left) it returns 4 and leaves `x` at index 3, behind two `NULL`s, instead of
moving it to index 1.  In both cases the `NULL` it writes at the end is at
index `ntokens`. -/
theorem do_redir_returns_ntokens :
    withoutRedirs [Token.word "cat", Token.T_INPUT, Token.word "in"] = [Token.word "cat"] ∧
    do_redir okLib
        [Token.word "cat", Token.T_INPUT, Token.word "in", Token.T_NULL] 0 3 (-1) (-1) =
      some (3, [Token.word "cat", Token.T_NULL, Token.T_NULL, Token.T_NULL], 3, -1) ∧
    withoutRedirs [Token.word "cat", Token.T_INPUT, Token.word "in", Token.word "x"] =
      [Token.word "cat", Token.word "x"] ∧
    do_redir okLib
        [Token.word "cat", Token.T_INPUT, Token.word "in", Token.word "x", Token.T_NULL]
        0 4 (-1) (-1) =
      some (4, [Token.word "cat", Token.T_NULL, Token.T_NULL, Token.word "x", Token.T_NULL],
        3, -1) := by
  decide

end Sh
